import Mathlib

/-!
# proc_softirqs.c : the softirqs collector

A shallow embedding of `src/proc_softirqs.c` and the properties of its
per-cycle reconciliation of table rows against the metric sink.

Conventions of the embedding.

* A C string is the list of its characters (`CStr`), without the terminating
  NUL.
* `unsigned long long` values are naturals reduced modulo `2^64` wherever the
  C code adds them.  The line and word counts of the table reader are taken as
  naturals.
* Pointers into the sink (`RRDSET *`, `RRDDIM *`) are indices into the lists
  of charts and dimensions held by the sink; `NULL` is `none`.
* The function-static variables of the C file are the fields of `State`.
* Every answer of the outside world within one call (configuration, the table
  reader, the contents of freshly reallocated memory) is a field of `Env`.
* The sink records every call it receives.  Each record carries, as ghost
  information, the program point (`Site`) of the call.
* The sink functions (`rrdset_*`, `rrddim_*`) are not part of this source
  file; they are modelled from the contracts of the specification.  The
  arguments of `rrdset_create` and `rrddim_add` that only format a chart
  (family, context, units, chart type, multiplier, divisor, algorithm) are
  left out.
-/

namespace Softirqs

/-- C strings, as lists of characters. -/
abbrev CStr := List Char

/-- The constant `MAX_INTERRUPT_NAME` of the source. -/
def MAX_INTERRUPT_NAME : Nat := 50

/-- The largest `unsigned long long`. -/
def ULLONG_MAX : Nat := 18446744073709551615

/-- The modulus of `unsigned long long` arithmetic. -/
def U64 : Nat := 18446744073709551616

/-! ## libc and netdata string helpers -/

/-- The libc `strncmp`, up to the sign of a non-zero result: `0` when the two strings agree on their first `n` characters, `1` otherwise.  The source only tests the result against `0`. -/
def strncmp (a b : CStr) (n : Nat) : Int :=
  if a.take n = b.take n then 0 else 1

/-- The netdata helper `strncpyz(dst, src, n)`: the string left in `dst`, at most `n` characters of `src`. -/
def strncpyz (src : CStr) (n : Nat) : CStr :=
  src.take n

/-- The libc `isspace` in the C locale. -/
def isspace (c : Char) : Bool :=
  c = ' ' || c = '\t' || c = '\n' || c = '\x0b' || c = '\x0c' || c = '\r'

/-- The libc `strtoull(s, NULL, 10)`: leading white space, an optional sign, then the longest run of decimal digits; `0` without digits, `ULLONG_MAX` on overflow, negated modulo `2^64` after a minus sign. -/
def strtoull (s : CStr) : Nat :=
  let s1 := s.dropWhile isspace
  let neg := s1.head? = some '-'
  let s2 := if s1.head? = some '-' ∨ s1.head? = some '+' then s1.tail else s1
  let ds := s2.takeWhile Char.isDigit
  let n := ds.foldl (fun acc d => acc * 10 + (d.toNat - 48)) 0
  if n > ULLONG_MAX then ULLONG_MAX
  else if neg then (U64 - n) % U64
  else n

/-- The text `snprintfz(id, 50, "cpu%d_softirqs", c)` leaves in `id`. -/
def cpu_chart_id (c : Nat) : CStr :=
  ("cpu".toList ++ (Nat.repr c).toList ++ "_softirqs".toList).take 50

/-- The text `snprintfz(title, 100, "CPU%d softirqs", c)` leaves in `title`. -/
def cpu_chart_title (c : Nat) : CStr :=
  ("CPU".toList ++ (Nat.repr c).toList ++ " softirqs".toList).take 100

/-! ## The record store -/

/-- The C `struct cpu_interrupt`. -/
structure cpu_interrupt where
  value : Nat
  rd : Option Nat
deriving DecidableEq, Repr, Inhabited

/-- The C `struct interrupt`; `name` is the C string held by the array `name[MAX_INTERRUPT_NAME + 1]`, `cpu` the flexible array member. -/
structure interrupt where
  used : Int
  id : CStr
  name : CStr
  rd : Option Nat
  total : Nat
  cpu : List cpu_interrupt
deriving DecidableEq, Repr, Inhabited

/-- The function-static variables of the file: `ff`, `cpus` and `do_per_core` of `do_proc_softirqs` (`ff` holds whether the pointer is non-NULL), `irrs` and `allocated` of `get_interrupts_array`. -/
structure State where
  ff : Bool
  cpus : Int
  do_per_core : Int
  irrs : List interrupt
  allocated : Nat
deriving DecidableEq, Repr

/-- The values of the statics when the process starts. -/
def State.init : State :=
  { ff := false, cpus := -1, do_per_core := -1, irrs := [], allocated := 0 }

/-- What the reset loop of `get_interrupts_array` leaves in one record of `cpus` columns: `rd`, `name[0]` and every `cpu[c].rd` are cleared, the other fields keep what the memory block held. -/
def reset_record (cpus : Int) (r : interrupt) : interrupt :=
  { r with
    rd := none
    name := []
    cpu := (List.range cpus.toNat).map
      (fun c => { value := (r.cpu.getD c default).value, rd := none }) }

/-- The function `get_interrupts_array(lines, cpus)`.  `raw l` is record `l` of the block `reallocz` returns, read with the layout of `cpus` columns, before the reset loop runs. -/
def get_interrupts_array (s : State) (lines : Nat) (cpus : Int) (raw : Nat → interrupt) : State :=
  if lines ≠ s.allocated then
    { s with
      irrs := (List.range lines).map (fun l => reset_record cpus (raw l))
      allocated := lines }
  else s

/-! ## The metric sink -/

/-- The program point of a sink call: outside the row loops, in the aggregate loop at row `l`, or in the per-core loop of column `c` at row `l`. -/
inductive Site where
  | chart
  | aggregate (l : Nat)
  | percore (c l : Nat)
deriving DecidableEq, Repr

/-- The calls the collector makes on the sink, with the arguments that identify charts, dimensions and values. -/
inductive SinkCall where
  | rrdset_find_bytype (type id : CStr)
  | rrdset_create (type id title : CStr) (priority update_every : Int)
  | rrdset_next (st : Nat)
  | rrdset_done (st : Nat)
  | rrddim_find (st : Nat) (id : CStr)
  | rrddim_add (st : Nat) (id name : CStr)
  | rrddim_set_name (st rd : Nat) (name : CStr)
  | rrddim_set_by_pointer (st rd : Nat) (value : Nat)
deriving DecidableEq, Repr

/-- A chart of the sink, identified by type and id. -/
structure RRDSET where
  type : CStr
  id : CStr
deriving DecidableEq, Repr, Inhabited

/-- A dimension (series) of the sink: its chart, its key, its display name and the samples appended to it. -/
structure RRDDIM where
  st : Nat
  id : CStr
  name : CStr
  collected : List Nat
deriving DecidableEq, Repr, Inhabited

/-- The sink: its charts, its dimensions and the record of the calls it received, oldest first. -/
structure Sink where
  sets : List RRDSET
  dims : List RRDDIM
  calls : List (Site × SinkCall)
deriving DecidableEq, Repr

/-- The sink without charts. -/
def Sink.empty : Sink := { sets := [], dims := [], calls := [] }

/-- The display name behind a dimension pointer, `rd->name`. -/
def Sink.dim_name (k : Sink) (rd : Nat) : CStr := (k.dims.getD rd default).name

/-- The key behind a dimension pointer, `rd->id`. -/
def Sink.dim_id (k : Sink) (rd : Nat) : CStr := (k.dims.getD rd default).id

/-- Modelled from the spec: `rrdset_find_bytype`, the chart lookup of the sink by (type, id); the chart or NULL. -/
def rrdset_find_bytype (k : Sink) (type id : CStr) : Option Nat × Sink :=
  (k.sets.findIdx? (fun s => s.type = type ∧ s.id = id),
   { k with calls := k.calls ++ [(Site.chart, SinkCall.rrdset_find_bytype type id)] })

/-- Modelled from the spec: `rrdset_create`, which adds a chart to the sink and returns it. -/
def rrdset_create (k : Sink) (type id title : CStr) (priority update_every : Int) : Nat × Sink :=
  (k.sets.length,
   { k with
     sets := k.sets ++ [{ type := type, id := id }]
     calls := k.calls ++ [(Site.chart, SinkCall.rrdset_create type id title priority update_every)] })

/-- Modelled from the spec: `rrdset_next`, which opens a new collection round on a chart. -/
def rrdset_next (k : Sink) (st : Nat) : Sink :=
  { k with calls := k.calls ++ [(Site.chart, SinkCall.rrdset_next st)] }

/-- Modelled from the spec: `rrdset_done`, which closes the collection round of a chart. -/
def rrdset_done (k : Sink) (st : Nat) : Sink :=
  { k with calls := k.calls ++ [(Site.chart, SinkCall.rrdset_done st)] }

/-- Modelled from the spec: `rrddim_find`, the find half of find-or-create, by chart and series key; the dimension or NULL. -/
def rrddim_find (site : Site) (k : Sink) (st : Nat) (id : CStr) : Option Nat × Sink :=
  (k.dims.findIdx? (fun d => d.st = st ∧ d.id = id),
   { k with calls := k.calls ++ [(site, SinkCall.rrddim_find st id)] })

/-- Modelled from the spec: `rrddim_add`, the create half of find-or-create; the new dimension stores the key and the display name it is given. -/
def rrddim_add (site : Site) (k : Sink) (st : Nat) (id name : CStr) : Nat × Sink :=
  (k.dims.length,
   { k with
     dims := k.dims ++ [{ st := st, id := id, name := name, collected := [] }]
     calls := k.calls ++ [(site, SinkCall.rrddim_add st id name)] })

/-- Modelled from the spec: `rrddim_set_name`, the rename of the sink; the display name changes, the key does not. -/
def rrddim_set_name (site : Site) (k : Sink) (st rd : Nat) (name : CStr) : Sink :=
  { k with
    dims := k.dims.modify (fun d => { d with name := name }) rd
    calls := k.calls ++ [(site, SinkCall.rrddim_set_name st rd name)] }

/-- Modelled from the spec: `rrddim_set_by_pointer`, the append of a sample through a handle; the sample is kept as the unsigned number the collector passes. -/
def rrddim_set_by_pointer (site : Site) (k : Sink) (st rd : Nat) (value : Nat) : Sink :=
  { k with
    dims := k.dims.modify (fun d => { d with collected := d.collected ++ [value] }) rd
    calls := k.calls ++ [(site, SinkCall.rrddim_set_by_pointer st rd value)] }

/-! ## One call of `do_proc_softirqs` -/

/-- The answers of the outside world during one call: what `config_get_boolean` returns for "interrupts per core", whether `procfile_open` succeeds, the lines and words `procfile_readall` yields (`none` when it fails), and the contents of the block `reallocz` returns. -/
structure Env where
  per_core : Int
  open_ok : Bool
  file : Option (List (List CStr))
  raw : Nat → interrupt

/-- The outcome of one call: the return value, the statics, the sink and the messages passed to `error`. -/
structure Result where
  ret : Int
  st : State
  sink : Sink
  errors : List String

/-- The `for(l = ...; l < lines; l++)` loops over the records: `body l` runs on record `l` (`irrindex(irrs, l, cpus)`) and on the sink, for the values of `l` in the list. -/
def for_lines (body : Nat → interrupt → Sink → interrupt × Sink) :
    List Nat → List interrupt → Sink → List interrupt × Sink
  | [], irrs, k => (irrs, k)
  | l :: ls, irrs, k =>
    let r := body l (irrs.getD l default) k
    for_lines body ls (irrs.set l r.1) r.2

/-- The header loop of lines 81-84: the number of words of line 0 that start with "CPU". -/
def count_cpus (header : List CStr) : Int :=
  header.foldl (fun cpus w => if strncmp w "CPU".toList 3 = 0 then cpus + 1 else cpus) 0

/-- Lines 108-110: the last character of a non-empty id is overwritten with NUL when it is a colon. -/
def strip_colon (id : CStr) : CStr :=
  let idlen := id.length
  if id.getD (idlen - 1) default = ':' then id.take (idlen - 1) else id

/-- Lines 114-117: the value of column `c` of a line with the words `ws`, parsed from word `c + 1` when the line has it, zero otherwise. -/
def column_value (ws : List CStr) (c : Nat) : Nat :=
  if c + 1 < ws.length then strtoull (ws.getD (c + 1) []) else 0

/-- One round of the value loop of lines 113-120, for column `c` of a line with the words `ws`. -/
def parse_value (ws : List CStr) (irr : interrupt) (c : Nat) : interrupt :=
  { irr with
    cpu := irr.cpu.modify (fun x => { x with value := column_value ws c }) c
    total := (irr.total + column_value ws c) % U64 }

/-- The body of the parsing loop, lines 98-124, on the words `ws` of the line. -/
def parse_line (cpus : Int) (ws : List CStr) (irr : interrupt) : interrupt :=
  let irr := { irr with used := 0, total := 0 }
  if ws.length = 0 then irr
  else
    let irr := { irr with id := ws.getD 0 [] }
    if irr.id = [] then irr
    else
      let irr := { irr with id := strip_colon irr.id }
      let irr := (List.range cpus.toNat).foldl (parse_value ws) irr
      { irr with name := strncpyz irr.id MAX_INTERRUPT_NAME, used := 1 }

/-- Lines 142-146 and 187-191: find the dimension by key, add it when it is missing, rename it otherwise. -/
def find_or_create (site : Site) (k : Sink) (st : Nat) (id name : CStr) : Nat × Sink :=
  let f := rrddim_find site k st id
  match f.1 with
  | none => rrddim_add site f.2 st id name
  | some rd => (rd, rrddim_set_name site f.2 st rd name)

/-- Lines 151-152: the loop that clears `cpu[c].rd` for every column below `cpus`. -/
def reset_cpu_rds (cpus : Int) (cpu : List cpu_interrupt) : List cpu_interrupt :=
  (List.range cpus.toNat).foldl (fun cpu c => cpu.modify (fun x => { x with rd := none }) c) cpu

/-- Lines 142-153: the handle of the record is resolved again by find-or-create and, with per-core emission, its per-core handles are cleared; line 155 then appends the total. -/
def aggregate_resolve (do_per_core cpus : Int) (st : Nat) (l : Nat) (irr : interrupt) (k : Sink) :
    interrupt × Sink :=
  let r := find_or_create (Site.aggregate l) k st irr.id irr.name
  let irr := { irr with rd := some r.1 }
  let irr := if do_per_core ≠ 0 then { irr with cpu := reset_cpu_rds cpus irr.cpu } else irr
  (irr, rrddim_set_by_pointer (Site.aggregate l) r.2 st r.1 irr.total)

/-- The body of the aggregate loop, lines 136-155, at row `l` of chart `st`. -/
def aggregate_line (do_per_core cpus : Int) (st : Nat) (l : Nat) (irr : interrupt) (k : Sink) :
    interrupt × Sink :=
  if irr.used = 0 then (irr, k)
  else
    match irr.rd with
    | none => aggregate_resolve do_per_core cpus st l irr k
    | some rd =>
      if strncmp irr.name (k.dim_name rd) MAX_INTERRUPT_NAME ≠ 0 then
        aggregate_resolve do_per_core cpus st l irr k
      else (irr, rrddim_set_by_pointer (Site.aggregate l) k st rd irr.total)

/-- The loop of lines 170-174: the sum, in `unsigned long long`, of column `c` over the used records. -/
def core_sum (irrs : List interrupt) (lines : Nat) (c : Nat) : Nat :=
  (List.range lines).foldl
    (fun sum l =>
      let irr := irrs.getD l default
      if irr.used = 0 then sum else (sum + (irr.cpu.getD c default).value) % U64)
    0

/-- Lines 187-193 for a record without handle for column `c`: the handle is resolved by find-or-create, then the value is appended. -/
def percore_resolve (c : Nat) (st : Nat) (l : Nat) (irr : interrupt) (k : Sink) :
    interrupt × Sink :=
  let r := find_or_create (Site.percore c l) k st irr.id irr.name
  ({ irr with cpu := irr.cpu.modify (fun x => { x with rd := some r.1 }) c },
   rrddim_set_by_pointer (Site.percore c l) r.2 st r.1 (irr.cpu.getD c default).value)

/-- The body of the per-core row loop, lines 184-193, at row `l` of the chart `st` of column `c`. -/
def percore_line (c : Nat) (st : Nat) (l : Nat) (irr : interrupt) (k : Sink) : interrupt × Sink :=
  if irr.used = 0 then (irr, k)
  else
    match (irr.cpu.getD c default).rd with
    | none => percore_resolve c st l irr k
    | some rd =>
      (irr, rrddim_set_by_pointer (Site.percore c l) k st rd (irr.cpu.getD c default).value)

/-- Lines 183-195: the row loop of column `c` on its chart `st`, then `rrdset_done`. -/
def percore_emit (lines : Nat) (c : Nat) (st : Nat) (x : List interrupt × Sink) :
    List interrupt × Sink :=
  let r := for_lines (percore_line c st) (List.range lines) x.1 x.2
  (r.1, rrdset_done r.2 st)

/-- The body of the per-core column loop, lines 163-195, for column `c`. -/
def percore_cpu (update_every : Int) (lines : Nat) (x : List interrupt × Sink) (c : Nat) :
    List interrupt × Sink :=
  let f := rrdset_find_bytype x.2 "cpu".toList (cpu_chart_id c)
  match f.1 with
  | none =>
    if core_sum x.1 lines c = 0 then (x.1, f.2)
    else
      let n := rrdset_create f.2 "cpu".toList (cpu_chart_id c) (cpu_chart_title c) (3000 + c) update_every
      percore_emit lines c n.1 (x.1, n.2)
  | some st => percore_emit lines c st (x.1, rrdset_next f.2 st)

/-- Lines 92-125: the store is sized for the lines of the table `f`, record 0 is marked unused and every other line is parsed into its record. -/
def parse_table (raw : Nat → interrupt) (f : List (List CStr)) (s : State) : State :=
  let s := get_interrupts_array s f.length s.cpus raw
  let irrs := s.irrs.modify (fun irr => { irr with used := 0 }) 0
  { s with
    irrs := (List.range' 1 (f.length - 1)).foldl
      (fun irrs l => irrs.modify (parse_line s.cpus (f.getD l [])) l) irrs }

/-- Lines 131-133: the chart "system.softirqs" is looked up, created when it is missing and advanced otherwise. -/
def aggregate_chart (update_every : Int) (k : Sink) : Nat × Sink :=
  let f0 := rrdset_find_bytype k "system".toList "softirqs".toList
  match f0.1 with
  | none =>
    rrdset_create f0.2 "system".toList "softirqs".toList "System softirqs".toList 950 update_every
  | some st => (st, rrdset_next f0.2 st)

/-- Lines 131-157: the aggregate pass over the records of `s` for a table of `lines` lines. -/
def emit_aggregate (update_every : Int) (s : State) (lines : Nat) (k : Sink) :
    List interrupt × Sink :=
  let st := aggregate_chart update_every k
  let a := for_lines (aggregate_line s.do_per_core s.cpus st.1) (List.range lines) s.irrs st.2
  (a.1, rrdset_done a.2 st.1)

/-- Lines 159-197: the per-core passes, one for each column, when per-core emission is enabled. -/
def emit_percore (update_every : Int) (s : State) (lines : Nat) (x : List interrupt × Sink) :
    List interrupt × Sink :=
  if s.do_per_core ≠ 0 then
    (List.range s.cpus.toNat).foldl (percore_cpu update_every lines) x
  else x

/-- Lines 92-199: what a call does once the table is read and the number of columns is known (`s.cpus`, not zero). -/
def collect (update_every : Int) (raw : Nat → interrupt) (f : List (List CStr)) (s : State) (k : Sink) :
    Result :=
  let s := parse_table raw f s
  let a := emit_aggregate update_every s f.length k
  let p := emit_percore update_every s f.length a
  { ret := 0, st := { s with irrs := p.1 }, sink := p.2, errors := [] }

/-- The function `do_proc_softirqs(update_every, dt)`; `dt` is not used by the source. -/
def do_proc_softirqs (update_every : Int) (env : Env) (s : State) (k : Sink) : Result :=
  let s := if s.do_per_core = -1 then { s with do_per_core := env.per_core } else s
  if s.ff = false ∧ env.open_ok = false then
    { ret := 1, st := s, sink := k, errors := [] }
  else
    match env.file with
    | none => { ret := 0, st := { s with ff := false }, sink := k, errors := [] }
    | some f =>
      let s := { s with ff := true }
      if f.length = 0 then
        { ret := 1, st := s, sink := k,
          errors := ["Cannot read /proc/softirqs, zero lines reported."] }
      else
        let s := if s.cpus = -1 then { s with cpus := count_cpus (f.getD 0 []) } else s
        if s.cpus = 0 then
          { ret := 1, st := s, sink := k,
            errors := ["PLUGIN: PROC_SOFTIRQS: Cannot find the number of CPUs in /proc/softirqs"] }
        else collect update_every env.raw f s k

/-! ## Executions -/

/-- The number of columns a call works with when the table `f` is read: counted from the header when `cpus` is still `-1`, the stored count otherwise (lines 78-85). -/
def columns (s : State) (f : List (List CStr)) : Int :=
  if s.cpus = -1 then count_cpus (f.getD 0 []) else s.cpus

/-- A successful cycle: the call has its file open or opens it, reads the table `f`, finds at least one line and a non-zero number of columns, and so goes on to parsing and emission. -/
def Successful (env : Env) (s : State) (f : List (List CStr)) : Prop :=
  (s.ff = true ∨ env.open_ok = true) ∧ env.file = some f ∧ f ≠ [] ∧ columns s f ≠ 0

/-- The states of the statics and of the sink that the process can be in between two calls: it starts with the initial statics and any sink, every call is made with some answers of the outside world, and between two calls nothing else touches the statics or the charts of this collector. -/
inductive Reachable : State → Sink → Prop
  | init (k : Sink) : Reachable State.init k
  | step (update_every : Int) (env : Env) (s : State) (k : Sink) :
      Reachable s k →
      Reachable (do_proc_softirqs update_every env s k).st (do_proc_softirqs update_every env s k).sink

/-- The statics with which a successful cycle goes on from line 92: the file is open, the number of columns and the per-core switch are settled. -/
def entered (env : Env) (s : State) (f : List (List CStr)) : State :=
  { ff := true
    cpus := columns s f
    do_per_core := if s.do_per_core = -1 then env.per_core else s.do_per_core
    irrs := s.irrs
    allocated := s.allocated }

/-! ## Example tables -/

/-- The table of the end-to-end scenario: header `CPU0 CPU1`, rows `NET_RX: 10 20` and `TIMER: 5 0`. -/
def table_two_rows : List (List CStr) :=
  [["CPU0".toList, "CPU1".toList],
   ["NET_RX:".toList, "10".toList, "20".toList],
   ["TIMER:".toList, "5".toList, "0".toList]]

/-- The same table without its `TIMER` row. -/
def table_one_row : List (List CStr) :=
  [["CPU0".toList, "CPU1".toList],
   ["NET_RX:".toList, "10".toList, "20".toList]]

/-- The answers of the outside world for a call that reads the table `f` with per-core emission enabled; fresh memory holds zeroes. -/
def env_of (f : List (List CStr)) : Env :=
  { per_core := 1, open_ok := true, file := some f, raw := fun _ => default }

/-! ## Relations between sink states -/

/-- The display name of dimension `p` agrees with its key on the characters that `strncmp` compares. -/
def Cons (k : Sink) (p : Nat) : Prop :=
  (k.dim_name p).take MAX_INTERRUPT_NAME = (k.dim_id p).take MAX_INTERRUPT_NAME

/-- The sink `k'` comes after `k`: dimensions are only added, the dimensions of `k` keep their keys, and a display name that agreed with its key still does. -/
structure Grow (k k' : Sink) : Prop where
  dims_le : k.dims.length ≤ k'.dims.length
  id_eq : ∀ p, p < k.dims.length → k'.dim_id p = k.dim_id p
  cons : ∀ p, p < k.dims.length → Cons k p → Cons k' p

/-- The record of calls of `k'` is the one of `k` followed by calls that all satisfy `P`. -/
def Ext (P : Site × SinkCall → Prop) (k k' : Sink) : Prop :=
  ∃ t, k'.calls = k.calls ++ t ∧ ∀ e ∈ t, P e

/-! ## What the passes of a cycle keep -/

/-- What the parsing loop decides of a record: the used flag, the id, the name, the total and the values. -/
def interrupt.data (irr : interrupt) : Int × CStr × CStr × Nat × List Nat :=
  (irr.used, irr.id, irr.name, irr.total, irr.cpu.map (fun x => x.value))

/-- The aggregate handle cached in a record points to a dimension of the sink whose display name agrees with its key. -/
def HandleOk (k : Sink) (irr : interrupt) : Prop :=
  ∀ p, irr.rd = some p → p < k.dims.length ∧ Cons k p

/-- A used record has the name that is its id cut to 50 characters. -/
def NameOk (irr : interrupt) : Prop :=
  irr.used ≠ 0 → irr.name = irr.id.take MAX_INTERRUPT_NAME

/-- A recorded call that was not made from the aggregate loop. -/
def not_aggregate (e : Site × SinkCall) : Prop :=
  ∀ l, e.1 ≠ Site.aggregate l

/-- What the per-core passes keep of a record: the aggregate handle, what the parsing decided, and the number of columns. -/
def interrupt.kept (irr : interrupt) : Option Nat × (Int × CStr × CStr × Nat × List Nat) × Nat :=
  (irr.rd, irr.data, irr.cpu.length)

/-- A used record has an aggregate handle, and the key of the dimension behind it agrees with the id of the record on the first 50 characters. -/
def ResolvedOk (k : Sink) (irr : interrupt) : Prop :=
  irr.used ≠ 0 → ∃ p, irr.rd = some p ∧
    (k.dim_id p).take MAX_INTERRUPT_NAME = irr.id.take MAX_INTERRUPT_NAME

/-- The invariant of the statics and the sink between two calls: the store holds `allocated` records, it is empty as long as the columns are not counted, every record has one slot for each column, a valid aggregate handle or none, and, when it is used, the name that fits its id and a handle resolved for its id. -/
structure Inv (s : State) (k : Sink) : Prop where
  len : s.irrs.length = s.allocated
  fresh : s.cpus = -1 → s.irrs = []
  cols : ∀ irr ∈ s.irrs, irr.cpu.length = s.cpus.toNat
  recs : ∀ irr ∈ s.irrs, NameOk irr ∧ HandleOk k irr
  res : ∀ irr ∈ s.irrs, ResolvedOk k irr

/-- The function the parsing pass applies to record `l`. -/
def parse_slot (cpus : Int) (f : List (List CStr)) (l : Nat) (irr : interrupt) : interrupt :=
  if l = 0 then { irr with used := 0 }
  else if l < f.length then parse_line cpus (f.getD l []) irr
  else irr


/-- The record of the row `NET_RX: 10 20` after the first cycle on `table_two_rows`. -/
def rec_net_rx : interrupt :=
  { used := 1, id := "NET_RX".toList, name := "NET_RX".toList, rd := some 0, total := 30,
    cpu := [{ value := 10, rd := some 2 }, { value := 20, rd := some 4 }] }

/-- The first cycle of a process on `table_two_rows`, from the initial statics and the empty sink. -/
def cycle_one : Result :=
  do_proc_softirqs 1 (env_of table_two_rows) State.init Sink.empty

/-- The row of a program point: none outside the row loops. -/
def Site.row : Site → Option Nat
  | Site.chart => none
  | Site.aggregate l => some l
  | Site.percore _ l => some l

/-- The sink expected after the first cycle on `table_two_rows`: the aggregate chart with `NET_RX = 30` and `TIMER = 5`, the chart of column 0 with `NET_RX = 10` and `TIMER = 5`, the chart of column 1 with `NET_RX = 20` and `TIMER = 0`, and the calls that built them. -/
def scenario_sink : Sink :=
  { sets :=
      [{ type := "system".toList, id := "softirqs".toList },
       { type := "cpu".toList, id := "cpu0_softirqs".toList },
       { type := "cpu".toList, id := "cpu1_softirqs".toList }]
    dims :=
      [{ st := 0, id := "NET_RX".toList, name := "NET_RX".toList, collected := [30] },
       { st := 0, id := "TIMER".toList, name := "TIMER".toList, collected := [5] },
       { st := 1, id := "NET_RX".toList, name := "NET_RX".toList, collected := [10] },
       { st := 1, id := "TIMER".toList, name := "TIMER".toList, collected := [5] },
       { st := 2, id := "NET_RX".toList, name := "NET_RX".toList, collected := [20] },
       { st := 2, id := "TIMER".toList, name := "TIMER".toList, collected := [0] }]
    calls :=
      [(Site.chart, SinkCall.rrdset_find_bytype "system".toList "softirqs".toList),
       (Site.chart, SinkCall.rrdset_create "system".toList "softirqs".toList
          "System softirqs".toList 950 1),
       (Site.aggregate 1, SinkCall.rrddim_find 0 "NET_RX".toList),
       (Site.aggregate 1, SinkCall.rrddim_add 0 "NET_RX".toList "NET_RX".toList),
       (Site.aggregate 1, SinkCall.rrddim_set_by_pointer 0 0 30),
       (Site.aggregate 2, SinkCall.rrddim_find 0 "TIMER".toList),
       (Site.aggregate 2, SinkCall.rrddim_add 0 "TIMER".toList "TIMER".toList),
       (Site.aggregate 2, SinkCall.rrddim_set_by_pointer 0 1 5),
       (Site.chart, SinkCall.rrdset_done 0),
       (Site.chart, SinkCall.rrdset_find_bytype "cpu".toList "cpu0_softirqs".toList),
       (Site.chart, SinkCall.rrdset_create "cpu".toList "cpu0_softirqs".toList
          "CPU0 softirqs".toList 3000 1),
       (Site.percore 0 1, SinkCall.rrddim_find 1 "NET_RX".toList),
       (Site.percore 0 1, SinkCall.rrddim_add 1 "NET_RX".toList "NET_RX".toList),
       (Site.percore 0 1, SinkCall.rrddim_set_by_pointer 1 2 10),
       (Site.percore 0 2, SinkCall.rrddim_find 1 "TIMER".toList),
       (Site.percore 0 2, SinkCall.rrddim_add 1 "TIMER".toList "TIMER".toList),
       (Site.percore 0 2, SinkCall.rrddim_set_by_pointer 1 3 5),
       (Site.chart, SinkCall.rrdset_done 1),
       (Site.chart, SinkCall.rrdset_find_bytype "cpu".toList "cpu1_softirqs".toList),
       (Site.chart, SinkCall.rrdset_create "cpu".toList "cpu1_softirqs".toList
          "CPU1 softirqs".toList 3001 1),
       (Site.percore 1 1, SinkCall.rrddim_find 2 "NET_RX".toList),
       (Site.percore 1 1, SinkCall.rrddim_add 2 "NET_RX".toList "NET_RX".toList),
       (Site.percore 1 1, SinkCall.rrddim_set_by_pointer 2 4 20),
       (Site.percore 1 2, SinkCall.rrddim_find 2 "TIMER".toList),
       (Site.percore 1 2, SinkCall.rrddim_add 2 "TIMER".toList "TIMER".toList),
       (Site.percore 1 2, SinkCall.rrddim_set_by_pointer 2 5 0),
       (Site.chart, SinkCall.rrdset_done 2)] }

/-- A table whose column 0 holds `2^63` in both of its rows. -/
def table_wrapping : List (List CStr) :=
  [["CPU0".toList],
   ["A:".toList, "9223372036854775808".toList],
   ["B:".toList, "9223372036854775808".toList]]

/-- A table whose header has no word that starts with "CPU". -/
def table_no_cpu : List (List CStr) :=
  [["IRQ".toList], ["NET_RX:".toList, "10".toList]]

/-! ## The calls of a row -/

/-- What a row-loop call says of the record `irr` it is made for, `v` being the value the loop appends: a lookup carries the id, a creation the id and the name, a rename the name, an append the value. -/
def call_for (irr : interrupt) (v : Nat) : SinkCall → Prop
  | SinkCall.rrddim_find _ id => id = irr.id
  | SinkCall.rrddim_add _ id name => id = irr.id ∧ name = irr.name
  | SinkCall.rrddim_set_name _ _ name => name = irr.name
  | SinkCall.rrddim_set_by_pointer _ _ w => w = v
  | _ => False

/-- The recorded call `e` is one that a row loop makes for the record `irr`: in the aggregate loop the appended value is the total, in the loop of column `c` it is the value of column `c`. -/
def row_call (irr : interrupt) (e : Site × SinkCall) : Prop :=
  match e.1 with
  | Site.chart => False
  | Site.aggregate _ => call_for irr irr.total e.2
  | Site.percore c _ => call_for irr (irr.cpu.getD c default).value e.2

/-- Every recorded call of a row loop is made for a used record, the one `D` gives for its row, and says what `row_call` allows. -/
def RowP (D : Nat → interrupt) (e : Site × SinkCall) : Prop :=
  ∀ l, e.1.row = some l → (D l).used ≠ 0 ∧ row_call (D l) e

/-- An identifier of 51 characters: fifty `a` and the character `last`. -/
def long_id (last : Char) : CStr := List.replicate 50 'a' ++ [last]

/-- A table with one column and one row, whose identifier is `long_id last` and whose value is the word `v`. -/
def table_long (last : Char) (v : CStr) : List (List CStr) :=
  [["CPU0".toList], [long_id last, v]]

/-- A table with one column and one row, whose first word is a colon alone. -/
def table_colon : List (List CStr) :=
  [["CPU0".toList], [":".toList, "5".toList]]

/-- The first cycle of a process on the table of the row `long_id '1'` with the value 5. -/
def cycle_long : Result :=
  do_proc_softirqs 1 (env_of (table_long '1' "5".toList)) State.init Sink.empty

/-- The table `table_two_rows` with an empty line in place of its `TIMER` row. -/
def table_timer_gone : List (List CStr) :=
  [["CPU0".toList, "CPU1".toList],
   ["NET_RX:".toList, "10".toList, "20".toList],
   []]

/-- The record of the row `TIMER: 5 0` after the first cycle on `table_two_rows`. -/
def rec_timer : interrupt :=
  { used := 1, id := "TIMER".toList, name := "TIMER".toList, rd := some 1, total := 5,
    cpu := [{ value := 5, rd := some 3 }, { value := 0, rd := some 5 }] }

/-- A table with the rows of `table_two_rows` under a header of three columns. -/
def table_three_cpus : List (List CStr) :=
  [["CPU0".toList, "CPU1".toList, "CPU2".toList],
   ["NET_RX:".toList, "10".toList, "20".toList, "30".toList],
   ["TIMER:".toList, "5".toList, "0".toList, "1".toList]]

/-- What the passes of the other columns keep of a record, seen from column `c`: what the parsing decided and the per-core handle of column `c`. -/
def interrupt.slot_at (c : Nat) (irr : interrupt) :
    (Int × CStr × CStr × Nat × List Nat) × Option Nat :=
  (irr.data, (irr.cpu.getD c default).rd)

/-- The test of `rrdset_find_bytype` for the chart of column `c`. -/
def is_cpu_chart (c : Nat) (x : RRDSET) : Bool :=
  x.type = "cpu".toList ∧ x.id = cpu_chart_id c

/-- The charts of `k'` are those of `k`, in their places, followed by new ones. -/
def SetsExt (k k' : Sink) : Prop :=
  ∃ t, k'.sets = k.sets ++ t

/-- The table `table_two_rows` with every value at zero. -/
def table_all_zero : List (List CStr) :=
  [["CPU0".toList, "CPU1".toList],
   ["NET_RX:".toList, "0".toList, "0".toList],
   ["TIMER:".toList, "0".toList, "0".toList]]

/-- The record of the row `NET_RX: 0 0` after a cycle on `table_all_zero` that follows `cycle_one`. -/
def rec_net_rx_zero : interrupt :=
  { used := 1, id := "NET_RX".toList, name := "NET_RX".toList, rd := some 0, total := 0,
    cpu := [{ value := 0, rd := some 2 }, { value := 0, rd := some 4 }] }

/-- The calls of a second cycle on `table_two_rows`, after `cycle_one`: every handle is reused. -/
def cycle_two_calls : List (Site × SinkCall) :=
  [(Site.chart, SinkCall.rrdset_find_bytype "system".toList "softirqs".toList),
   (Site.chart, SinkCall.rrdset_next 0),
   (Site.aggregate 1, SinkCall.rrddim_set_by_pointer 0 0 30),
   (Site.aggregate 2, SinkCall.rrddim_set_by_pointer 0 1 5),
   (Site.chart, SinkCall.rrdset_done 0),
   (Site.chart, SinkCall.rrdset_find_bytype "cpu".toList "cpu0_softirqs".toList),
   (Site.chart, SinkCall.rrdset_next 1),
   (Site.percore 0 1, SinkCall.rrddim_set_by_pointer 1 2 10),
   (Site.percore 0 2, SinkCall.rrddim_set_by_pointer 1 3 5),
   (Site.chart, SinkCall.rrdset_done 1),
   (Site.chart, SinkCall.rrdset_find_bytype "cpu".toList "cpu1_softirqs".toList),
   (Site.chart, SinkCall.rrdset_next 2),
   (Site.percore 1 1, SinkCall.rrddim_set_by_pointer 2 4 20),
   (Site.percore 1 2, SinkCall.rrddim_set_by_pointer 2 5 0),
   (Site.chart, SinkCall.rrdset_done 2)]

/-! ## Lemmas on the guards of `do_proc_softirqs` -/

theorem do_proc_softirqs_successful (u : Int) (env : Env) (s : State) (k : Sink)
    (f : List (List CStr)) (h : Successful env s f) :
    do_proc_softirqs u env s k = collect u env.raw f (entered env s f) k := by
  obtain ⟨hopen, hf, hne, hc⟩ := h
  have hl : f.length ≠ 0 := by simpa using hne
  unfold do_proc_softirqs entered
  unfold columns at hc ⊢
  simp only [hf]
  by_cases h1 : s.do_per_core = -1 <;> by_cases h2 : s.cpus = -1 <;>
    simp only [h1, h2, if_true, if_false] at hc ⊢ <;>
    rcases hopen with ho | ho <;> simp_all

theorem foldl_modify_getElem? (g : Nat → interrupt → interrupt) :
    ∀ (m a : Nat) (irrs : List interrupt) (i : Nat),
      ((List.range' a m).foldl (fun irrs l => irrs.modify (g l) l) irrs)[i]? =
        if a ≤ i ∧ i < a + m then irrs[i]?.map (g i) else irrs[i]? := by
  intro m
  induction m with
  | zero =>
    intro a irrs i
    have h0 : ¬ (a ≤ i ∧ i < a) := by omega
    simp [h0]
  | succ m ih =>
    intro a irrs i
    rw [List.range'_succ, List.foldl_cons, ih, List.getElem?_modify]
    by_cases h1 : a = i
    · subst h1
      have : ¬ (a + 1 ≤ a ∧ a < a + 1 + m) := by omega
      have h2 : (a ≤ a ∧ a < a + (m + 1)) := by omega
      simp [this, h2]
    · by_cases h2 : a + 1 ≤ i ∧ i < a + 1 + m
      · have h3 : a ≤ i ∧ i < a + (m + 1) := by omega
        simp [h1, h2, h3]
      · have h3 : ¬ (a ≤ i ∧ i < a + (m + 1)) := by omega
        simp [h1, h2, h3]

theorem foldl_modify_length (g : Nat → interrupt → interrupt) :
    ∀ (ls : List Nat) (irrs : List interrupt),
      (ls.foldl (fun irrs l => irrs.modify (g l) l) irrs).length = irrs.length := by
  intro ls
  induction ls with
  | nil => intro irrs; rfl
  | cons l ls ih => intro irrs; rw [List.foldl_cons, ih, List.length_modify]

theorem for_lines_length (body : Nat → interrupt → Sink → interrupt × Sink) :
    ∀ (ls : List Nat) (irrs : List interrupt) (k : Sink),
      (for_lines body ls irrs k).1.length = irrs.length := by
  intro ls
  induction ls with
  | nil => intro irrs k; rfl
  | cons l ls ih => intro irrs k; simp only [for_lines]; rw [ih, List.length_set]

/-- An invariant of the records and the sink that every round of a row loop keeps is kept by the loop. -/
theorem for_lines_inv (I : List interrupt → Sink → Prop)
    (body : Nat → interrupt → Sink → interrupt × Sink) :
    ∀ (ls : List Nat),
      (∀ l ∈ ls, ∀ irrs k, I irrs k →
        I (irrs.set l (body l (irrs.getD l default) k).1) (body l (irrs.getD l default) k).2) →
      ∀ (irrs : List interrupt) (k : Sink), I irrs k →
        I (for_lines body ls irrs k).1 (for_lines body ls irrs k).2 := by
  intro ls
  induction ls with
  | nil => intro _ irrs k h; exact h
  | cons l ls ih =>
    intro hstep irrs k h
    simp only [for_lines]
    apply ih
    · intro l' hl'; exact hstep l' (List.mem_cons_of_mem _ hl')
    · exact hstep l (List.mem_cons_self _ _) irrs k h

/-- An invariant indexed by the loop counter: a loop from `a` over `m` rows takes `I a` to `I (a + m)`. -/
theorem for_lines_range'_inv (I : Nat → List interrupt → Sink → Prop)
    (body : Nat → interrupt → Sink → interrupt × Sink)
    (hstep : ∀ n irrs k, I n irrs k →
        I (n + 1) (irrs.set n (body n (irrs.getD n default) k).1) (body n (irrs.getD n default) k).2) :
    ∀ (m a : Nat) (irrs : List interrupt) (k : Sink), I a irrs k →
        I (a + m) (for_lines body (List.range' a m) irrs k).1
          (for_lines body (List.range' a m) irrs k).2 := by
  intro m
  induction m with
  | zero => intro a irrs k h; simpa [for_lines] using h
  | succ m ih =>
    intro a irrs k h
    rw [List.range'_succ]
    simp only [for_lines]
    have := ih (a + 1) _ _ (hstep a irrs k h)
    rw [show a + (m + 1) = a + 1 + m by omega]
    exact this

theorem for_lines_range_inv (I : Nat → List interrupt → Sink → Prop)
    (body : Nat → interrupt → Sink → interrupt × Sink)
    (hstep : ∀ n irrs k, I n irrs k →
        I (n + 1) (irrs.set n (body n (irrs.getD n default) k).1) (body n (irrs.getD n default) k).2)
    (m : Nat) (irrs : List interrupt) (k : Sink) (h : I 0 irrs k) :
    I m (for_lines body (List.range m) irrs k).1 (for_lines body (List.range m) irrs k).2 := by
  have := for_lines_range'_inv I body hstep m 0 irrs k h
  rw [List.range_eq_range']
  simpa using this

/-! ## Lemmas on the sink -/

theorem Grow.grow_refl (k : Sink) : Grow k k :=
  ⟨Nat.le_refl _, fun _ _ => rfl, fun _ _ h => h⟩

theorem Grow.grow_trans {k1 k2 k3 : Sink} (h12 : Grow k1 k2) (h23 : Grow k2 k3) : Grow k1 k3 := by
  refine ⟨Nat.le_trans h12.dims_le h23.dims_le, ?_, ?_⟩
  · intro p hp
    rw [h23.id_eq p (Nat.lt_of_lt_of_le hp h12.dims_le), h12.id_eq p hp]
  · intro p hp hc
    exact h23.cons p (Nat.lt_of_lt_of_le hp h12.dims_le) (h12.cons p hp hc)

theorem Grow.of_dims_eq {k k' : Sink} (h : k'.dims = k.dims) : Grow k k' := by
  refine ⟨by rw [h], ?_, ?_⟩
  · intro p _; simp [Sink.dim_id, h]
  · intro p _ hc; simpa [Cons, Sink.dim_id, Sink.dim_name, h] using hc

theorem Ext.ext_refl (P : Site × SinkCall → Prop) (k : Sink) : Ext P k k :=
  ⟨[], by simp, by simp⟩

theorem Ext.ext_trans {P : Site × SinkCall → Prop} {k1 k2 k3 : Sink}
    (h12 : Ext P k1 k2) (h23 : Ext P k2 k3) : Ext P k1 k3 := by
  obtain ⟨t1, e1, p1⟩ := h12
  obtain ⟨t2, e2, p2⟩ := h23
  refine ⟨t1 ++ t2, by rw [e2, e1, List.append_assoc], ?_⟩
  intro e he
  rcases List.mem_append.mp he with h | h
  · exact p1 e h
  · exact p2 e h

theorem Ext.mono {P Q : Site × SinkCall → Prop} {k k' : Sink} (h : Ext P k k')
    (hPQ : ∀ e, P e → Q e) : Ext Q k k' := by
  obtain ⟨t, e, p⟩ := h
  exact ⟨t, e, fun x hx => hPQ x (p x hx)⟩

theorem Ext.of_calls_one {P : Site × SinkCall → Prop} {k k' : Sink} {e : Site × SinkCall}
    (h : k'.calls = k.calls ++ [e]) (hP : P e) : Ext P k k' :=
  ⟨[e], h, by simpa using hP⟩

theorem rrddim_find_some {site : Site} {k : Sink} {st : Nat} {id : CStr} {q : Nat}
    (h : (rrddim_find site k st id).1 = some q) :
    q < k.dims.length ∧ k.dim_id q = id := by
  simp only [rrddim_find] at h
  rw [List.findIdx?_eq_some_iff_getElem] at h
  obtain ⟨hq, hp, _⟩ := h
  refine ⟨hq, ?_⟩
  simp only [decide_eq_true_eq] at hp
  simp [Sink.dim_id, List.getD, List.getElem?_eq_getElem hq, hp.2]

theorem rrddim_find_dims (site : Site) (k : Sink) (st : Nat) (id : CStr) :
    (rrddim_find site k st id).2.dims = k.dims := rfl

theorem rrddim_add_grow (site : Site) (k : Sink) (st : Nat) (id name : CStr) :
    Grow k (rrddim_add site k st id name).2 := by
  refine ⟨by simp [rrddim_add], ?_, ?_⟩
  · intro p hp
    simp [rrddim_add, Sink.dim_id, List.getElem?_append_left hp]
  · intro p hp hc
    simpa [Cons, rrddim_add, Sink.dim_id, Sink.dim_name, List.getElem?_append_left hp] using hc

theorem rrddim_add_new (site : Site) (k : Sink) (st : Nat) (id name : CStr) :
    (rrddim_add site k st id name).1 < (rrddim_add site k st id name).2.dims.length ∧
    (rrddim_add site k st id name).2.dim_id (rrddim_add site k st id name).1 = id ∧
    (rrddim_add site k st id name).2.dim_name (rrddim_add site k st id name).1 = name := by
  simp [rrddim_add, Sink.dim_id, Sink.dim_name]

theorem rrddim_set_name_dim_id (site : Site) (k : Sink) (st rd : Nat) (name : CStr) (p : Nat) :
    (rrddim_set_name site k st rd name).dim_id p = k.dim_id p := by
  simp only [rrddim_set_name, Sink.dim_id, List.getD_eq_getElem?_getD, List.getElem?_modify]
  cases h : k.dims[p]? <;> by_cases h2 : rd = p <;> simp [h2]

theorem rrddim_set_name_dim_name (site : Site) (k : Sink) (st rd : Nat) (name : CStr) (p : Nat) :
    (rrddim_set_name site k st rd name).dim_name p =
      if rd = p ∧ p < k.dims.length then name else k.dim_name p := by
  simp only [rrddim_set_name, Sink.dim_name, List.getD_eq_getElem?_getD, List.getElem?_modify]
  by_cases hp : p < k.dims.length
  · by_cases h2 : rd = p <;> simp [List.getElem?_eq_getElem hp, h2, hp]
  · have : k.dims[p]? = none := List.getElem?_eq_none (by omega)
    simp [this, hp]

theorem rrddim_set_name_grow (site : Site) (k : Sink) (st rd : Nat) (name : CStr)
    (h : name.take MAX_INTERRUPT_NAME = (k.dim_id rd).take MAX_INTERRUPT_NAME) :
    Grow k (rrddim_set_name site k st rd name) := by
  refine ⟨by simp [rrddim_set_name], fun p _ => rrddim_set_name_dim_id .., ?_⟩
  intro p hp hc
  unfold Cons at hc ⊢
  rw [rrddim_set_name_dim_id, rrddim_set_name_dim_name]
  by_cases h2 : rd = p
  · subst h2; simp [hp, h]
  · simp [h2, hc]

theorem rrddim_set_by_pointer_dim_id (site : Site) (k : Sink) (st rd v : Nat) (p : Nat) :
    (rrddim_set_by_pointer site k st rd v).dim_id p = k.dim_id p := by
  simp only [rrddim_set_by_pointer, Sink.dim_id, List.getD_eq_getElem?_getD, List.getElem?_modify]
  cases h : k.dims[p]? <;> by_cases h2 : rd = p <;> simp [h2]

theorem rrddim_set_by_pointer_dim_name (site : Site) (k : Sink) (st rd v : Nat) (p : Nat) :
    (rrddim_set_by_pointer site k st rd v).dim_name p = k.dim_name p := by
  simp only [rrddim_set_by_pointer, Sink.dim_name, List.getD_eq_getElem?_getD,
    List.getElem?_modify]
  cases h : k.dims[p]? <;> by_cases h2 : rd = p <;> simp [h2]

theorem rrddim_set_by_pointer_grow (site : Site) (k : Sink) (st rd v : Nat) :
    Grow k (rrddim_set_by_pointer site k st rd v) := by
  refine ⟨by simp [rrddim_set_by_pointer], fun p _ => rrddim_set_by_pointer_dim_id .., ?_⟩
  intro p _ hc
  unfold Cons at hc ⊢
  rw [rrddim_set_by_pointer_dim_id, rrddim_set_by_pointer_dim_name]
  exact hc

theorem Cons.set_by_pointer {site : Site} {k : Sink} {st rd v p : Nat} (h : Cons k p) :
    Cons (rrddim_set_by_pointer site k st rd v) p := by
  unfold Cons at h ⊢
  rw [rrddim_set_by_pointer_dim_id, rrddim_set_by_pointer_dim_name]
  exact h

theorem find_or_create_none {site : Site} {k : Sink} {st : Nat} {id name : CStr}
    (h : (rrddim_find site k st id).1 = none) :
    find_or_create site k st id name = rrddim_add site (rrddim_find site k st id).2 st id name := by
  unfold find_or_create; simp only [h]

theorem find_or_create_some {site : Site} {k : Sink} {st : Nat} {id name : CStr} {q : Nat}
    (h : (rrddim_find site k st id).1 = some q) :
    find_or_create site k st id name =
      (q, rrddim_set_name site (rrddim_find site k st id).2 st q name) := by
  unfold find_or_create; simp only [h]

/-- What find-or-create returns when the display name is the key cut to 50 characters: a dimension of the sink with the key `id`, whose display name agrees with the key. -/
theorem find_or_create_spec (site : Site) (k : Sink) (st : Nat) (id name : CStr)
    (hname : name.take MAX_INTERRUPT_NAME = id.take MAX_INTERRUPT_NAME) :
    Grow k (find_or_create site k st id name).2 ∧
    (find_or_create site k st id name).1 < (find_or_create site k st id name).2.dims.length ∧
    (find_or_create site k st id name).2.dim_id (find_or_create site k st id name).1 = id ∧
    Cons (find_or_create site k st id name).2 (find_or_create site k st id name).1 := by
  have hg : Grow k (rrddim_find site k st id).2 := Grow.of_dims_eq rfl
  cases hf : (rrddim_find site k st id).1 with
  | none =>
    rw [find_or_create_none hf]
    obtain ⟨h1, h2, h3⟩ := rrddim_add_new site (rrddim_find site k st id).2 st id name
    refine ⟨hg.grow_trans (rrddim_add_grow ..), h1, h2, ?_⟩
    unfold Cons
    rw [h2, h3, hname]
  | some q =>
    rw [find_or_create_some hf]
    obtain ⟨hq, hid⟩ := rrddim_find_some hf
    have hid' : (rrddim_find site k st id).2.dim_id q = id := hid
    refine ⟨hg.grow_trans (rrddim_set_name_grow _ _ _ _ _ (by rw [hid', hname])), ?_, ?_, ?_⟩
    · simpa [rrddim_set_name, rrddim_find] using hq
    · simp only [rrddim_set_name_dim_id]; exact hid
    · unfold Cons
      simp only [rrddim_set_name_dim_id, rrddim_set_name_dim_name, hid']
      have : q < (rrddim_find site k st id).2.dims.length := hq
      simp [this, hname]

/-- The two calls of find-or-create: the lookup, then the creation or the rename. -/
theorem find_or_create_calls (site : Site) (k : Sink) (st : Nat) (id name : CStr) :
    ∃ x, (find_or_create site k st id name).2.calls =
        k.calls ++ [(site, SinkCall.rrddim_find st id), (site, x)] ∧
      (x = SinkCall.rrddim_add st id name ∨
       x = SinkCall.rrddim_set_name st (find_or_create site k st id name).1 name) := by
  cases hf : (rrddim_find site k st id).1 with
  | none =>
    rw [find_or_create_none hf]
    exact ⟨SinkCall.rrddim_add st id name, by simp [rrddim_add, rrddim_find], Or.inl rfl⟩
  | some q =>
    rw [find_or_create_some hf]
    exact ⟨SinkCall.rrddim_set_name st q name, by simp [rrddim_set_name, rrddim_find], Or.inr rfl⟩

/-! ## Lemmas on the parsing loop -/

theorem parse_values_spec (ws : List CStr) :
    ∀ (n : Nat) (irr : interrupt),
      ((List.range n).foldl (parse_value ws) irr).used = irr.used ∧
      ((List.range n).foldl (parse_value ws) irr).id = irr.id ∧
      ((List.range n).foldl (parse_value ws) irr).name = irr.name ∧
      ((List.range n).foldl (parse_value ws) irr).rd = irr.rd ∧
      (∀ c, ((List.range n).foldl (parse_value ws) irr).cpu[c]? =
        if c < n then irr.cpu[c]?.map (fun x => { x with value := column_value ws c })
        else irr.cpu[c]?) ∧
      (irr.total < U64 → ((List.range n).foldl (parse_value ws) irr).total =
        (irr.total + ((List.range n).map (column_value ws)).sum) % U64) := by
  intro n
  induction n with
  | zero =>
    intro irr
    refine ⟨rfl, rfl, rfl, rfl, ?_, ?_⟩
    · intro c; simp
    · intro h; simp [Nat.mod_eq_of_lt h]
  | succ n ih =>
    intro irr
    obtain ⟨h1, h2, h3, h4, h5, h6⟩ := ih irr
    rw [List.range_succ, List.foldl_append]
    simp only [List.foldl_cons, List.foldl_nil]
    refine ⟨?_, ?_, ?_, ?_, ?_, ?_⟩
    · simpa [parse_value] using h1
    · simpa [parse_value] using h2
    · simpa [parse_value] using h3
    · simpa [parse_value] using h4
    · intro c
      simp only [parse_value, List.getElem?_modify, h5]
      by_cases hc : n = c
      · subst hc
        simp
      · by_cases hc2 : c < n
        · have : c < n + 1 := by omega
          simp [hc, hc2, this]
        · have : ¬ c < n + 1 := by omega
          simp [hc, hc2, this]
    · intro h
      simp only [parse_value, h6 h, List.map_append, List.sum_append, List.map_cons, List.map_nil,
        List.sum_cons, List.sum_nil, Nat.add_zero]
      rw [Nat.mod_add_mod, Nat.add_assoc]

theorem parse_values_cpu_length (ws : List CStr) (n : Nat) (irr : interrupt) :
    ((List.range n).foldl (parse_value ws) irr).cpu.length = irr.cpu.length := by
  induction n with
  | zero => rfl
  | succ n ih =>
    rw [List.range_succ, List.foldl_append]
    simpa [parse_value] using ih

theorem parse_values_map_rd (ws : List CStr) (n : Nat) (irr : interrupt) :
    ((List.range n).foldl (parse_value ws) irr).cpu.map (fun x => x.rd) =
      irr.cpu.map (fun x => x.rd) := by
  apply List.ext_getElem?
  intro c
  simp only [List.getElem?_map, (parse_values_spec ws n irr).2.2.2.2.1 c]
  by_cases hc : c < n
  · simp only [hc, if_true]; cases irr.cpu[c]? <;> simp
  · simp [hc]

theorem parse_values_map_value (ws : List CStr) (n : Nat) (irr : interrupt)
    (hlen : irr.cpu.length = n) :
    ((List.range n).foldl (parse_value ws) irr).cpu.map (fun x => x.value) =
      (List.range n).map (column_value ws) := by
  apply List.ext_getElem?
  intro c
  simp only [List.getElem?_map, (parse_values_spec ws n irr).2.2.2.2.1 c]
  by_cases hc : c < n
  · have hc' : c < irr.cpu.length := by omega
    simp [hc, List.getElem?_eq_getElem hc', List.getElem?_range hc]
  · have h1 : irr.cpu[c]? = none := List.getElem?_eq_none (by omega)
    have h2 : (List.range n)[c]? = none := List.getElem?_eq_none (by simp; omega)
    simp [hc, h1, h2]

/-- The record left by the parsing of a line with a non-empty first word `t`: it is used, its id is `t` without its closing colon, its name is the id cut to 50 characters, its values are those of the words of the line, and its total is their sum modulo `2^64`; its handles are untouched. -/
theorem parse_line_used (cpus : Int) (t : CStr) (rest : List CStr) (irr : interrupt)
    (ht : t ≠ []) (hlen : irr.cpu.length = cpus.toNat) :
    (parse_line cpus (t :: rest) irr).used = 1 ∧
    (parse_line cpus (t :: rest) irr).id = strip_colon t ∧
    (parse_line cpus (t :: rest) irr).name = (strip_colon t).take MAX_INTERRUPT_NAME ∧
    (parse_line cpus (t :: rest) irr).cpu.map (fun x => x.value) =
      (List.range cpus.toNat).map (column_value (t :: rest)) ∧
    (parse_line cpus (t :: rest) irr).total =
      ((List.range cpus.toNat).map (column_value (t :: rest))).sum % U64 := by
  have hU : (0 : Nat) < U64 := by decide
  simp only [parse_line, List.length_cons, Nat.succ_ne_zero, if_false, List.getD_cons_zero, ht,
    strncpyz]
  have h := parse_values_spec (t :: rest) cpus.toNat
    ⟨0, strip_colon t, irr.name, irr.rd, 0, irr.cpu⟩
  obtain ⟨_, h2, _, _, _, h6⟩ := h
  refine ⟨trivial, h2, by rw [h2], ?_, ?_⟩
  · exact parse_values_map_value _ _ _ hlen
  · simpa using h6 hU

/-- The record left by the parsing of a line without words or with an empty first word: it is not used. -/
theorem parse_line_unused (cpus : Int) (ws : List CStr) (irr : interrupt)
    (h : ws = [] ∨ ws.head? = some []) :
    (parse_line cpus ws irr).used = 0 := by
  rcases h with h | h
  · subst h; simp [parse_line]
  · cases ws with
    | nil => simp at h
    | cons t rest =>
      simp only [List.head?_cons, Option.some.injEq] at h
      subst h
      simp [parse_line]

/-- The parsing of a line leaves the handles of the record and the number of its columns as they were. -/
theorem parse_line_handles (cpus : Int) (ws : List CStr) (irr : interrupt) :
    (parse_line cpus ws irr).rd = irr.rd ∧
    (parse_line cpus ws irr).cpu.length = irr.cpu.length ∧
    (parse_line cpus ws irr).cpu.map (fun x => x.rd) = irr.cpu.map (fun x => x.rd) := by
  simp only [parse_line]
  split_ifs
  · exact ⟨rfl, rfl, rfl⟩
  · exact ⟨rfl, rfl, rfl⟩
  · refine ⟨?_, ?_, ?_⟩
    · exact (parse_values_spec ws cpus.toNat _).2.2.2.1
    · exact parse_values_cpu_length ws cpus.toNat _
    · exact parse_values_map_rd ws cpus.toNat _

/-- After the parsing of a line a used record has the name that is its id cut to 50 characters. -/
theorem parse_line_named (cpus : Int) (ws : List CStr) (irr : interrupt)
    (h : (parse_line cpus ws irr).used ≠ 0) :
    (parse_line cpus ws irr).name = (parse_line cpus ws irr).id.take MAX_INTERRUPT_NAME := by
  simp only [parse_line] at h ⊢
  split_ifs at h ⊢
  · simp at h
  · simp at h
  · simp only [strncpyz]

/-! ## Lemmas on the bodies of the emission loops -/

theorem HandleOk.handle_grow {k k' : Sink} {irr : interrupt} (h : HandleOk k irr) (hg : Grow k k') :
    HandleOk k' irr := by
  intro p hp
  obtain ⟨h1, h2⟩ := h p hp
  exact ⟨Nat.lt_of_lt_of_le h1 hg.dims_le, hg.cons p h1 h2⟩

theorem HandleOk.handle_default (k : Sink) : HandleOk k default := by
  intro p hp
  cases hp

theorem NameOk.name_default : NameOk default := by
  intro h
  exact absurd rfl h

theorem strncmp_eq_zero {a b : CStr} {n : Nat} (h : ¬ strncmp a b n ≠ 0) :
    a.take n = b.take n := by
  unfold strncmp at h
  by_contra hne
  simp [hne] at h

theorem reset_cpu_rds_spec (cpus : Int) (cpu : List cpu_interrupt) :
    (reset_cpu_rds cpus cpu).length = cpu.length ∧
    (reset_cpu_rds cpus cpu).map (fun x => x.value) = cpu.map (fun x => x.value) := by
  unfold reset_cpu_rds
  generalize cpus.toNat = n
  induction n with
  | zero => exact ⟨rfl, rfl⟩
  | succ n ih =>
    rw [List.range_succ, List.foldl_append]
    simp only [List.foldl_cons, List.foldl_nil, List.length_modify]
    refine ⟨ih.1, ?_⟩
    rw [← ih.2]
    apply List.ext_getElem?
    intro c
    simp only [List.getElem?_map, List.getElem?_modify]
    cases (List.foldl (fun cpu c => List.modify (fun x => { value := x.value, rd := none }) c cpu)
      cpu (List.range n))[c]? <;> by_cases h : n = c <;> simp [h]

theorem aggregate_resolve_spec (dpc cpus : Int) (st l : Nat) (irr : interrupt) (k : Sink)
    (hn : irr.name.take MAX_INTERRUPT_NAME = irr.id.take MAX_INTERRUPT_NAME) :
    Grow k (aggregate_resolve dpc cpus st l irr k).2 ∧
    HandleOk (aggregate_resolve dpc cpus st l irr k).2 (aggregate_resolve dpc cpus st l irr k).1 ∧
    (∃ p, (aggregate_resolve dpc cpus st l irr k).1.rd = some p ∧
      (aggregate_resolve dpc cpus st l irr k).2.dim_id p = irr.id) ∧
    (aggregate_resolve dpc cpus st l irr k).1.data = irr.data ∧
    (aggregate_resolve dpc cpus st l irr k).1.cpu.length = irr.cpu.length := by
  obtain ⟨h1, h2, h3, h4⟩ := find_or_create_spec (Site.aggregate l) k st irr.id irr.name hn
  have hrd : (aggregate_resolve dpc cpus st l irr k).1.rd =
      some (find_or_create (Site.aggregate l) k st irr.id irr.name).1 := by
    unfold aggregate_resolve; split_ifs <;> rfl
  have hg : Grow k (aggregate_resolve dpc cpus st l irr k).2 := by
    unfold aggregate_resolve
    exact h1.grow_trans (rrddim_set_by_pointer_grow ..)
  have hid : ∀ p, (aggregate_resolve dpc cpus st l irr k).2.dim_id p =
      (find_or_create (Site.aggregate l) k st irr.id irr.name).2.dim_id p := by
    intro p; unfold aggregate_resolve; exact rrddim_set_by_pointer_dim_id ..
  have hlen : (aggregate_resolve dpc cpus st l irr k).2.dims.length =
      (find_or_create (Site.aggregate l) k st irr.id irr.name).2.dims.length := by
    unfold aggregate_resolve; simp [rrddim_set_by_pointer]
  have hcons : Cons (aggregate_resolve dpc cpus st l irr k).2
      (find_or_create (Site.aggregate l) k st irr.id irr.name).1 := by
    unfold aggregate_resolve; exact h4.set_by_pointer
  refine ⟨hg, ?_, ⟨_, hrd, by rw [hid, h3]⟩, ?_, ?_⟩
  · intro p hp
    rw [hrd] at hp
    cases hp
    exact ⟨by rw [hlen]; exact h2, hcons⟩
  · unfold aggregate_resolve interrupt.data
    split_ifs
    · simp [(reset_cpu_rds_spec cpus irr.cpu).2]
    · rfl
  · unfold aggregate_resolve
    split_ifs
    · simp [(reset_cpu_rds_spec cpus irr.cpu).1]
    · rfl

theorem aggregate_resolve_calls (dpc cpus : Int) (st l : Nat) (irr : interrupt) (k : Sink) :
    ∃ rd x, (aggregate_resolve dpc cpus st l irr k).2.calls = k.calls ++
        [(Site.aggregate l, SinkCall.rrddim_find st irr.id), (Site.aggregate l, x),
         (Site.aggregate l, SinkCall.rrddim_set_by_pointer st rd irr.total)] ∧
      (x = SinkCall.rrddim_add st irr.id irr.name ∨ x = SinkCall.rrddim_set_name st rd irr.name) := by
  obtain ⟨x, hx, hor⟩ := find_or_create_calls (Site.aggregate l) k st irr.id irr.name
  refine ⟨(find_or_create (Site.aggregate l) k st irr.id irr.name).1, x, ?_, hor⟩
  unfold aggregate_resolve
  split_ifs <;> simp [rrddim_set_by_pointer, hx]

/-- One round of the aggregate loop: the sink grows, the handle of the record is valid afterwards and, for a used record, resolved to a dimension whose key agrees with the id on 50 characters; what the parsing decided is kept. -/
theorem aggregate_line_spec (dpc cpus : Int) (st l : Nat) (irr : interrupt) (k : Sink)
    (hn : NameOk irr) (hh : HandleOk k irr) :
    Grow k (aggregate_line dpc cpus st l irr k).2 ∧
    HandleOk (aggregate_line dpc cpus st l irr k).2 (aggregate_line dpc cpus st l irr k).1 ∧
    (irr.used ≠ 0 → ∃ p, (aggregate_line dpc cpus st l irr k).1.rd = some p ∧
      ((aggregate_line dpc cpus st l irr k).2.dim_id p).take MAX_INTERRUPT_NAME =
        irr.id.take MAX_INTERRUPT_NAME) ∧
    (aggregate_line dpc cpus st l irr k).1.data = irr.data ∧
    (aggregate_line dpc cpus st l irr k).1.cpu.length = irr.cpu.length := by
  by_cases hu : irr.used = 0
  · have : aggregate_line dpc cpus st l irr k = (irr, k) := by simp [aggregate_line, hu]
    rw [this]
    exact ⟨Grow.grow_refl k, hh, fun h => absurd hu h, rfl, rfl⟩
  · have hname : irr.name.take MAX_INTERRUPT_NAME = irr.id.take MAX_INTERRUPT_NAME := by
      rw [hn hu, List.take_take]; simp
    have hres := aggregate_resolve_spec dpc cpus st l irr k hname
    cases hrd : irr.rd with
    | none =>
      have : aggregate_line dpc cpus st l irr k = aggregate_resolve dpc cpus st l irr k := by
        simp [aggregate_line, hu, hrd]
      rw [this]
      obtain ⟨h1, h2, ⟨p, h3, h3'⟩, h4, h5⟩ := hres
      exact ⟨h1, h2, fun _ => ⟨p, h3, by rw [h3']⟩, h4, h5⟩
    | some rd =>
      by_cases hs : strncmp irr.name (k.dim_name rd) MAX_INTERRUPT_NAME ≠ 0
      · have : aggregate_line dpc cpus st l irr k = aggregate_resolve dpc cpus st l irr k := by
          simp only [aggregate_line, hu, hrd, if_false]; rw [if_pos hs]
        rw [this]
        obtain ⟨h1, h2, ⟨p, h3, h3'⟩, h4, h5⟩ := hres
        exact ⟨h1, h2, fun _ => ⟨p, h3, by rw [h3']⟩, h4, h5⟩
      · have : aggregate_line dpc cpus st l irr k =
            (irr, rrddim_set_by_pointer (Site.aggregate l) k st rd irr.total) := by
          simp only [aggregate_line, hu, hrd, if_false]; rw [if_neg hs]
        rw [this]
        have hg := rrddim_set_by_pointer_grow (Site.aggregate l) k st rd irr.total
        refine ⟨hg, hh.handle_grow hg, fun _ => ⟨rd, hrd, ?_⟩, rfl, rfl⟩
        rw [rrddim_set_by_pointer_dim_id]
        have h1 := strncmp_eq_zero hs
        have h2 : Cons k rd := (hh rd hrd).2
        unfold Cons at h2
        rw [← h2, ← h1, hname]

theorem aggregate_line_ext (dpc cpus : Int) (st l : Nat) (irr : interrupt) (k : Sink) :
    Ext (fun e => e.1 = Site.aggregate l) k (aggregate_line dpc cpus st l irr k).2 := by
  unfold aggregate_line
  split_ifs with hu
  · exact Ext.ext_refl _ _
  · have hres : Ext (fun e => e.1 = Site.aggregate l) k
        (aggregate_resolve dpc cpus st l irr k).2 := by
      obtain ⟨rd, x, hc, _⟩ := aggregate_resolve_calls dpc cpus st l irr k
      exact ⟨_, hc, by simp⟩
    cases hrd : irr.rd with
    | none => simpa using hres
    | some rd =>
      simp only
      split_ifs
      · exact hres
      · exact ⟨[(Site.aggregate l, SinkCall.rrddim_set_by_pointer st rd irr.total)], rfl, by simp⟩

theorem set_getD_map {β : Type} (proj : interrupt → β) (irrs : List interrupt) (l : Nat)
    (x : interrupt) (h : proj x = proj (irrs.getD l default)) :
    (irrs.set l x).map proj = irrs.map proj := by
  apply List.ext_getElem?
  intro i
  simp only [List.getElem?_map, List.getElem?_set]
  by_cases hi : l = i
  · subst hi
    by_cases hl : l < irrs.length
    · simp [hl, h, List.getElem?_eq_getElem hl]
    · have : irrs[l]? = none := List.getElem?_eq_none (by omega)
      simp [hl, this]
  · simp [hi]

/-- A row loop whose rounds keep a projection of the record keeps the projections of all records. -/
theorem for_lines_map {β : Type} (proj : interrupt → β)
    (body : Nat → interrupt → Sink → interrupt × Sink)
    (h : ∀ l irr k, proj (body l irr k).1 = proj irr) :
    ∀ (ls : List Nat) (irrs : List interrupt) (k : Sink),
      (for_lines body ls irrs k).1.map proj = irrs.map proj := by
  intro ls
  induction ls with
  | nil => intro irrs k; rfl
  | cons l ls ih =>
    intro irrs k
    simp only [for_lines]
    rw [ih, set_getD_map proj irrs l _ (h l _ k)]

theorem getD_mem_or_default (irrs : List interrupt) (l : Nat) :
    irrs.getD l default ∈ irrs ∨ irrs.getD l default = default := by
  by_cases hl : l < irrs.length
  · left
    simp only [List.getD_eq_getElem?_getD, List.getElem?_eq_getElem hl, Option.getD_some]
    exact List.getElem_mem hl
  · right
    have : irrs[l]? = none := List.getElem?_eq_none (by omega)
    simp [this]

theorem mem_of_map_eq {β : Type} (proj : interrupt → β) {a b : List interrupt}
    (h : a.map proj = b.map proj) {x : interrupt} (hx : x ∈ a) : ∃ y ∈ b, proj y = proj x := by
  have : proj x ∈ b.map proj := by rw [← h]; exact List.mem_map_of_mem proj hx
  obtain ⟨y, hy, hp⟩ := List.mem_map.mp this
  exact ⟨y, hy, hp⟩

theorem NameOk.of_data {a b : interrupt} (h : a.data = b.data) (hb : NameOk b) : NameOk a := by
  unfold interrupt.data at h
  simp only [Prod.mk.injEq] at h
  obtain ⟨h1, h2, h3, _, _⟩ := h
  intro hu
  rw [h3, h2]
  exact hb (by rw [← h1]; exact hu)

theorem HandleOk.of_rd {k : Sink} {a b : interrupt} (h : a.rd = b.rd) (hb : HandleOk k b) :
    HandleOk k a := by
  intro p hp
  exact hb p (by rw [← h]; exact hp)

/-- One round of the per-core row loop: the sink grows, the aggregate handle and what the parsing decided are kept. -/
theorem percore_line_spec (c st l : Nat) (irr : interrupt) (k : Sink) (hn : NameOk irr) :
    Grow k (percore_line c st l irr k).2 ∧
    (percore_line c st l irr k).1.rd = irr.rd ∧
    (percore_line c st l irr k).1.data = irr.data ∧
    (percore_line c st l irr k).1.cpu.length = irr.cpu.length := by
  by_cases hu : irr.used = 0
  · have : percore_line c st l irr k = (irr, k) := by simp [percore_line, hu]
    rw [this]
    exact ⟨Grow.grow_refl k, rfl, rfl, rfl⟩
  · have hname : irr.name.take MAX_INTERRUPT_NAME = irr.id.take MAX_INTERRUPT_NAME := by
      rw [hn hu, List.take_take]; simp
    cases hrd : (irr.cpu.getD c default).rd with
    | none =>
      have : percore_line c st l irr k = percore_resolve c st l irr k := by
        simp only [percore_line, hu, if_false, hrd]
      rw [this]
      unfold percore_resolve
      obtain ⟨h1, _, _, _⟩ := find_or_create_spec (Site.percore c l) k st irr.id irr.name hname
      refine ⟨h1.grow_trans (rrddim_set_by_pointer_grow ..), rfl, ?_, by simp⟩
      unfold interrupt.data
      simp only [Prod.mk.injEq, true_and]
      apply List.ext_getElem?
      intro j
      simp only [List.getElem?_map, List.getElem?_modify]
      cases irr.cpu[j]? <;> by_cases h : c = j <;> simp [h]
    | some rd =>
      have : percore_line c st l irr k =
          (irr, rrddim_set_by_pointer (Site.percore c l) k st rd (irr.cpu.getD c default).value) := by
        simp only [percore_line, hu, if_false, hrd]
      rw [this]
      exact ⟨rrddim_set_by_pointer_grow .., rfl, rfl, rfl⟩

theorem percore_line_ext (c st l : Nat) (irr : interrupt) (k : Sink) :
    Ext (fun e => e.1 = Site.percore c l) k (percore_line c st l irr k).2 := by
  unfold percore_line
  split_ifs with hu
  · exact Ext.ext_refl _ _
  · cases hrd : (irr.cpu.getD c default).rd with
    | none =>
      simp only [percore_resolve]
      obtain ⟨x, hx, _⟩ := find_or_create_calls (Site.percore c l) k st irr.id irr.name
      exact ⟨_, by simp only [rrddim_set_by_pointer, hx, List.append_assoc]; rfl, by simp⟩
    | some rd =>
      exact ⟨[(Site.percore c l, SinkCall.rrddim_set_by_pointer st rd
        (irr.cpu.getD c default).value)], rfl, by simp⟩

/-! ## Lemmas on the emission passes -/

theorem aggregate_line_keep (dpc cpus : Int) (st l : Nat) (irr : interrupt) (k : Sink) :
    (aggregate_line dpc cpus st l irr k).1.data = irr.data ∧
    (aggregate_line dpc cpus st l irr k).1.cpu.length = irr.cpu.length := by
  have hres : (aggregate_resolve dpc cpus st l irr k).1.data = irr.data ∧
      (aggregate_resolve dpc cpus st l irr k).1.cpu.length = irr.cpu.length := by
    unfold aggregate_resolve interrupt.data
    split_ifs
    · simp [(reset_cpu_rds_spec cpus irr.cpu).2, (reset_cpu_rds_spec cpus irr.cpu).1]
    · exact ⟨rfl, rfl⟩
  unfold aggregate_line
  split_ifs
  · exact ⟨rfl, rfl⟩
  · cases hrd : irr.rd with
    | none => simpa using hres
    | some rd =>
      simp only
      split_ifs
      · exact hres
      · exact ⟨rfl, rfl⟩

theorem percore_line_keep (c st l : Nat) (irr : interrupt) (k : Sink) :
    (percore_line c st l irr k).1.rd = irr.rd ∧
    (percore_line c st l irr k).1.data = irr.data ∧
    (percore_line c st l irr k).1.cpu.length = irr.cpu.length := by
  unfold percore_line
  split_ifs
  · exact ⟨rfl, rfl, rfl⟩
  · cases hrd : (irr.cpu.getD c default).rd with
    | none =>
      simp only [percore_resolve]
      refine ⟨trivial, ?_, by simp⟩
      unfold interrupt.data
      simp only [Prod.mk.injEq, true_and]
      apply List.ext_getElem?
      intro j
      simp only [List.getElem?_map, List.getElem?_modify]
      cases irr.cpu[j]? <;> by_cases h : c = j <;> simp [h]
    | some rd => exact ⟨rfl, rfl, rfl⟩

/-- The aggregate row loop: the sink grows, every record ends with a valid handle and a name that fits its id. -/
theorem aggregate_loop_spec (dpc cpus : Int) (st : Nat) (ls : List Nat) (irrs : List interrupt)
    (k : Sink) (h : ∀ irr ∈ irrs, NameOk irr ∧ HandleOk k irr) :
    Grow k (for_lines (aggregate_line dpc cpus st) ls irrs k).2 ∧
    ∀ irr ∈ (for_lines (aggregate_line dpc cpus st) ls irrs k).1,
      NameOk irr ∧ HandleOk (for_lines (aggregate_line dpc cpus st) ls irrs k).2 irr := by
  apply for_lines_inv (fun irrs' k' => Grow k k' ∧ ∀ irr ∈ irrs', NameOk irr ∧ HandleOk k' irr)
  · intro l _ irrs' k' ⟨hg, hall⟩
    have hslot : NameOk (irrs'.getD l default) ∧ HandleOk k' (irrs'.getD l default) := by
      rcases getD_mem_or_default irrs' l with hm | hd
      · exact hall _ hm
      · rw [hd]; exact ⟨NameOk.name_default, HandleOk.handle_default k'⟩
    obtain ⟨h1, h2, _, h4, _⟩ :=
      aggregate_line_spec dpc cpus st l (irrs'.getD l default) k' hslot.1 hslot.2
    refine ⟨hg.grow_trans h1, ?_⟩
    intro irr hirr
    rcases List.mem_or_eq_of_mem_set hirr with hm | he
    · exact ⟨(hall irr hm).1, (hall irr hm).2.handle_grow h1⟩
    · rw [he]
      exact ⟨NameOk.of_data h4 hslot.1, h2⟩
  · exact ⟨Grow.grow_refl k, h⟩

theorem aggregate_chart_dims (u : Int) (k : Sink) : (aggregate_chart u k).2.dims = k.dims := by
  cases h : (rrdset_find_bytype k "system".toList "softirqs".toList).1 with
  | none => simp only [aggregate_chart, h]; rfl
  | some st => simp only [aggregate_chart, h]; rfl

theorem aggregate_chart_calls (u : Int) (k : Sink) :
    ∃ x, (aggregate_chart u k).2.calls = k.calls ++
      [(Site.chart, SinkCall.rrdset_find_bytype "system".toList "softirqs".toList),
       (Site.chart, x)] := by
  cases h : (rrdset_find_bytype k "system".toList "softirqs".toList).1 with
  | none =>
    refine ⟨SinkCall.rrdset_create "system".toList "softirqs".toList "System softirqs".toList
      950 u, ?_⟩
    simp only [aggregate_chart, h]
    simp [rrdset_create, rrdset_find_bytype]
  | some st =>
    refine ⟨SinkCall.rrdset_next st, ?_⟩
    simp only [aggregate_chart, h]
    simp [rrdset_next, rrdset_find_bytype]

/-- The aggregate pass: the sink grows, every record ends with a valid handle, and what the parsing decided is kept. -/
theorem emit_aggregate_spec (u : Int) (s : State) (lines : Nat) (k : Sink)
    (h : ∀ irr ∈ s.irrs, NameOk irr ∧ HandleOk k irr) :
    Grow k (emit_aggregate u s lines k).2 ∧
    (∀ irr ∈ (emit_aggregate u s lines k).1,
      NameOk irr ∧ HandleOk (emit_aggregate u s lines k).2 irr) ∧
    (emit_aggregate u s lines k).1.map interrupt.data = s.irrs.map interrupt.data ∧
    (emit_aggregate u s lines k).1.map (fun x => x.cpu.length) =
      s.irrs.map (fun x => x.cpu.length) := by
  have hg0 : Grow k (aggregate_chart u k).2 := Grow.of_dims_eq (aggregate_chart_dims u k)
  have h' : ∀ irr ∈ s.irrs, NameOk irr ∧ HandleOk (aggregate_chart u k).2 irr :=
    fun irr hi => ⟨(h irr hi).1, (h irr hi).2.handle_grow hg0⟩
  obtain ⟨h1, h2⟩ := aggregate_loop_spec s.do_per_core s.cpus (aggregate_chart u k).1
    (List.range lines) s.irrs (aggregate_chart u k).2 h'
  have hd : ∀ k', Grow k' (rrdset_done k' (aggregate_chart u k).1) :=
    fun k' => Grow.of_dims_eq rfl
  unfold emit_aggregate
  refine ⟨(hg0.grow_trans h1).grow_trans (hd _), ?_, ?_, ?_⟩
  · intro irr hi
    exact ⟨(h2 irr hi).1, (h2 irr hi).2.handle_grow (hd _)⟩
  · exact for_lines_map interrupt.data _ (fun l irr k => (aggregate_line_keep _ _ _ l irr k).1) _ _ _
  · exact for_lines_map (fun x => x.cpu.length) _
      (fun l irr k => (aggregate_line_keep _ _ _ l irr k).2) _ _ _

/-- The per-core row loop: the sink grows when every record has a name that fits its id. -/
theorem percore_loop_grow (c st : Nat) (ls : List Nat) (irrs : List interrupt) (k : Sink)
    (h : ∀ irr ∈ irrs, NameOk irr) :
    Grow k (for_lines (percore_line c st) ls irrs k).2 := by
  have := for_lines_inv (fun irrs' k' => Grow k k' ∧ ∀ irr ∈ irrs', NameOk irr)
    (percore_line c st) ls ?_ irrs k ⟨Grow.grow_refl k, h⟩
  · exact this.1
  · intro l _ irrs' k' ⟨hg, hall⟩
    have hslot : NameOk (irrs'.getD l default) := by
      rcases getD_mem_or_default irrs' l with hm | hd
      · exact hall _ hm
      · rw [hd]; exact NameOk.name_default
    obtain ⟨h1, _, h3, _⟩ := percore_line_spec c st l (irrs'.getD l default) k' hslot
    refine ⟨hg.grow_trans h1, ?_⟩
    intro irr hirr
    rcases List.mem_or_eq_of_mem_set hirr with hm | he
    · exact hall irr hm
    · rw [he]; exact NameOk.of_data h3 hslot


theorem for_lines_ext (P : Site × SinkCall → Prop)
    (body : Nat → interrupt → Sink → interrupt × Sink)
    (h : ∀ l irr k, Ext P k (body l irr k).2) (ls : List Nat) (irrs : List interrupt) (k : Sink) :
    Ext P k (for_lines body ls irrs k).2 := by
  apply for_lines_inv (fun _ k' => Ext P k k')
  · intro l _ irrs' k' hk
    exact hk.ext_trans (h l _ k')
  · exact Ext.ext_refl P k

theorem NameOk.name_of_map_kept {a b : List interrupt} (h : a.map interrupt.kept = b.map interrupt.kept)
    (hb : ∀ irr ∈ b, NameOk irr) : ∀ irr ∈ a, NameOk irr := by
  intro irr hi
  obtain ⟨y, hy, hp⟩ := mem_of_map_eq interrupt.kept h hi
  have : irr.data = y.data := by
    unfold interrupt.kept at hp
    simp only [Prod.mk.injEq] at hp
    exact hp.2.1.symm
  exact NameOk.of_data this (hb y hy)

/-- The row loop of one column and the closing of its chart: the sink grows, the records keep their aggregate handle and what the parsing decided, and no call is recorded for the aggregate loop. -/
theorem percore_emit_spec (lines c st : Nat) (x : List interrupt × Sink)
    (h : ∀ irr ∈ x.1, NameOk irr) :
    Grow x.2 (percore_emit lines c st x).2 ∧
    (percore_emit lines c st x).1.map interrupt.kept = x.1.map interrupt.kept ∧
    Ext not_aggregate x.2 (percore_emit lines c st x).2 := by
  unfold percore_emit
  refine ⟨?_, ?_, ?_⟩
  · exact (percore_loop_grow c st _ x.1 x.2 h).grow_trans (Grow.of_dims_eq rfl)
  · apply for_lines_map interrupt.kept
    intro l irr k
    obtain ⟨h1, h2, h3⟩ := percore_line_keep c st l irr k
    simp only [interrupt.kept, h1, h2, h3]
  · have h1 : Ext not_aggregate x.2 (for_lines (percore_line c st) (List.range lines) x.1 x.2).2 := by
      apply for_lines_ext
      intro l irr k
      exact (percore_line_ext c st l irr k).mono (fun e he l' => by rw [he]; simp)
    refine h1.ext_trans ⟨[(Site.chart, SinkCall.rrdset_done st)], rfl, ?_⟩
    intro e he
    simp only [List.mem_singleton] at he
    intro l'
    rw [he]
    simp

/-- The pass of one column. -/
theorem percore_cpu_spec (u : Int) (lines : Nat) (x : List interrupt × Sink) (c : Nat)
    (h : ∀ irr ∈ x.1, NameOk irr) :
    Grow x.2 (percore_cpu u lines x c).2 ∧
    (percore_cpu u lines x c).1.map interrupt.kept = x.1.map interrupt.kept ∧
    Ext not_aggregate x.2 (percore_cpu u lines x c).2 := by
  have hchart : ∀ (e : Site × SinkCall), e.1 = Site.chart → not_aggregate e := by
    intro e he l; rw [he]; simp
  have hf : Grow x.2 (rrdset_find_bytype x.2 "cpu".toList (cpu_chart_id c)).2 ∧
      Ext not_aggregate x.2 (rrdset_find_bytype x.2 "cpu".toList (cpu_chart_id c)).2 :=
    ⟨Grow.of_dims_eq rfl, ⟨[_], rfl, by
      intro e he; simp only [List.mem_singleton] at he; exact hchart e (by rw [he])⟩⟩
  cases hfi : (rrdset_find_bytype x.2 "cpu".toList (cpu_chart_id c)).1 with
  | none =>
    by_cases hz : core_sum x.1 lines c = 0
    · have : percore_cpu u lines x c =
          (x.1, (rrdset_find_bytype x.2 "cpu".toList (cpu_chart_id c)).2) := by
        simp only [percore_cpu, hfi, hz, if_true]
      rw [this]
      exact ⟨hf.1, rfl, hf.2⟩
    · have : percore_cpu u lines x c = percore_emit lines c
          (rrdset_create (rrdset_find_bytype x.2 "cpu".toList (cpu_chart_id c)).2 "cpu".toList
            (cpu_chart_id c) (cpu_chart_title c) (3000 + c) u).1
          (x.1, (rrdset_create (rrdset_find_bytype x.2 "cpu".toList (cpu_chart_id c)).2
            "cpu".toList (cpu_chart_id c) (cpu_chart_title c) (3000 + c) u).2) := by
        simp only [percore_cpu, hfi, hz, if_false]
      rw [this]
      obtain ⟨h1, h2, h3⟩ := percore_emit_spec lines c
        (rrdset_create (rrdset_find_bytype x.2 "cpu".toList (cpu_chart_id c)).2 "cpu".toList
            (cpu_chart_id c) (cpu_chart_title c) (3000 + c) u).1
        (x.1, (rrdset_create (rrdset_find_bytype x.2 "cpu".toList (cpu_chart_id c)).2
            "cpu".toList (cpu_chart_id c) (cpu_chart_title c) (3000 + c) u).2) h
      have hc : Grow (rrdset_find_bytype x.2 "cpu".toList (cpu_chart_id c)).2
          (rrdset_create (rrdset_find_bytype x.2 "cpu".toList (cpu_chart_id c)).2
            "cpu".toList (cpu_chart_id c) (cpu_chart_title c) (3000 + c) u).2 :=
        Grow.of_dims_eq rfl
      have hce : Ext not_aggregate (rrdset_find_bytype x.2 "cpu".toList (cpu_chart_id c)).2
          (rrdset_create (rrdset_find_bytype x.2 "cpu".toList (cpu_chart_id c)).2
            "cpu".toList (cpu_chart_id c) (cpu_chart_title c) (3000 + c) u).2 :=
        ⟨[_], rfl, by
          intro e he; simp only [List.mem_singleton] at he; exact hchart e (by rw [he])⟩
      exact ⟨(hf.1.grow_trans hc).grow_trans h1, h2, (hf.2.ext_trans hce).ext_trans h3⟩
  | some st =>
    have : percore_cpu u lines x c = percore_emit lines c st
        (x.1, rrdset_next (rrdset_find_bytype x.2 "cpu".toList (cpu_chart_id c)).2 st) := by
      simp only [percore_cpu, hfi]
    rw [this]
    obtain ⟨h1, h2, h3⟩ := percore_emit_spec lines c st
      (x.1, rrdset_next (rrdset_find_bytype x.2 "cpu".toList (cpu_chart_id c)).2 st) h
    have hc : Grow (rrdset_find_bytype x.2 "cpu".toList (cpu_chart_id c)).2
        (rrdset_next (rrdset_find_bytype x.2 "cpu".toList (cpu_chart_id c)).2 st) :=
      Grow.of_dims_eq rfl
    have hce : Ext not_aggregate (rrdset_find_bytype x.2 "cpu".toList (cpu_chart_id c)).2
        (rrdset_next (rrdset_find_bytype x.2 "cpu".toList (cpu_chart_id c)).2 st) :=
      ⟨[_], rfl, by
        intro e he; simp only [List.mem_singleton] at he; exact hchart e (by rw [he])⟩
    exact ⟨(hf.1.grow_trans hc).grow_trans h1, h2, (hf.2.ext_trans hce).ext_trans h3⟩

theorem percore_fold_spec (u : Int) (lines : Nat) :
    ∀ (cs : List Nat) (x : List interrupt × Sink), (∀ irr ∈ x.1, NameOk irr) →
      Grow x.2 (cs.foldl (percore_cpu u lines) x).2 ∧
      (cs.foldl (percore_cpu u lines) x).1.map interrupt.kept = x.1.map interrupt.kept ∧
      Ext not_aggregate x.2 (cs.foldl (percore_cpu u lines) x).2 := by
  intro cs
  induction cs with
  | nil => intro x _; exact ⟨Grow.grow_refl _, rfl, Ext.ext_refl _ _⟩
  | cons c cs ih =>
    intro x h
    obtain ⟨h1, h2, h3⟩ := percore_cpu_spec u lines x c h
    obtain ⟨g1, g2, g3⟩ := ih (percore_cpu u lines x c) (NameOk.name_of_map_kept h2 h)
    rw [List.foldl_cons]
    exact ⟨h1.grow_trans g1, g2.trans h2, h3.ext_trans g3⟩

/-- The per-core passes: the sink grows, the records keep their aggregate handle and what the parsing decided, and no call is recorded for the aggregate loop. -/
theorem emit_percore_spec (u : Int) (s : State) (lines : Nat) (x : List interrupt × Sink)
    (h : ∀ irr ∈ x.1, NameOk irr) :
    Grow x.2 (emit_percore u s lines x).2 ∧
    (emit_percore u s lines x).1.map interrupt.kept = x.1.map interrupt.kept ∧
    Ext not_aggregate x.2 (emit_percore u s lines x).2 := by
  unfold emit_percore
  split_ifs
  · exact percore_fold_spec u lines _ x h
  · exact ⟨Grow.grow_refl _, rfl, Ext.ext_refl _ _⟩

/-! ## Lemmas on the store and the parsing pass -/

theorem get_interrupts_array_ne {s : State} {lines : Nat} (cpus : Int) (raw : Nat → interrupt)
    (h : lines ≠ s.allocated) :
    get_interrupts_array s lines cpus raw =
      { s with
        irrs := (List.range lines).map (fun l => reset_record cpus (raw l))
        allocated := lines } := by
  simp [get_interrupts_array, h]

theorem get_interrupts_array_eq {s : State} {lines : Nat} (cpus : Int) (raw : Nat → interrupt)
    (h : lines = s.allocated) : get_interrupts_array s lines cpus raw = s := by
  simp [get_interrupts_array, h]

theorem get_interrupts_array_statics (s : State) (lines : Nat) (cpus : Int)
    (raw : Nat → interrupt) :
    (get_interrupts_array s lines cpus raw).cpus = s.cpus ∧
    (get_interrupts_array s lines cpus raw).do_per_core = s.do_per_core ∧
    (get_interrupts_array s lines cpus raw).ff = s.ff := by
  unfold get_interrupts_array
  split_ifs <;> exact ⟨rfl, rfl, rfl⟩

theorem reset_record_spec (cpus : Int) (r : interrupt) :
    (reset_record cpus r).rd = none ∧ (reset_record cpus r).name = [] ∧
    (reset_record cpus r).cpu.length = cpus.toNat ∧
    ∀ x ∈ (reset_record cpus r).cpu, x.rd = none := by
  refine ⟨rfl, rfl, by simp [reset_record], ?_⟩
  intro x hx
  simp only [reset_record, List.mem_map] at hx
  obtain ⟨c, _, hc⟩ := hx
  rw [← hc]

/-- The store returned by `get_interrupts_array` for a well-sized store: it holds `lines` records, each with one slot for each column and a valid aggregate handle or none. -/
theorem get_interrupts_array_spec (s : State) (lines : Nat) (raw : Nat → interrupt) (k : Sink)
    (hlen : s.irrs.length = s.allocated)
    (hcols : ∀ irr ∈ s.irrs, irr.cpu.length = s.cpus.toNat)
    (hh : ∀ irr ∈ s.irrs, HandleOk k irr) :
    (get_interrupts_array s lines s.cpus raw).irrs.length = lines ∧
    (get_interrupts_array s lines s.cpus raw).allocated = lines ∧
    ∀ irr ∈ (get_interrupts_array s lines s.cpus raw).irrs,
      irr.cpu.length = s.cpus.toNat ∧ HandleOk k irr := by
  by_cases h : lines = s.allocated
  · rw [get_interrupts_array_eq _ _ h]
    exact ⟨by rw [hlen, h], h.symm, fun irr hi => ⟨hcols irr hi, hh irr hi⟩⟩
  · rw [get_interrupts_array_ne _ _ h]
    refine ⟨by simp, rfl, ?_⟩
    intro irr hi
    simp only [List.mem_map] at hi
    obtain ⟨l, _, hl⟩ := hi
    rw [← hl]
    refine ⟨(reset_record_spec _ _).2.2.1, ?_⟩
    intro p hp
    rw [(reset_record_spec _ _).1] at hp
    cases hp

theorem parse_table_getElem? (raw : Nat → interrupt) (f : List (List CStr)) (s : State) (l : Nat) :
    (parse_table raw f s).irrs[l]? =
      ((get_interrupts_array s f.length s.cpus raw).irrs[l]?).map (parse_slot s.cpus f l) := by
  simp only [parse_table, (get_interrupts_array_statics s f.length s.cpus raw).1]
  rw [foldl_modify_getElem?, List.getElem?_modify]
  unfold parse_slot
  by_cases h0 : l = 0
  · subst h0
    have : ¬ (1 ≤ 0 ∧ 0 < 1 + (f.length - 1)) := by omega
    simp only [this, if_false, if_true]
    cases (get_interrupts_array s f.length s.cpus raw).irrs[0]? <;> simp
  · by_cases h1 : l < f.length
    · have : 1 ≤ l ∧ l < 1 + (f.length - 1) := by omega
      have h0' : ¬ (0 = l) := by omega
      simp only [this, h0, h0', h1, if_true, if_false, and_self]
      cases (get_interrupts_array s f.length s.cpus raw).irrs[l]? <;> simp
    · have : ¬ (1 ≤ l ∧ l < 1 + (f.length - 1)) := by omega
      have h0' : ¬ (0 = l) := by omega
      simp only [this, h0, h0', h1, if_false]
      cases (get_interrupts_array s f.length s.cpus raw).irrs[l]? <;> simp

theorem parse_table_statics (raw : Nat → interrupt) (f : List (List CStr)) (s : State) :
    (parse_table raw f s).cpus = s.cpus ∧
    (parse_table raw f s).do_per_core = s.do_per_core ∧
    (parse_table raw f s).ff = s.ff ∧
    (parse_table raw f s).allocated = (get_interrupts_array s f.length s.cpus raw).allocated ∧
    (parse_table raw f s).irrs.length = (get_interrupts_array s f.length s.cpus raw).irrs.length := by
  obtain ⟨h1, h2, h3⟩ := get_interrupts_array_statics s f.length s.cpus raw
  refine ⟨h1, h2, h3, rfl, ?_⟩
  simp only [parse_table]
  rw [foldl_modify_length, List.length_modify]

theorem parse_slot_spec (cpus : Int) (f : List (List CStr)) (l : Nat) (irr : interrupt) :
    (parse_slot cpus f l irr).rd = irr.rd ∧
    (parse_slot cpus f l irr).cpu.length = irr.cpu.length ∧
    ((l = 0 ∨ l < f.length) → NameOk (parse_slot cpus f l irr)) := by
  unfold parse_slot
  split_ifs with h0 h1
  · exact ⟨rfl, rfl, fun _ hu => absurd rfl hu⟩
  · obtain ⟨h2, h3, _⟩ := parse_line_handles cpus (f.getD l []) irr
    exact ⟨h2, h3, fun _ hu => parse_line_named cpus _ irr hu⟩
  · exact ⟨rfl, rfl, fun h => by omega⟩

/-- The store after the parsing pass of a well-sized store: it holds one record for each line, each with one slot for each column, a valid aggregate handle or none, and a name that fits its id. -/
theorem parse_table_spec (raw : Nat → interrupt) (f : List (List CStr)) (s : State) (k : Sink)
    (hlen : s.irrs.length = s.allocated)
    (hcols : ∀ irr ∈ s.irrs, irr.cpu.length = s.cpus.toNat)
    (hh : ∀ irr ∈ s.irrs, HandleOk k irr) :
    (parse_table raw f s).irrs.length = f.length ∧
    (parse_table raw f s).allocated = f.length ∧
    (∀ irr ∈ (parse_table raw f s).irrs, irr.cpu.length = s.cpus.toNat) ∧
    (∀ irr ∈ (parse_table raw f s).irrs, NameOk irr ∧ HandleOk k irr) := by
  obtain ⟨g1, g2, g3⟩ := get_interrupts_array_spec s f.length raw k hlen hcols hh
  obtain ⟨_, _, _, p4, p5⟩ := parse_table_statics raw f s
  have key : ∀ irr ∈ (parse_table raw f s).irrs, irr.cpu.length = s.cpus.toNat ∧
      NameOk irr ∧ HandleOk k irr := by
    intro irr hi
    obtain ⟨l, hl⟩ := List.mem_iff_getElem?.mp hi
    rw [parse_table_getElem?] at hl
    cases hb : (get_interrupts_array s f.length s.cpus raw).irrs[l]? with
    | none => rw [hb] at hl; simp at hl
    | some b =>
      rw [hb] at hl
      simp only [Option.map_some', Option.some.injEq] at hl
      have hbm : b ∈ (get_interrupts_array s f.length s.cpus raw).irrs :=
        List.mem_iff_getElem?.mpr ⟨l, hb⟩
      have hlt : l < f.length := by
        have := (List.getElem?_eq_some_iff.mp hb).1
        omega
      obtain ⟨q1, q2, q3⟩ := parse_slot_spec s.cpus f l b
      rw [← hl]
      exact ⟨by rw [q2]; exact (g3 b hbm).1, q3 (Or.inr hlt), HandleOk.of_rd q1 (g3 b hbm).2⟩
  exact ⟨by rw [p5, g1], by rw [p4, g2], fun irr hi => (key irr hi).1,
    fun irr hi => (key irr hi).2⟩

/-! ## The invariant of the executions -/

theorem count_cpus_nonneg (header : List CStr) : 0 ≤ count_cpus header := by
  unfold count_cpus
  have : ∀ (ws : List CStr) (n : Int), 0 ≤ n →
      0 ≤ ws.foldl (fun cpus w => if strncmp w "CPU".toList 3 = 0 then cpus + 1 else cpus) n := by
    intro ws
    induction ws with
    | nil => intro n hn; exact hn
    | cons w ws ih =>
      intro n hn
      rw [List.foldl_cons]
      apply ih
      split_ifs <;> omega
  exact this header 0 (le_refl 0)

theorem HandleOk.handle_of_map_kept {k : Sink} {a b : List interrupt}
    (h : a.map interrupt.kept = b.map interrupt.kept)
    (hb : ∀ irr ∈ b, HandleOk k irr) : ∀ irr ∈ a, HandleOk k irr := by
  intro irr hi
  obtain ⟨y, hy, hp⟩ := mem_of_map_eq interrupt.kept h hi
  have : irr.rd = y.rd := by
    unfold interrupt.kept at hp
    simp only [Prod.mk.injEq] at hp
    exact hp.1.symm
  exact HandleOk.of_rd this (hb y hy)

theorem cols_of_map_kept {n : Nat} {a b : List interrupt}
    (h : a.map interrupt.kept = b.map interrupt.kept)
    (hb : ∀ irr ∈ b, irr.cpu.length = n) : ∀ irr ∈ a, irr.cpu.length = n := by
  intro irr hi
  obtain ⟨y, hy, hp⟩ := mem_of_map_eq interrupt.kept h hi
  unfold interrupt.kept at hp
  simp only [Prod.mk.injEq] at hp
  rw [← hp.2.2]
  exact hb y hy

theorem cols_of_map_length {n : Nat} {a b : List interrupt}
    (h : a.map (fun x => x.cpu.length) = b.map (fun x => x.cpu.length))
    (hb : ∀ irr ∈ b, irr.cpu.length = n) : ∀ irr ∈ a, irr.cpu.length = n := by
  intro irr hi
  obtain ⟨y, hy, hp⟩ := mem_of_map_eq (fun x => x.cpu.length) h hi
  rw [← hp]
  exact hb y hy

theorem ResolvedOk.resolved_grow {k k' : Sink} {irr : interrupt} (h : ResolvedOk k irr)
    (hh : HandleOk k irr) (hg : Grow k k') : ResolvedOk k' irr := by
  intro hu
  obtain ⟨p, hp, he⟩ := h hu
  exact ⟨p, hp, by rw [hg.id_eq p (hh p hp).1]; exact he⟩

theorem ResolvedOk.resolved_of_map_kept {k : Sink} {a b : List interrupt}
    (h : a.map interrupt.kept = b.map interrupt.kept)
    (hb : ∀ irr ∈ b, ResolvedOk k irr) : ∀ irr ∈ a, ResolvedOk k irr := by
  intro irr hi
  obtain ⟨y, hy, hp⟩ := mem_of_map_eq interrupt.kept h hi
  unfold interrupt.kept interrupt.data at hp
  simp only [Prod.mk.injEq] at hp
  obtain ⟨h1, ⟨h2, h3, _⟩, _⟩ := hp
  intro hu
  obtain ⟨p, hp1, hp2⟩ := hb y hy (by rw [h2]; exact hu)
  exact ⟨p, by rw [← h1]; exact hp1, by rw [← h3]; exact hp2⟩

/-- After the aggregate row loop over a store of `lines` records every used record has a handle resolved for its id. -/
theorem aggregate_loop_resolved (dpc cpus : Int) (st : Nat) (lines : Nat) (irrs : List interrupt)
    (k : Sink) (h : ∀ irr ∈ irrs, NameOk irr ∧ HandleOk k irr) (hlen : irrs.length = lines) :
    ∀ irr ∈ (for_lines (aggregate_line dpc cpus st) (List.range lines) irrs k).1,
      ResolvedOk (for_lines (aggregate_line dpc cpus st) (List.range lines) irrs k).2 irr := by
  have key := for_lines_range_inv
    (fun n irrs' k' => (∀ irr ∈ irrs', NameOk irr ∧ HandleOk k' irr) ∧
      ∀ j x, j < n → irrs'[j]? = some x → ResolvedOk k' x)
    (aggregate_line dpc cpus st) ?_ lines irrs k ⟨h, fun j x hj => by omega⟩
  · intro irr hi
    obtain ⟨j, hj⟩ := List.mem_iff_getElem?.mp hi
    have hlt := (List.getElem?_eq_some_iff.mp hj).1
    rw [for_lines_length, hlen] at hlt
    exact key.2 j irr hlt hj
  · intro n irrs' k' ⟨hall, hres⟩
    have hslot : NameOk (irrs'.getD n default) ∧ HandleOk k' (irrs'.getD n default) := by
      rcases getD_mem_or_default irrs' n with hm | hd
      · exact hall _ hm
      · rw [hd]; exact ⟨NameOk.name_default, HandleOk.handle_default k'⟩
    obtain ⟨h1, h2, h3, h4, _⟩ :=
      aggregate_line_spec dpc cpus st n (irrs'.getD n default) k' hslot.1 hslot.2
    refine ⟨?_, ?_⟩
    · intro irr hirr
      rcases List.mem_or_eq_of_mem_set hirr with hm | he
      · exact ⟨(hall irr hm).1, (hall irr hm).2.handle_grow h1⟩
      · rw [he]; exact ⟨NameOk.of_data h4 hslot.1, h2⟩
    · intro j x hj hx
      by_cases hjn : n = j
      · subst hjn
        rw [List.getElem?_set] at hx
        simp only [if_true] at hx
        split_ifs at hx with hlt
        simp only [Option.some.injEq] at hx
        rw [← hx]
        unfold interrupt.data at h4
        simp only [Prod.mk.injEq] at h4
        intro hu
        obtain ⟨p, hp1, hp2⟩ := h3 (by rw [← h4.1]; exact hu)
        exact ⟨p, hp1, by rw [h4.2.1]; exact hp2⟩
      · rw [List.getElem?_set_ne hjn] at hx
        have hxm : x ∈ irrs' := List.mem_iff_getElem?.mpr ⟨j, hx⟩
        exact (hres j x (by omega) hx).resolved_grow (hall x hxm).2 h1

/-- After the aggregate pass over a store of `lines` records every used record has a handle resolved for its id. -/
theorem emit_aggregate_resolved (u : Int) (s : State) (lines : Nat) (k : Sink)
    (h : ∀ irr ∈ s.irrs, NameOk irr ∧ HandleOk k irr) (hlen : s.irrs.length = lines) :
    ∀ irr ∈ (emit_aggregate u s lines k).1, ResolvedOk (emit_aggregate u s lines k).2 irr := by
  have hg0 : Grow k (aggregate_chart u k).2 := Grow.of_dims_eq (aggregate_chart_dims u k)
  have h' : ∀ irr ∈ s.irrs, NameOk irr ∧ HandleOk (aggregate_chart u k).2 irr :=
    fun irr hi => ⟨(h irr hi).1, (h irr hi).2.handle_grow hg0⟩
  have h1 := aggregate_loop_resolved s.do_per_core s.cpus (aggregate_chart u k).1 lines s.irrs
    (aggregate_chart u k).2 h' hlen
  have h2 := (aggregate_loop_spec s.do_per_core s.cpus (aggregate_chart u k).1
    (List.range lines) s.irrs (aggregate_chart u k).2 h').2
  intro irr hi
  exact (h1 irr hi).resolved_grow (h2 irr hi).2 (Grow.of_dims_eq rfl)

/-- The parsing and emission of a cycle keep the invariant. -/
theorem collect_inv (u : Int) (raw : Nat → interrupt) (f : List (List CStr)) (s : State)
    (k : Sink) (hc : s.cpus ≠ -1) (hlen : s.irrs.length = s.allocated)
    (hcols : ∀ irr ∈ s.irrs, irr.cpu.length = s.cpus.toNat)
    (hh : ∀ irr ∈ s.irrs, HandleOk k irr) :
    Inv (collect u raw f s k).st (collect u raw f s k).sink ∧ Grow k (collect u raw f s k).sink := by
  obtain ⟨p1, p2, p3, p4⟩ := parse_table_spec raw f s k hlen hcols hh
  obtain ⟨q1, _, _, _, _⟩ := parse_table_statics raw f s
  obtain ⟨a1, a2, a3, a4⟩ := emit_aggregate_spec u (parse_table raw f s) f.length k p4
  obtain ⟨e1, e2, _⟩ := emit_percore_spec u (parse_table raw f s) f.length
    (emit_aggregate u (parse_table raw f s) f.length k) (fun irr hi => (a2 irr hi).1)
  have hl1 : (emit_aggregate u (parse_table raw f s) f.length k).1.length = f.length := by
    have := congrArg List.length a3
    simpa [p1] using this
  have hl2 : (emit_percore u (parse_table raw f s) f.length
      (emit_aggregate u (parse_table raw f s) f.length k)).1.length = f.length := by
    have := congrArg List.length e2
    simpa [hl1] using this
  have a5 := emit_aggregate_resolved u (parse_table raw f s) f.length k p4 p1
  refine ⟨⟨?_, ?_, ?_, ?_, ?_⟩, a1.grow_trans e1⟩
  · simp only [collect]; rw [hl2, p2]
  · intro h
    simp only [collect] at h
    rw [q1] at h
    exact absurd h hc
  · simp only [collect]
    rw [q1]
    exact cols_of_map_kept e2 (cols_of_map_length a4 p3)
  · simp only [collect]
    intro irr hi
    exact ⟨NameOk.name_of_map_kept e2 (fun x hx => (a2 x hx).1) irr hi,
      (HandleOk.handle_of_map_kept e2 (fun x hx => (a2 x hx).2) irr hi).handle_grow e1⟩
  · simp only [collect]
    intro irr hi
    exact (ResolvedOk.resolved_of_map_kept e2 a5 irr hi).resolved_grow
      (HandleOk.handle_of_map_kept e2 (fun x hx => (a2 x hx).2) irr hi) e1

theorem columns_ne_neg_one (s : State) (f : List (List CStr)) : columns s f ≠ -1 := by
  unfold columns
  split_ifs with h1
  · have := count_cpus_nonneg (f.getD 0 [])
    omega
  · exact h1

theorem entered_inv (env : Env) (s : State) (k : Sink) (f : List (List CStr)) (h : Inv s k) :
    (entered env s f).irrs.length = (entered env s f).allocated ∧
    (∀ irr ∈ (entered env s f).irrs, irr.cpu.length = (entered env s f).cpus.toNat) ∧
    (∀ irr ∈ (entered env s f).irrs, HandleOk k irr) := by
  refine ⟨h.len, ?_, fun irr hi => (h.recs irr hi).2⟩
  intro irr hi
  have hi' : irr ∈ s.irrs := hi
  have hne : s.cpus ≠ -1 := by
    intro h1
    rw [h.fresh h1] at hi'
    cases hi'
  simp only [entered, columns, hne, if_false]
  exact h.cols irr hi'

/-- A call that does not get past its guards leaves the records, the allocated row count and the sink as they were, and changes the column count only when it was not settled. -/
theorem do_proc_softirqs_fault (u : Int) (env : Env) (s : State) (k : Sink)
    (h : ¬ ∃ f, Successful env s f) :
    (do_proc_softirqs u env s k).sink = k ∧
    (do_proc_softirqs u env s k).st.irrs = s.irrs ∧
    (do_proc_softirqs u env s k).st.allocated = s.allocated ∧
    ((do_proc_softirqs u env s k).st.cpus = s.cpus ∨
      (s.cpus = -1 ∧ (do_proc_softirqs u env s k).st.cpus = 0)) := by
  unfold do_proc_softirqs
  by_cases hopen : s.ff = true ∨ env.open_ok = true
  · cases hf : env.file with
    | none => simp only []; split_ifs <;> simp
    | some f =>
      by_cases hne : f = []
      · subst hne
        simp only []
        split_ifs <;> simp_all
      · have hc : columns s f = 0 := by
          by_contra hc
          exact h ⟨f, hopen, hf, hne, hc⟩
        have hl : f.length ≠ 0 := by simpa using hne
        unfold columns at hc
        by_cases h1 : s.cpus = -1
        · simp only [h1, if_true] at hc
          simp only []
          split_ifs <;> simp_all
        · simp only [h1, if_false] at hc
          simp only []
          split_ifs <;> simp_all
  · have h1 : s.ff = false := by
      cases hff : s.ff
      · rfl
      · exact absurd (Or.inl hff) hopen
    have h2 : env.open_ok = false := by
      cases ho : env.open_ok
      · rfl
      · exact absurd (Or.inr ho) hopen
    split_ifs <;> simp_all

/-- Every call keeps the invariant. -/
theorem do_proc_softirqs_inv (u : Int) (env : Env) (s : State) (k : Sink) (h : Inv s k) :
    Inv (do_proc_softirqs u env s k).st (do_proc_softirqs u env s k).sink := by
  by_cases hs : ∃ f, Successful env s f
  · obtain ⟨f, hf⟩ := hs
    rw [do_proc_softirqs_successful u env s k f hf]
    obtain ⟨e1, e2, e3⟩ := entered_inv env _ _ f h
    exact (collect_inv u env.raw f (entered env s f) k
      (columns_ne_neg_one s f) e1 e2 e3).1
  · obtain ⟨f1, f2, f3, f4⟩ := do_proc_softirqs_fault u env s k hs
    refine ⟨(by rw [f2, f3]; exact h.len), ?_, ?_, ?_, ?_⟩
    · intro hc
      rw [f2]
      rcases f4 with f4 | ⟨f4, f5⟩
      · exact h.fresh (by rw [← f4]; exact hc)
      · exact h.fresh f4
    · intro irr hi
      rw [f2] at hi
      rcases f4 with f4 | ⟨f4, _⟩
      · rw [f4]; exact h.cols irr hi
      · rw [h.fresh f4] at hi; cases hi
    · intro irr hi
      rw [f2] at hi
      rw [f1]
      exact h.recs irr hi
    · intro irr hi
      rw [f2] at hi
      rw [f1]
      exact h.res irr hi

theorem inv_init (k : Sink) : Inv State.init k :=
  ⟨rfl, fun _ => rfl, fun _ h => (by cases h), fun _ h => (by cases h),
    fun _ h => (by cases h)⟩

/-- Every reachable state satisfies the invariant. -/
theorem reachable_inv {s : State} {k : Sink} (h : Reachable s k) : Inv s k := by
  induction h with
  | init k => exact inv_init k
  | step u env s k _ ih => exact do_proc_softirqs_inv u env s k ih

/-! ## What a successful cycle leaves in a record -/

theorem map_data_of_map_kept {a b : List interrupt}
    (h : a.map interrupt.kept = b.map interrupt.kept) :
    a.map interrupt.data = b.map interrupt.data := by
  have := congrArg (List.map (fun x : Option Nat × (Int × CStr × CStr × Nat × List Nat) × Nat =>
    x.2.1)) h
  simpa [List.map_map, Function.comp, interrupt.kept] using this

theorem map_rd_of_map_kept {a b : List interrupt}
    (h : a.map interrupt.kept = b.map interrupt.kept) :
    a.map (fun x => x.rd) = b.map (fun x => x.rd) := by
  have := congrArg (List.map (fun x : Option Nat × (Int × CStr × CStr × Nat × List Nat) × Nat =>
    x.1)) h
  simpa [List.map_map, Function.comp, interrupt.kept] using this

/-- The emission passes of a cycle keep what the parsing pass decided of every record. -/
theorem collect_data (u : Int) (raw : Nat → interrupt) (f : List (List CStr)) (s : State)
    (k : Sink) (hlen : s.irrs.length = s.allocated)
    (hcols : ∀ irr ∈ s.irrs, irr.cpu.length = s.cpus.toNat)
    (hh : ∀ irr ∈ s.irrs, HandleOk k irr) :
    (collect u raw f s k).st.irrs.map interrupt.data =
      (parse_table raw f s).irrs.map interrupt.data := by
  obtain ⟨_, _, _, p4⟩ := parse_table_spec raw f s k hlen hcols hh
  obtain ⟨_, a2, a3, _⟩ := emit_aggregate_spec u (parse_table raw f s) f.length k p4
  obtain ⟨_, e2, _⟩ := emit_percore_spec u (parse_table raw f s) f.length
    (emit_aggregate u (parse_table raw f s) f.length k) (fun irr hi => (a2 irr hi).1)
  simp only [collect]
  rw [map_data_of_map_kept e2, a3]

/-- The record of line `l` after a successful cycle: what the parsing of line `l` decided, on a record that has one slot for each column. -/
theorem cycle_slot (u : Int) (env : Env) (s : State) (k : Sink) (f : List (List CStr))
    (hinv : Inv s k) (hs : Successful env s f) (l : Nat) (irr : interrupt)
    (hi : (do_proc_softirqs u env s k).st.irrs[l]? = some irr) :
    l < f.length ∧ ∃ b : interrupt, b.cpu.length = (columns s f).toNat ∧
      irr.data = (parse_slot (columns s f) f l b).data := by
  rw [do_proc_softirqs_successful u env s k f hs] at hi
  obtain ⟨e1, e2, e3⟩ := entered_inv env _ _ f hinv
  have hd := collect_data u env.raw f (entered env s f) k e1 e2 e3
  obtain ⟨g1, _, g3⟩ := get_interrupts_array_spec (entered env s f) f.length env.raw k e1 e2 e3
  have h1 := congrArg (fun x => x[l]?) hd
  simp only [List.getElem?_map, hi, Option.map_some'] at h1
  rw [parse_table_getElem?] at h1
  cases hb : (get_interrupts_array (entered env s f) f.length (entered env s f).cpus
      env.raw).irrs[l]? with
  | none => rw [hb] at h1; simp at h1
  | some b =>
    rw [hb] at h1
    simp only [Option.map_some', Option.some.injEq] at h1
    have hlt := (List.getElem?_eq_some_iff.mp hb).1
    rw [g1] at hlt
    exact ⟨hlt, b, (g3 b (List.mem_iff_getElem?.mpr ⟨l, hb⟩)).1, h1⟩

/-- A record that is used after the parsing comes from a line past the header with a non-empty first word. -/
theorem parse_slot_used (cpus : Int) (f : List (List CStr)) (l : Nat) (b : interrupt)
    (hl : l < f.length) (hu : (parse_slot cpus f l b).used ≠ 0) :
    1 ≤ l ∧ ∃ t rest, f.getD l [] = t :: rest ∧ t ≠ [] ∧
      parse_slot cpus f l b = parse_line cpus (t :: rest) b := by
  unfold parse_slot at hu ⊢
  by_cases h0 : l = 0
  · simp [h0] at hu
  · simp only [h0, hl, if_false, if_true] at hu ⊢
    refine ⟨by omega, ?_⟩
    cases hws : f.getD l [] with
    | nil =>
      rw [hws] at hu
      exact absurd (parse_line_unused cpus [] b (Or.inl rfl)) hu
    | cons t rest =>
      by_cases ht : t = []
      · rw [hws] at hu
        exact absurd (parse_line_unused cpus (t :: rest) b (Or.inr (by simp [ht]))) hu
      · exact ⟨t, rest, rfl, ht, rfl⟩

theorem cycle_length (u : Int) (env : Env) (s : State) (k : Sink) (f : List (List CStr))
    (hinv : Inv s k) (hs : Successful env s f) :
    (do_proc_softirqs u env s k).st.irrs.length = f.length ∧
    (do_proc_softirqs u env s k).st.allocated = f.length ∧
    (do_proc_softirqs u env s k).st.cpus = columns s f ∧
    (do_proc_softirqs u env s k).ret = 0 := by
  have hi := do_proc_softirqs_inv u env s k hinv
  have hlen := hi.len
  rw [do_proc_softirqs_successful u env s k f hs] at hlen ⊢
  obtain ⟨e1, e2, e3⟩ := entered_inv env _ _ f hinv
  obtain ⟨_, p2, _, _⟩ := parse_table_spec env.raw f (entered env s f) k e1 e2 e3
  have ha : (collect u env.raw f (entered env s f) k).st.allocated = f.length := by
    simp only [collect]; exact p2
  refine ⟨by rw [hlen, ha], ha, ?_, rfl⟩
  simp only [collect]
  exact (parse_table_statics env.raw f (entered env s f)).1

/-- The record of a line past the header with a non-empty first word, after a successful cycle: what `parse_line` decided, on a record that has one slot for each column. -/
theorem cycle_used_slot (u : Int) (env : Env) (s : State) (k : Sink) (f : List (List CStr))
    (hinv : Inv s k) (hs : Successful env s f) (l : Nat) (t : CStr) (rest : List CStr)
    (hl1 : 1 ≤ l) (hl : l < f.length) (hws : f.getD l [] = t :: rest) :
    ∃ irr b : interrupt, (do_proc_softirqs u env s k).st.irrs[l]? = some irr ∧
      b.cpu.length = (columns s f).toNat ∧
      irr.data = (parse_line (columns s f) (t :: rest) b).data := by
  obtain ⟨h1, _, _, _⟩ := cycle_length u env s k f hinv hs
  have hlt : l < (do_proc_softirqs u env s k).st.irrs.length := by rw [h1]; exact hl
  have hi := List.getElem?_eq_getElem hlt
  obtain ⟨_, b, hb1, hb2⟩ := cycle_slot u env s k f hinv hs l _ hi
  refine ⟨_, b, hi, hb1, ?_⟩
  rw [hb2]
  have h0 : l ≠ 0 := by omega
  simp only [parse_slot, h0, hl, if_false, if_true, hws]

theorem strip_colon_eq (t : CStr) :
    strip_colon t = if t.getLast? = some ':' then t.dropLast else t := by
  unfold strip_colon
  rw [List.getLast?_eq_getElem?, List.dropLast_eq_take]
  by_cases hlen : t.length - 1 < t.length
  · simp only [List.getD_eq_getElem?_getD, List.getElem?_eq_getElem hlen, Option.getD_some,
      Option.some.injEq]
  · have hnil : t = [] := by
      cases t with
      | nil => rfl
      | cons a as => simp at hlen
    subst hnil
    simp

theorem U64_eq : U64 = 2 ^ 64 := by decide

/-! ## The aggregate loop at one row -/

theorem aggregate_line_calls_grow (dpc cpus : Int) (st l : Nat) (irr : interrupt) (k : Sink) :
    ∃ t, (aggregate_line dpc cpus st l irr k).2.calls = k.calls ++ t ∧
      ∀ e ∈ t, e.1 = Site.aggregate l := by
  obtain ⟨t, h1, h2⟩ := aggregate_line_ext dpc cpus st l irr k
  exact ⟨t, h1, h2⟩

/-- The aggregate row loop at a used row whose record has no handle: the calls of the loop hold, for this row, the lookup by id, then the creation or the rename, then the append of the total. -/
theorem aggregate_loop_resolve (dpc cpus : Int) (st lines i : Nat) (pa : interrupt)
    (irrs : List interrupt) (k : Sink) (hi : irrs[i]? = some pa) (hil : i < lines)
    (hu : pa.used ≠ 0) (hrd : pa.rd = none) :
    ∃ pre post rd x,
      (for_lines (aggregate_line dpc cpus st) (List.range lines) irrs k).2.calls =
        k.calls ++ pre ++
          [(Site.aggregate i, SinkCall.rrddim_find st pa.id), (Site.aggregate i, x),
           (Site.aggregate i, SinkCall.rrddim_set_by_pointer st rd pa.total)] ++ post ∧
      (x = SinkCall.rrddim_add st pa.id pa.name ∨ x = SinkCall.rrddim_set_name st rd pa.name) := by
  have key := for_lines_range_inv
    (fun n irrs' k' => (n ≤ i → irrs'[i]? = some pa) ∧ (∃ t, k'.calls = k.calls ++ t) ∧
      (i < n → ∃ pre post rd x, k'.calls = k.calls ++ pre ++
          [(Site.aggregate i, SinkCall.rrddim_find st pa.id), (Site.aggregate i, x),
           (Site.aggregate i, SinkCall.rrddim_set_by_pointer st rd pa.total)] ++ post ∧
        (x = SinkCall.rrddim_add st pa.id pa.name ∨
          x = SinkCall.rrddim_set_name st rd pa.name)))
    (aggregate_line dpc cpus st) ?_ lines irrs k
    ⟨fun _ => hi, ⟨[], by simp⟩, fun h => by omega⟩
  · exact key.2.2 hil
  · intro n irrs' k' ⟨h1, ⟨t, ht⟩, h3⟩
    obtain ⟨t2, ht2, _⟩ := aggregate_line_calls_grow dpc cpus st n (irrs'.getD n default) k'
    refine ⟨?_, ⟨t ++ t2, by rw [ht2, ht, List.append_assoc]⟩, ?_⟩
    · intro hn
      rw [List.getElem?_set_ne (by omega)]
      exact h1 (by omega)
    · intro hn
      by_cases hni : n = i
      · subst hni
        have hslot : irrs'.getD n default = pa := by
          simp [List.getD_eq_getElem?_getD, h1 (le_refl n)]
        rw [hslot]
        have hal : aggregate_line dpc cpus st n pa k' = aggregate_resolve dpc cpus st n pa k' := by
          simp [aggregate_line, hu, hrd]
        rw [hal]
        obtain ⟨rd, x, hc, hx⟩ := aggregate_resolve_calls dpc cpus st n pa k'
        exact ⟨t, [], rd, x, by rw [hc, ht]; simp, hx⟩
      · obtain ⟨pre, post, rd, x, hc, hx⟩ := h3 (by omega)
        exact ⟨pre, post ++ t2, rd, x, by rw [ht2, hc]; simp, hx⟩

/-- The aggregate row loop at a used row whose record has a handle for its id: the record keeps its handle, and the only call of the loop for this row is the append of the total. -/
theorem aggregate_loop_reuse (dpc cpus : Int) (st lines i p : Nat) (pa : interrupt)
    (irrs : List interrupt) (k : Sink) (hall : ∀ irr ∈ irrs, NameOk irr ∧ HandleOk k irr)
    (hi : irrs[i]? = some pa) (hil : i < lines) (hu : pa.used ≠ 0) (hrd : pa.rd = some p)
    (hid : (k.dim_id p).take MAX_INTERRUPT_NAME = pa.id.take MAX_INTERRUPT_NAME) :
    (for_lines (aggregate_line dpc cpus st) (List.range lines) irrs k).1[i]? = some pa ∧
    ∃ t, (for_lines (aggregate_line dpc cpus st) (List.range lines) irrs k).2.calls =
        k.calls ++ t ∧
      (Site.aggregate i, SinkCall.rrddim_set_by_pointer st p pa.total) ∈ t ∧
      ∀ e ∈ t, e.1 = Site.aggregate i → e.2 = SinkCall.rrddim_set_by_pointer st p pa.total := by
  have hpm : pa ∈ irrs := List.mem_iff_getElem?.mpr ⟨i, hi⟩
  have hpv : p < k.dims.length := ((hall pa hpm).2 p hrd).1
  have key := for_lines_range_inv
    (fun n irrs' k' => (∀ irr ∈ irrs', NameOk irr ∧ HandleOk k' irr) ∧ Grow k k' ∧
      irrs'[i]? = some pa ∧
      ∃ t, k'.calls = k.calls ++ t ∧
        (∀ e ∈ t, e.1 = Site.aggregate i →
          e.2 = SinkCall.rrddim_set_by_pointer st p pa.total) ∧
        (i < n → (Site.aggregate i, SinkCall.rrddim_set_by_pointer st p pa.total) ∈ t))
    (aggregate_line dpc cpus st) ?_ lines irrs k
    ⟨hall, Grow.grow_refl k, hi, [], by simp, by simp, fun h => by omega⟩
  · obtain ⟨_, _, h3, t, h4, h5, h6⟩ := key
    exact ⟨h3, t, h4, h6 hil, h5⟩
  · intro n irrs' k' ⟨hall', hg, hi', t, ht, hP, hmem⟩
    have hslot : NameOk (irrs'.getD n default) ∧ HandleOk k' (irrs'.getD n default) := by
      rcases getD_mem_or_default irrs' n with hm | hd
      · exact hall' _ hm
      · rw [hd]; exact ⟨NameOk.name_default, HandleOk.handle_default k'⟩
    obtain ⟨s1, s2, _, s4, _⟩ :=
      aggregate_line_spec dpc cpus st n (irrs'.getD n default) k' hslot.1 hslot.2
    have hall'' : ∀ irr ∈ irrs'.set n (aggregate_line dpc cpus st n (irrs'.getD n default) k').1,
        NameOk irr ∧
          HandleOk (aggregate_line dpc cpus st n (irrs'.getD n default) k').2 irr := by
      intro irr hirr
      rcases List.mem_or_eq_of_mem_set hirr with hm | he
      · exact ⟨(hall' irr hm).1, (hall' irr hm).2.handle_grow s1⟩
      · rw [he]; exact ⟨NameOk.of_data s4 hslot.1, s2⟩
    refine ⟨hall'', hg.grow_trans s1, ?_⟩
    by_cases hni : n = i
    · subst hni
      have hslot' : irrs'.getD n default = pa := by
        simp [List.getD_eq_getElem?_getD, hi']
      have hpm' : pa ∈ irrs' := List.mem_iff_getElem?.mpr ⟨n, hi'⟩
      have hcons : Cons k' p := ((hall' pa hpm').2 p hrd).2
      have hname : pa.name.take MAX_INTERRUPT_NAME = pa.id.take MAX_INTERRUPT_NAME := by
        rw [(hall' pa hpm').1 hu, List.take_take]; simp
      have hcmp : strncmp pa.name (k'.dim_name p) MAX_INTERRUPT_NAME = 0 := by
        unfold Cons at hcons
        simp only [strncmp]
        rw [if_pos]
        rw [hname, hcons, hg.id_eq p hpv, hid]
      have hal : aggregate_line dpc cpus st n pa k' =
          (pa, rrddim_set_by_pointer (Site.aggregate n) k' st p pa.total) := by
        simp [aggregate_line, hu, hrd, hcmp]
      rw [hslot', hal]
      have hlt : n < irrs'.length := (List.getElem?_eq_some_iff.mp hi').1
      refine ⟨by simp [List.getElem?_set_self hlt],
        t ++ [(Site.aggregate n, SinkCall.rrddim_set_by_pointer st p pa.total)], ?_, ?_, ?_⟩
      · simp [rrddim_set_by_pointer, ht]
      · intro e he hs
        rcases List.mem_append.mp he with h | h
        · exact hP e h hs
        · simp only [List.mem_singleton] at h
          rw [h]
      · intro _
        simp
    · obtain ⟨t2, ht2, hs2⟩ := aggregate_line_calls_grow dpc cpus st n (irrs'.getD n default) k'
      refine ⟨by rw [List.getElem?_set_ne hni]; exact hi', t ++ t2,
        by rw [ht2, ht, List.append_assoc], ?_, ?_⟩
      · intro e he hs
        rcases List.mem_append.mp he with h | h
        · exact hP e h hs
        · have := hs2 e h
          rw [this] at hs
          simp only [Site.aggregate.injEq] at hs
          exact absurd hs hni
      · intro hlt
        exact List.mem_append_left _ (hmem (by omega))

/-! ## The calls of a whole cycle -/

/-- The calls of a cycle, around those of its aggregate row loop: before them the lookup of the chart and its creation or advance, after them calls that are not made from the aggregate loop; the per-core passes keep the aggregate handles and what the parsing decided. -/
theorem collect_calls (u : Int) (raw : Nat → interrupt) (f : List (List CStr)) (s : State)
    (k : Sink) (hlen : s.irrs.length = s.allocated)
    (hcols : ∀ irr ∈ s.irrs, irr.cpu.length = s.cpus.toNat)
    (hh : ∀ irr ∈ s.irrs, HandleOk k irr) :
    ∃ x0 tpost,
      (aggregate_chart u k).2.calls = k.calls ++
        [(Site.chart, SinkCall.rrdset_find_bytype "system".toList "softirqs".toList),
         (Site.chart, x0)] ∧
      (collect u raw f s k).sink.calls =
        (for_lines (aggregate_line (parse_table raw f s).do_per_core (parse_table raw f s).cpus
          (aggregate_chart u k).1) (List.range f.length) (parse_table raw f s).irrs
          (aggregate_chart u k).2).2.calls ++ tpost ∧
      (∀ e ∈ tpost, not_aggregate e) ∧
      (collect u raw f s k).st.irrs.map interrupt.kept =
        (for_lines (aggregate_line (parse_table raw f s).do_per_core (parse_table raw f s).cpus
          (aggregate_chart u k).1) (List.range f.length) (parse_table raw f s).irrs
          (aggregate_chart u k).2).1.map interrupt.kept := by
  obtain ⟨_, _, _, p4⟩ := parse_table_spec raw f s k hlen hcols hh
  obtain ⟨_, a2, _, _⟩ := emit_aggregate_spec u (parse_table raw f s) f.length k p4
  obtain ⟨_, e2, t, e3, e4⟩ := emit_percore_spec u (parse_table raw f s) f.length
    (emit_aggregate u (parse_table raw f s) f.length k) (fun irr hi => (a2 irr hi).1)
  obtain ⟨x0, hx0⟩ := aggregate_chart_calls u k
  refine ⟨x0, (Site.chart, SinkCall.rrdset_done (aggregate_chart u k).1) :: t, hx0, ?_, ?_, ?_⟩
  · simp only [collect]
    rw [e3]
    simp [emit_aggregate, rrdset_done]
  · intro e he
    rcases List.mem_cons.mp he with h | h
    · intro l; rw [h]; simp
    · exact e4 e h
  · simp only [collect]
    rw [e2]
    rfl

theorem count_cpus_eq_countP (header : List CStr) :
    count_cpus header = (header.countP (fun w => w.take 3 = "CPU".toList) : Nat) := by
  unfold count_cpus
  have : ∀ (ws : List CStr) (n : Int),
      ws.foldl (fun cpus w => if strncmp w "CPU".toList 3 = 0 then cpus + 1 else cpus) n =
        n + (ws.countP (fun w => w.take 3 = "CPU".toList) : Nat) := by
    intro ws
    induction ws with
    | nil => intro n; simp
    | cons w ws ih =>
      intro n
      rw [List.foldl_cons, ih, List.countP_cons]
      have h3 : ("CPU".toList).take 3 = "CPU".toList := by decide
      by_cases hw : w.take 3 = "CPU".toList
      · have : strncmp w "CPU".toList 3 = 0 := by unfold strncmp; rw [h3, if_pos hw]
        simp only [this, if_true, hw, decide_True]
        push_cast
        ring
      · have : ¬ strncmp w "CPU".toList 3 = 0 := by unfold strncmp; rw [h3, if_neg hw]; decide
        simp only [this, if_false, hw, decide_False]
        simp
  rw [this header 0]
  simp

/-- Once the column count is zero it stays zero: a call makes no sink call, leaves the records as they were, and returns 1 whenever it reads a table. -/
theorem zero_columns_stick (u : Int) (env : Env) (s : State) (k : Sink) (hc : s.cpus = 0) :
    (do_proc_softirqs u env s k).sink = k ∧
    (do_proc_softirqs u env s k).st.cpus = 0 ∧
    (do_proc_softirqs u env s k).st.irrs = s.irrs ∧
    ∀ f, env.file = some f → (do_proc_softirqs u env s k).ret = 1 := by
  have hns : ¬ ∃ f, Successful env s f := by
    rintro ⟨f, _, _, _, h4⟩
    apply h4
    simp [columns, hc]
  obtain ⟨f1, f2, _, f4⟩ := do_proc_softirqs_fault u env s k hns
  refine ⟨f1, ?_, f2, ?_⟩
  · rcases f4 with h | ⟨h, _⟩
    · rw [h, hc]
    · rw [hc] at h; cases h
  · intro f hf
    unfold do_proc_softirqs
    simp only [hf]
    split_ifs <;> simp_all

/-! ## The calls of a row loop say what the record of the row holds -/

theorem value_of_data {a b : interrupt} (h : a.data = b.data) (c : Nat) :
    (a.cpu.getD c default).value = (b.cpu.getD c default).value := by
  unfold interrupt.data at h
  simp only [Prod.mk.injEq] at h
  have h5 := congrArg (fun x => x[c]?) h.2.2.2.2
  simp only [List.getElem?_map] at h5
  simp only [List.getD_eq_getElem?_getD]
  cases ha : a.cpu[c]? <;> cases hb : b.cpu[c]? <;> simp_all

theorem row_call_of_data {a b : interrupt} (h : a.data = b.data) (e : Site × SinkCall)
    (ha : row_call a e) : row_call b e := by
  have hv := value_of_data h
  unfold interrupt.data at h
  simp only [Prod.mk.injEq] at h
  obtain ⟨_, h2, h3, h4, _⟩ := h
  obtain ⟨site, call⟩ := e
  cases site <;> cases call <;>
    simp_all [row_call, call_for]

theorem used_of_data {a b : interrupt} (h : a.data = b.data) : a.used = b.used := by
  unfold interrupt.data at h
  simp only [Prod.mk.injEq] at h
  exact h.1

theorem rowP_of_data {D E : Nat → interrupt} (h : ∀ l, (D l).data = (E l).data)
    (e : Site × SinkCall) (hD : RowP D e) : RowP E e := by
  intro l hl
  obtain ⟨h1, h2⟩ := hD l hl
  exact ⟨by rw [← used_of_data (h l)]; exact h1, row_call_of_data (h l) e h2⟩

theorem rowP_chart (D : Nat → interrupt) (c : SinkCall) : RowP D (Site.chart, c) := by
  intro l hl
  simp [Site.row] at hl

theorem aggregate_line_rowcalls (dpc cpus : Int) (st l : Nat) (irr : interrupt) (k : Sink) :
    Ext (fun e => e.1 = Site.aggregate l ∧ irr.used ≠ 0 ∧ row_call irr e) k
      (aggregate_line dpc cpus st l irr k).2 := by
  by_cases hu : irr.used = 0
  · have : aggregate_line dpc cpus st l irr k = (irr, k) := by simp [aggregate_line, hu]
    rw [this]
    exact Ext.ext_refl _ _
  · have hres : Ext (fun e => e.1 = Site.aggregate l ∧ irr.used ≠ 0 ∧ row_call irr e) k
        (aggregate_resolve dpc cpus st l irr k).2 := by
      obtain ⟨rd, x, hc, hx⟩ := aggregate_resolve_calls dpc cpus st l irr k
      refine ⟨_, hc, ?_⟩
      intro e he
      simp only [List.mem_cons, List.mem_singleton, List.not_mem_nil, or_false] at he
      rcases he with he | he | he
      · rw [he]; exact ⟨rfl, hu, by simp [row_call, call_for]⟩
      · rw [he]
        rcases hx with hx | hx <;> rw [hx] <;> exact ⟨rfl, hu, by simp [row_call, call_for]⟩
      · rw [he]; exact ⟨rfl, hu, by simp [row_call, call_for]⟩
    cases hrd : irr.rd with
    | none =>
      have : aggregate_line dpc cpus st l irr k = aggregate_resolve dpc cpus st l irr k := by
        simp [aggregate_line, hu, hrd]
      rw [this]; exact hres
    | some rd =>
      by_cases hs : strncmp irr.name (k.dim_name rd) MAX_INTERRUPT_NAME ≠ 0
      · have : aggregate_line dpc cpus st l irr k = aggregate_resolve dpc cpus st l irr k := by
          simp only [aggregate_line, hu, hrd, if_false]; rw [if_pos hs]
        rw [this]; exact hres
      · have : aggregate_line dpc cpus st l irr k =
            (irr, rrddim_set_by_pointer (Site.aggregate l) k st rd irr.total) := by
          simp only [aggregate_line, hu, hrd, if_false]; rw [if_neg hs]
        rw [this]
        refine ⟨[(Site.aggregate l, SinkCall.rrddim_set_by_pointer st rd irr.total)], rfl, ?_⟩
        intro e he
        simp only [List.mem_singleton] at he
        rw [he]; exact ⟨rfl, hu, by simp [row_call, call_for]⟩

/-- The calls of one round of the per-core row loop, by the state of the per-core handle of the record. -/
theorem percore_line_calls (c st l : Nat) (irr : interrupt) (k : Sink) :
    (irr.used = 0 → percore_line c st l irr k = (irr, k)) ∧
    (irr.used ≠ 0 → (irr.cpu.getD c default).rd = none →
      ∃ rd x, (percore_line c st l irr k).2.calls = k.calls ++
          [(Site.percore c l, SinkCall.rrddim_find st irr.id), (Site.percore c l, x),
           (Site.percore c l, SinkCall.rrddim_set_by_pointer st rd
              (irr.cpu.getD c default).value)] ∧
        (x = SinkCall.rrddim_add st irr.id irr.name ∨
          x = SinkCall.rrddim_set_name st rd irr.name)) ∧
    (∀ q, irr.used ≠ 0 → (irr.cpu.getD c default).rd = some q →
      percore_line c st l irr k =
        (irr, rrddim_set_by_pointer (Site.percore c l) k st q (irr.cpu.getD c default).value)) := by
  refine ⟨?_, ?_, ?_⟩
  · intro hu; simp [percore_line, hu]
  · intro hu hrd
    have : percore_line c st l irr k = percore_resolve c st l irr k := by
      simp only [percore_line, hu, if_false, hrd]
    rw [this]
    obtain ⟨x, hx, hor⟩ := find_or_create_calls (Site.percore c l) k st irr.id irr.name
    refine ⟨(find_or_create (Site.percore c l) k st irr.id irr.name).1, x, ?_, hor⟩
    simp [percore_resolve, rrddim_set_by_pointer, hx]
  · intro q hu hrd
    simp only [percore_line, hu, if_false, hrd]

theorem percore_line_rowcalls (c st l : Nat) (irr : interrupt) (k : Sink) :
    Ext (fun e => e.1 = Site.percore c l ∧ irr.used ≠ 0 ∧ row_call irr e) k
      (percore_line c st l irr k).2 := by
  obtain ⟨h1, h2, h3⟩ := percore_line_calls c st l irr k
  by_cases hu : irr.used = 0
  · rw [h1 hu]; exact Ext.ext_refl _ _
  · cases hrd : (irr.cpu.getD c default).rd with
    | none =>
      obtain ⟨rd, x, hc, hx⟩ := h2 hu hrd
      refine ⟨_, hc, ?_⟩
      intro e he
      simp only [List.mem_cons, List.mem_singleton, List.not_mem_nil, or_false] at he
      rcases he with he | he | he
      · rw [he]; exact ⟨rfl, hu, by simp [row_call, call_for]⟩
      · rw [he]
        rcases hx with hx | hx <;> rw [hx] <;> exact ⟨rfl, hu, by simp [row_call, call_for]⟩
      · rw [he]; exact ⟨rfl, hu, by simp [row_call, call_for]⟩
    | some q =>
      rw [h3 q hu hrd]
      refine ⟨[(Site.percore c l, SinkCall.rrddim_set_by_pointer st q
        (irr.cpu.getD c default).value)], rfl, ?_⟩
      intro e he
      simp only [List.mem_singleton] at he
      rw [he]; exact ⟨rfl, hu, by simp [row_call, call_for]⟩

theorem getD_set_data (irrs : List interrupt) (l j : Nat) (x : interrupt)
    (h : x.data = (irrs.getD l default).data) :
    ((irrs.set l x).getD j default).data = (irrs.getD j default).data := by
  simp only [List.getD_eq_getElem?_getD, List.getElem?_set] at h ⊢
  by_cases hj : l = j
  · subst hj
    by_cases hl : l < irrs.length
    · simp only [if_true, hl, Option.getD_some, h]
    · have : irrs[l]? = none := List.getElem?_eq_none (by omega)
      simp [hl, this]
  · simp [hj]

/-- A row loop whose rounds keep what the parsing decided and make row calls for their record makes row calls for the records `D` it starts from. -/
theorem for_lines_rowP (body : Nat → interrupt → Sink → interrupt × Sink)
    (hkeep : ∀ l irr k, (body l irr k).1.data = irr.data)
    (hcalls : ∀ l irr k,
      Ext (fun e => e.1.row = some l ∧ irr.used ≠ 0 ∧ row_call irr e) k (body l irr k).2)
    (D : Nat → interrupt) (ls : List Nat) (irrs : List interrupt) (k : Sink)
    (h : ∀ l, (irrs.getD l default).data = (D l).data) :
    Ext (RowP D) k (for_lines body ls irrs k).2 ∧
    ∀ l, ((for_lines body ls irrs k).1.getD l default).data = (D l).data := by
  have key := for_lines_inv
    (fun irrs' k' => Ext (RowP D) k k' ∧ ∀ l, (irrs'.getD l default).data = (D l).data)
    body ls ?_ irrs k ⟨Ext.ext_refl _ _, h⟩
  · exact key
  · intro l _ irrs' k' ⟨h1, h2⟩
    refine ⟨h1.ext_trans ((hcalls l (irrs'.getD l default) k').mono ?_), ?_⟩
    · intro e ⟨e1, e2, e3⟩ l' hl'
      rw [e1] at hl'
      cases hl'
      exact ⟨by rw [← used_of_data (h2 l)]; exact e2, row_call_of_data (h2 l) e e3⟩
    · intro j
      rw [getD_set_data irrs' l j _ (hkeep l _ k')]
      exact h2 j

/-- The pass of one column, for any property `P` of calls that chart calls have and any property `J` of the records that the row loop of the column keeps. -/
theorem percore_cpu_ext (P : Site × SinkCall → Prop) (J : List interrupt → Prop) (u : Int)
    (lines c : Nat) (hchart : ∀ call, P (Site.chart, call))
    (hloop : ∀ st irrs k, J irrs →
      Ext P k (for_lines (percore_line c st) (List.range lines) irrs k).2 ∧
      J (for_lines (percore_line c st) (List.range lines) irrs k).1)
    (x : List interrupt × Sink) (hJ : J x.1) :
    Ext P x.2 (percore_cpu u lines x c).2 ∧ J (percore_cpu u lines x c).1 := by
  have hone : ∀ (k k' : Sink) (call : SinkCall), k'.calls = k.calls ++ [(Site.chart, call)] →
      Ext P k k' := by
    intro k k' call h
    exact ⟨_, h, by intro e he; simp only [List.mem_singleton] at he; rw [he]; exact hchart call⟩
  have hemit : ∀ st k, Ext P k (percore_emit lines c st (x.1, k)).2 ∧
      J (percore_emit lines c st (x.1, k)).1 := by
    intro st k
    obtain ⟨h1, h2⟩ := hloop st x.1 k hJ
    exact ⟨h1.ext_trans (hone _ _ (SinkCall.rrdset_done st) rfl), h2⟩
  have hf := hone x.2 (rrdset_find_bytype x.2 "cpu".toList (cpu_chart_id c)).2 _ rfl
  cases hfi : (rrdset_find_bytype x.2 "cpu".toList (cpu_chart_id c)).1 with
  | none =>
    by_cases hz : core_sum x.1 lines c = 0
    · have : percore_cpu u lines x c =
          (x.1, (rrdset_find_bytype x.2 "cpu".toList (cpu_chart_id c)).2) := by
        simp only [percore_cpu, hfi, hz, if_true]
      rw [this]
      exact ⟨hf, hJ⟩
    · have : percore_cpu u lines x c = percore_emit lines c
          (rrdset_create (rrdset_find_bytype x.2 "cpu".toList (cpu_chart_id c)).2 "cpu".toList
            (cpu_chart_id c) (cpu_chart_title c) (3000 + c) u).1
          (x.1, (rrdset_create (rrdset_find_bytype x.2 "cpu".toList (cpu_chart_id c)).2
            "cpu".toList (cpu_chart_id c) (cpu_chart_title c) (3000 + c) u).2) := by
        simp only [percore_cpu, hfi, hz, if_false]
      rw [this]
      obtain ⟨h1, h2⟩ := hemit
        (rrdset_create (rrdset_find_bytype x.2 "cpu".toList (cpu_chart_id c)).2 "cpu".toList
            (cpu_chart_id c) (cpu_chart_title c) (3000 + c) u).1
        (rrdset_create (rrdset_find_bytype x.2 "cpu".toList (cpu_chart_id c)).2
            "cpu".toList (cpu_chart_id c) (cpu_chart_title c) (3000 + c) u).2
      exact ⟨(hf.ext_trans (hone _ _ _ rfl)).ext_trans h1, h2⟩
  | some st =>
    have : percore_cpu u lines x c = percore_emit lines c st
        (x.1, rrdset_next (rrdset_find_bytype x.2 "cpu".toList (cpu_chart_id c)).2 st) := by
      simp only [percore_cpu, hfi]
    rw [this]
    obtain ⟨h1, h2⟩ := hemit st
      (rrdset_next (rrdset_find_bytype x.2 "cpu".toList (cpu_chart_id c)).2 st)
    exact ⟨(hf.ext_trans (hone _ _ (SinkCall.rrdset_next st) rfl)).ext_trans h1, h2⟩

theorem percore_fold_ext (P : Site × SinkCall → Prop) (J : List interrupt → Prop) (u : Int)
    (lines : Nat) (hchart : ∀ call, P (Site.chart, call)) :
    ∀ (cs : List Nat),
      (∀ c ∈ cs, ∀ st irrs k, J irrs →
        Ext P k (for_lines (percore_line c st) (List.range lines) irrs k).2 ∧
        J (for_lines (percore_line c st) (List.range lines) irrs k).1) →
      ∀ (x : List interrupt × Sink), J x.1 →
        Ext P x.2 (cs.foldl (percore_cpu u lines) x).2 ∧
        J (cs.foldl (percore_cpu u lines) x).1 := by
  intro cs
  induction cs with
  | nil => intro _ x hJ; exact ⟨Ext.ext_refl _ _, hJ⟩
  | cons c cs ih =>
    intro hloop x hJ
    obtain ⟨h1, h2⟩ := percore_cpu_ext P J u lines c hchart
      (hloop c (List.mem_cons_self _ _)) x hJ
    obtain ⟨g1, g2⟩ := ih (fun c' hc' => hloop c' (List.mem_cons_of_mem _ hc'))
      (percore_cpu u lines x c) h2
    rw [List.foldl_cons]
    exact ⟨h1.ext_trans g1, g2⟩

/-- A whole cycle, for any property `P` of calls that chart calls have and any property `J` of the records that the aggregate row loop sets up from the parsed records and the per-core row loops keep. -/
theorem collect_ext (P : Site × SinkCall → Prop) (J : List interrupt → Prop) (u : Int)
    (raw : Nat → interrupt) (f : List (List CStr)) (s : State) (k : Sink)
    (hchart : ∀ call, P (Site.chart, call))
    (hagg : ∀ st k',
      Ext P k' (for_lines (aggregate_line (parse_table raw f s).do_per_core
        (parse_table raw f s).cpus st) (List.range f.length) (parse_table raw f s).irrs k').2 ∧
      J (for_lines (aggregate_line (parse_table raw f s).do_per_core
        (parse_table raw f s).cpus st) (List.range f.length) (parse_table raw f s).irrs k').1)
    (hloop : ∀ c, c < (parse_table raw f s).cpus.toNat → ∀ st irrs k', J irrs →
      Ext P k' (for_lines (percore_line c st) (List.range f.length) irrs k').2 ∧
      J (for_lines (percore_line c st) (List.range f.length) irrs k').1) :
    Ext P k (collect u raw f s k).sink ∧ J (collect u raw f s k).st.irrs := by
  have hone : ∀ (k k' : Sink) (call : SinkCall), k'.calls = k.calls ++ [(Site.chart, call)] →
      Ext P k k' := by
    intro k k' call h
    exact ⟨_, h, by intro e he; simp only [List.mem_singleton] at he; rw [he]; exact hchart call⟩
  have hch : Ext P k (aggregate_chart u k).2 := by
    obtain ⟨x0, hx0⟩ := aggregate_chart_calls u k
    refine ⟨_, hx0, ?_⟩
    intro e he
    simp only [List.mem_cons, List.mem_singleton, List.not_mem_nil, or_false] at he
    rcases he with he | he <;> rw [he] <;> exact hchart _
  obtain ⟨a1, a2⟩ := hagg (aggregate_chart u k).1 (aggregate_chart u k).2
  have hagg' : Ext P k (emit_aggregate u (parse_table raw f s) f.length k).2 ∧
      J (emit_aggregate u (parse_table raw f s) f.length k).1 := by
    unfold emit_aggregate
    exact ⟨(hch.ext_trans a1).ext_trans (hone _ _ (SinkCall.rrdset_done _) rfl), a2⟩
  have hpc : Ext P (emit_aggregate u (parse_table raw f s) f.length k).2
      (emit_percore u (parse_table raw f s) f.length
        (emit_aggregate u (parse_table raw f s) f.length k)).2 ∧
      J (emit_percore u (parse_table raw f s) f.length
        (emit_aggregate u (parse_table raw f s) f.length k)).1 := by
    unfold emit_percore
    split_ifs
    · exact percore_fold_ext P J u f.length hchart _
        (fun c hc => hloop c (List.mem_range.mp hc)) _ hagg'.2
    · exact ⟨Ext.ext_refl _ _, hagg'.2⟩
  simp only [collect]
  exact ⟨hagg'.1.ext_trans hpc.1, hpc.2⟩

/-- Every call a call of `do_proc_softirqs` records for a row is made for the record of that row, which is used, and carries its id, its name, its total or its value. -/
theorem call_row_calls (u : Int) (env : Env) (s : State) (k : Sink) :
    Ext (RowP (fun l => (do_proc_softirqs u env s k).st.irrs.getD l default)) k
      (do_proc_softirqs u env s k).sink := by
  by_cases hs : ∃ f, Successful env s f
  · obtain ⟨f, hf⟩ := hs
    rw [do_proc_softirqs_successful u env s k f hf]
    have key := collect_ext
      (RowP (fun l => (parse_table env.raw f (entered env s f)).irrs.getD l default))
      (fun irrs => ∀ l, (irrs.getD l default).data =
        ((parse_table env.raw f (entered env s f)).irrs.getD l default).data)
      u env.raw f (entered env s f) k (fun call => rowP_chart _ call)
      (fun st k' => for_lines_rowP _
        (fun l irr k'' => (aggregate_line_keep _ _ _ l irr k'').1)
        (fun l irr k'' => (aggregate_line_rowcalls _ _ _ l irr k'').mono
          (fun e he => ⟨by rw [he.1]; rfl, he.2⟩))
        _ _ _ _ (fun _ => rfl))
      (fun c _ st irrs k' hJ => for_lines_rowP _
        (fun l irr k'' => (percore_line_keep c st l irr k'').2.1)
        (fun l irr k'' => (percore_line_rowcalls c st l irr k'').mono
          (fun e he => ⟨by rw [he.1]; rfl, he.2⟩))
        _ _ _ _ hJ)
    exact key.1.mono (fun e he => rowP_of_data (fun l => (key.2 l).symm) e he)
  · rw [(do_proc_softirqs_fault u env s k hs).1]
    exact Ext.ext_refl _ _

theorem cycle_used_iff (u : Int) (env : Env) (s : State) (k : Sink) (f : List (List CStr))
    (hinv : Inv s k) (hs : Successful env s f) (l : Nat) (irr : interrupt)
    (hi : (do_proc_softirqs u env s k).st.irrs[l]? = some irr) :
    irr.used ≠ 0 ↔ (1 ≤ l ∧ ∃ t rest, f.getD l [] = t :: rest ∧ t ≠ []) := by
  obtain ⟨hl, b, hb1, hb2⟩ := cycle_slot u env s k f hinv hs l irr hi
  have hu := used_of_data hb2
  constructor
  · intro h
    obtain ⟨h1, t, rest, h2, h3, _⟩ :=
      parse_slot_used (columns s f) f l b hl (by rw [← hu]; exact h)
    exact ⟨h1, t, rest, h2, h3⟩
  · rintro ⟨h1, t, rest, h2, h3⟩
    have h0 : l ≠ 0 := by omega
    rw [hu]
    simp only [parse_slot, h0, hl, if_false, if_true, h2]
    rw [(parse_line_used (columns s f) t rest b h3 hb1).1]
    decide


theorem core_sum_skips_unused_header (irrs : List interrupt) (lines c : Nat)
    (h : (irrs.getD 0 default).used = 0) :
    core_sum irrs lines c =
      (List.range' 1 (lines - 1)).foldl
        (fun sum l =>
          if (irrs.getD l default).used = 0 then sum
          else (sum + ((irrs.getD l default).cpu.getD c default).value) % U64)
        0 := by
  unfold core_sum
  cases lines with
  | zero => rfl
  | succ n =>
    rw [List.range_eq_range', List.range'_succ, List.foldl_cons]
    simp only [h, if_true, Nat.zero_add, Nat.add_sub_cancel]


/-! ## Records that are not used -/

theorem getD_of_getElem? {irrs : List interrupt} {l : Nat} {x : interrupt}
    (h : irrs[l]? = some x) : irrs.getD l default = x := by
  simp [List.getD_eq_getElem?_getD, h]

/-- A row loop whose rounds leave an unused record as it is leaves the unused record of row `l` as it is. -/
theorem for_lines_keeps_unused (body : Nat → interrupt → Sink → interrupt × Sink)
    (hskip : ∀ n irr k, irr.used = 0 → (body n irr k).1 = irr) (l : Nat) (x : interrupt)
    (hx : x.used = 0) (ls : List Nat) (irrs : List interrupt) (k : Sink)
    (h : irrs[l]? = some x) : (for_lines body ls irrs k).1[l]? = some x := by
  apply for_lines_inv (fun irrs' _ => irrs'[l]? = some x) body ls ?_ irrs k h
  intro n _ irrs' k' h'
  by_cases hn : n = l
  · subst hn
    have hslot : irrs'.getD n default = x := by simp [List.getD_eq_getElem?_getD, h']
    rw [hslot, hskip n x k' hx]
    have hlt : n < irrs'.length := (List.getElem?_eq_some_iff.mp h').1
    simp [List.getElem?_set_self hlt]
  · rw [List.getElem?_set_ne hn]; exact h'

theorem aggregate_line_unused (dpc cpus : Int) (st l : Nat) (irr : interrupt) (k : Sink)
    (h : irr.used = 0) : aggregate_line dpc cpus st l irr k = (irr, k) := by
  simp [aggregate_line, h]

theorem percore_line_unused (c st l : Nat) (irr : interrupt) (k : Sink) (h : irr.used = 0) :
    percore_line c st l irr k = (irr, k) := by
  simp [percore_line, h]

/-- The emission passes of a cycle leave a record that the parsing left unused as it is. -/
theorem collect_keeps_unused (u : Int) (raw : Nat → interrupt) (f : List (List CStr))
    (s : State) (k : Sink) (l : Nat) (x : interrupt) (hx : x.used = 0)
    (h : (parse_table raw f s).irrs[l]? = some x) :
    (collect u raw f s k).st.irrs[l]? = some x := by
  have key := collect_ext (fun _ => True) (fun irrs => irrs[l]? = some x) u raw f s k
    (fun _ => trivial)
    (fun st k' => ⟨for_lines_ext _ _
        (fun n irr k'' => (aggregate_line_ext _ _ _ n irr k'').mono (fun _ _ => trivial)) _ _ _,
      for_lines_keeps_unused _
        (fun n irr k'' hu => by rw [aggregate_line_unused _ _ _ n irr k'' hu]) l x hx _ _ _ h⟩)
    (fun c _ st irrs k' hJ => ⟨for_lines_ext _ _
        (fun n irr k'' => (percore_line_ext c st n irr k'').mono (fun _ _ => trivial)) _ _ _,
      for_lines_keeps_unused _
        (fun n irr k'' hu => by rw [percore_line_unused c st n irr k'' hu]) l x hx _ _ _ hJ⟩)
  exact key.2

/-- The parsing of a line without words or with an empty first word marks the record unused and leaves its handles, its name and its values as they were. -/
theorem parse_line_unused_keeps (cpus : Int) (ws : List CStr) (irr : interrupt)
    (h : ws = [] ∨ ws.head? = some []) :
    (parse_line cpus ws irr).used = 0 ∧ (parse_line cpus ws irr).rd = irr.rd ∧
    (parse_line cpus ws irr).name = irr.name ∧ (parse_line cpus ws irr).cpu = irr.cpu := by
  rcases h with h | h
  · subst h; simp [parse_line]
  · cases ws with
    | nil => simp at h
    | cons t rest =>
      simp only [List.head?_cons, Option.some.injEq] at h
      subst h
      simp [parse_line]

/-- The calls a cycle records in a per-core loop are for the columns below the column count. -/
theorem collect_percore_columns (u : Int) (raw : Nat → interrupt) (f : List (List CStr))
    (s : State) (k : Sink) :
    Ext (fun e => ∀ c l, e.1 = Site.percore c l → c < s.cpus.toNat) k
      (collect u raw f s k).sink := by
  have hc := (parse_table_statics raw f s).1
  have key := collect_ext (fun e => ∀ c l, e.1 = Site.percore c l → c < s.cpus.toNat)
    (fun _ => True) u raw f s k
    (fun call c l h => by cases h)
    (fun st k' => ⟨for_lines_ext _ _
        (fun n irr k'' => (aggregate_line_ext _ _ _ n irr k'').mono
          (fun e he c l h => by rw [he] at h; cases h)) _ _ _, trivial⟩)
    (fun c hc' st irrs k' _ => ⟨for_lines_ext _ _
        (fun n irr k'' => (percore_line_ext c st n irr k'').mono
          (fun e he c' l h => by
            rw [he] at h
            simp only [Site.percore.injEq] at h
            rw [← h.1, ← hc]; exact hc')) _ _ _, trivial⟩)
  exact key.1

/-- The values and the total of a used record after a successful cycle: the values of the words of its line, one for each column, and their sum modulo `2^64`. -/
theorem cycle_values (u : Int) (env : Env) (s : State) (k : Sink) (f : List (List CStr))
    (hinv : Inv s k) (hs : Successful env s f) (l : Nat) (irr : interrupt)
    (hi : (do_proc_softirqs u env s k).st.irrs[l]? = some irr) (hu : irr.used ≠ 0) :
    irr.cpu.map (fun x => x.value) =
      (List.range (columns s f).toNat).map (column_value (f.getD l [])) ∧
    irr.total = (irr.cpu.map (fun x => x.value)).sum % 2 ^ 64 := by
  obtain ⟨hl, b, hb1, hb2⟩ := cycle_slot u env s k f hinv hs l irr hi
  unfold interrupt.data at hb2
  simp only [Prod.mk.injEq] at hb2
  obtain ⟨d1, _, _, d4, d5⟩ := hb2
  obtain ⟨_, t, rest, hws, ht, hp⟩ :=
    parse_slot_used (columns s f) f l b hl (by rw [← d1]; exact hu)
  obtain ⟨_, _, _, q4, q5⟩ := parse_line_used (columns s f) t rest b ht hb1
  rw [hp] at d4 d5
  exact ⟨by rw [d5, q4, hws], by rw [d4, q5, d5, q4, U64_eq]⟩

/-! ## The calls of one program point -/

theorem filter_site_of_all {σ : Site} {t : List (Site × SinkCall)} (h : ∀ e ∈ t, e.1 = σ) :
    t.filter (fun e => e.1 = σ) = t := by
  rw [List.filter_eq_self]
  intro e he
  simpa using h e he

theorem filter_site_of_none {σ : Site} {t : List (Site × SinkCall)} (h : ∀ e ∈ t, e.1 ≠ σ) :
    t.filter (fun e => e.1 = σ) = [] := by
  rw [List.filter_eq_nil_iff]
  intro e he
  simpa using h e he

/-- A row loop over the rows below `n` whose rounds tag their calls with the program point `site l` of their row: the calls recorded for the row `l0` are those of the round of `l0`, made on the record the loop started with, and the record it leaves is the one of that round. -/
theorem for_lines_at (site : Nat → Site) (hinj : ∀ a b, site a = site b → a = b)
    (body : Nat → interrupt → Sink → interrupt × Sink)
    (hext : ∀ l irr k, Ext (fun e => e.1 = site l) k (body l irr k).2)
    (n l0 : Nat) (hl0 : l0 < n) (irrs : List interrupt) (k : Sink) (x : interrupt)
    (hx : irrs[l0]? = some x) :
    ∃ km T, (for_lines body (List.range n) irrs k).2.calls = k.calls ++ T ∧
      (body l0 x km).2.calls = km.calls ++ T.filter (fun e => e.1 = site l0) ∧
      (for_lines body (List.range n) irrs k).1[l0]? = some (body l0 x km).1 := by
  have key := for_lines_range_inv
    (fun m irrs' k' =>
      (m ≤ l0 → irrs'[l0]? = some x ∧
        ∃ T, k'.calls = k.calls ++ T ∧ T.filter (fun e => e.1 = site l0) = []) ∧
      (l0 < m → ∃ km T, k'.calls = k.calls ++ T ∧
        (body l0 x km).2.calls = km.calls ++ T.filter (fun e => e.1 = site l0) ∧
        irrs'[l0]? = some (body l0 x km).1))
    body ?_ n irrs k ⟨fun _ => ⟨hx, [], by simp, rfl⟩, fun h => by omega⟩
  · exact key.2 hl0
  · intro m irrs' k' ⟨h1, h2⟩
    obtain ⟨t, ht, hs⟩ := hext m (irrs'.getD m default) k'
    have hother : m ≠ l0 → t.filter (fun e => e.1 = site l0) = [] := by
      intro hne
      apply filter_site_of_none
      intro e he h
      rw [hs e he] at h
      exact hne (hinj _ _ h)
    refine ⟨?_, ?_⟩
    · intro hm
      have hne : m ≠ l0 := by omega
      obtain ⟨g1, T, g2, g3⟩ := h1 (by omega)
      refine ⟨by rw [List.getElem?_set_ne hne]; exact g1, T ++ t, ?_, ?_⟩
      · rw [ht, g2, List.append_assoc]
      · rw [List.filter_append, g3, hother hne]; rfl
    · intro hm
      by_cases hml : m = l0
      · subst hml
        obtain ⟨g1, T, g2, g3⟩ := h1 (le_refl m)
        have hslot : irrs'.getD m default = x := getD_of_getElem? g1
        rw [hslot] at ht
        rw [hslot]
        have hlt : m < irrs'.length := (List.getElem?_eq_some_iff.mp g1).1
        refine ⟨k', T ++ t, ?_, ?_, ?_⟩
        · rw [ht, g2, List.append_assoc]
        · rw [List.filter_append, g3, filter_site_of_all hs, ht]; rfl
        · simp [List.getElem?_set_self hlt]
      · obtain ⟨km, T, g1, g2, g3⟩ := h2 (by omega)
        refine ⟨km, T ++ t, ?_, ?_, ?_⟩
        · rw [ht, g1, List.append_assoc]
        · rw [List.filter_append, hother hml, List.append_nil]; exact g2
        · rw [List.getElem?_set_ne hml]; exact g3

theorem percore_line_keeps_other (c c0 st l : Nat) (irr : interrupt) (k : Sink) (h : c ≠ c0) :
    (percore_line c st l irr k).1.slot_at c0 = irr.slot_at c0 := by
  have hd := (percore_line_keep c st l irr k).2.1
  unfold interrupt.slot_at
  rw [hd]
  simp only [Prod.mk.injEq, true_and]
  unfold percore_line
  split_ifs
  · rfl
  · cases hrd : (irr.cpu.getD c default).rd with
    | none =>
      simp only [percore_resolve, List.getD_eq_getElem?_getD, List.getElem?_modify]
      cases irr.cpu[c0]? <;> simp [h]
    | some rd => rfl

theorem percore_emit_at (lines c0 st l0 : Nat) (hl0 : l0 < lines) (x : List interrupt × Sink)
    (y : interrupt) (hy : x.1[l0]? = some y) :
    ∃ km T, (percore_emit lines c0 st x).2.calls = x.2.calls ++ T ∧
      (percore_line c0 st l0 y km).2.calls =
        km.calls ++ T.filter (fun e => e.1 = Site.percore c0 l0) := by
  obtain ⟨km, T, h1, h2, _⟩ := for_lines_at (Site.percore c0)
    (fun a b h => by simpa using h) (percore_line c0 st)
    (fun l irr k => percore_line_ext c0 st l irr k) lines l0 hl0 x.1 x.2 y hy
  refine ⟨km, T ++ [(Site.chart, SinkCall.rrdset_done st)], ?_, ?_⟩
  · simp [percore_emit, rrdset_done, h1]
  · rw [List.filter_append, h2]
    simp

/-- The pass of column `c0` on records whose record of row `l0` is `y`: either the column is skipped and all its calls are chart calls, or its row loop runs on some chart and the calls recorded for row `l0` are those of the round of `l0` on `y`; the second holds, with the chart found, when the chart of the column exists. -/
theorem percore_cpu_at (u : Int) (lines c0 l0 : Nat) (hl0 : l0 < lines)
    (x : List interrupt × Sink) (y : interrupt) (hy : x.1[l0]? = some y) :
    ∃ T, (percore_cpu u lines x c0).2.calls = x.2.calls ++ T ∧
      ((∀ e ∈ T, e.1 = Site.chart) ∨
        ∃ st km, (percore_line c0 st l0 y km).2.calls =
          km.calls ++ T.filter (fun e => e.1 = Site.percore c0 l0)) ∧
      ∀ st, x.2.sets.findIdx? (is_cpu_chart c0) = some st →
        ∃ km, (percore_line c0 st l0 y km).2.calls =
          km.calls ++ T.filter (fun e => e.1 = Site.percore c0 l0) := by
  have hfind : (rrdset_find_bytype x.2 "cpu".toList (cpu_chart_id c0)).1 =
      x.2.sets.findIdx? (is_cpu_chart c0) := rfl
  cases hfi : (rrdset_find_bytype x.2 "cpu".toList (cpu_chart_id c0)).1 with
  | none =>
    rw [hfi] at hfind
    by_cases hz : core_sum x.1 lines c0 = 0
    · have : percore_cpu u lines x c0 =
          (x.1, (rrdset_find_bytype x.2 "cpu".toList (cpu_chart_id c0)).2) := by
        simp only [percore_cpu, hfi, hz, if_true]
      rw [this]
      refine ⟨[(Site.chart, SinkCall.rrdset_find_bytype "cpu".toList (cpu_chart_id c0))], rfl,
        Or.inl (by intro e he; simp only [List.mem_singleton] at he; rw [he]), ?_⟩
      intro st hst
      rw [← hfind] at hst
      cases hst
    · have : percore_cpu u lines x c0 = percore_emit lines c0
          (rrdset_create (rrdset_find_bytype x.2 "cpu".toList (cpu_chart_id c0)).2 "cpu".toList
            (cpu_chart_id c0) (cpu_chart_title c0) (3000 + c0) u).1
          (x.1, (rrdset_create (rrdset_find_bytype x.2 "cpu".toList (cpu_chart_id c0)).2
            "cpu".toList (cpu_chart_id c0) (cpu_chart_title c0) (3000 + c0) u).2) := by
        simp only [percore_cpu, hfi, hz, if_false]
      rw [this]
      obtain ⟨km, T, h1, h2⟩ := percore_emit_at lines c0
        (rrdset_create (rrdset_find_bytype x.2 "cpu".toList (cpu_chart_id c0)).2 "cpu".toList
            (cpu_chart_id c0) (cpu_chart_title c0) (3000 + c0) u).1 l0 hl0
        (x.1, (rrdset_create (rrdset_find_bytype x.2 "cpu".toList (cpu_chart_id c0)).2
            "cpu".toList (cpu_chart_id c0) (cpu_chart_title c0) (3000 + c0) u).2) y hy
      have hfilt : ([(Site.chart, SinkCall.rrdset_find_bytype "cpu".toList (cpu_chart_id c0)),
          (Site.chart, SinkCall.rrdset_create "cpu".toList (cpu_chart_id c0)
            (cpu_chart_title c0) (3000 + c0) u)] ++ T).filter
            (fun e => e.1 = Site.percore c0 l0) =
          T.filter (fun e => e.1 = Site.percore c0 l0) := by simp
      refine ⟨[(Site.chart, SinkCall.rrdset_find_bytype "cpu".toList (cpu_chart_id c0)),
        (Site.chart, SinkCall.rrdset_create "cpu".toList (cpu_chart_id c0) (cpu_chart_title c0)
          (3000 + c0) u)] ++ T, ?_, Or.inr ⟨(rrdset_create
            (rrdset_find_bytype x.2 "cpu".toList (cpu_chart_id c0)).2 "cpu".toList
            (cpu_chart_id c0) (cpu_chart_title c0) (3000 + c0) u).1, km, ?_⟩, ?_⟩
      · rw [h1]; simp [rrdset_create, rrdset_find_bytype]
      · rw [hfilt]; exact h2
      · intro st hst
        rw [← hfind] at hst
        cases hst
  | some st =>
    rw [hfi] at hfind
    have : percore_cpu u lines x c0 = percore_emit lines c0 st
        (x.1, rrdset_next (rrdset_find_bytype x.2 "cpu".toList (cpu_chart_id c0)).2 st) := by
      simp only [percore_cpu, hfi]
    rw [this]
    obtain ⟨km, T, h1, h2⟩ := percore_emit_at lines c0 st l0 hl0
      (x.1, rrdset_next (rrdset_find_bytype x.2 "cpu".toList (cpu_chart_id c0)).2 st) y hy
    have hfilt : ([(Site.chart, SinkCall.rrdset_find_bytype "cpu".toList (cpu_chart_id c0)),
        (Site.chart, SinkCall.rrdset_next st)] ++ T).filter
          (fun e => e.1 = Site.percore c0 l0) =
        T.filter (fun e => e.1 = Site.percore c0 l0) := by simp
    refine ⟨[(Site.chart, SinkCall.rrdset_find_bytype "cpu".toList (cpu_chart_id c0)),
      (Site.chart, SinkCall.rrdset_next st)] ++ T, ?_, Or.inr ⟨st, km, ?_⟩, ?_⟩
    · rw [h1]; simp [rrdset_next, rrdset_find_bytype]
    · rw [hfilt]; exact h2
    · intro st' hst'
      rw [← hfind] at hst'
      cases hst'
      exact ⟨km, by rw [hfilt]; exact h2⟩

/-! ## The charts of the sink are only added -/

theorem SetsExt.sets_refl (k : Sink) : SetsExt k k := ⟨[], by simp⟩

theorem SetsExt.sets_trans {k1 k2 k3 : Sink} (h12 : SetsExt k1 k2) (h23 : SetsExt k2 k3) :
    SetsExt k1 k3 := by
  obtain ⟨t1, e1⟩ := h12
  obtain ⟨t2, e2⟩ := h23
  exact ⟨t1 ++ t2, by rw [e2, e1, List.append_assoc]⟩

theorem SetsExt.of_sets_eq {k k' : Sink} (h : k'.sets = k.sets) : SetsExt k k' :=
  ⟨[], by simp [h]⟩

theorem SetsExt.find_some {k k' : Sink} (h : SetsExt k k') (p : RRDSET → Bool) (st : Nat)
    (hst : k.sets.findIdx? p = some st) : k'.sets.findIdx? p = some st := by
  obtain ⟨t, ht⟩ := h
  rw [ht, List.findIdx?_append, hst]
  rfl

theorem find_or_create_sets (site : Site) (k : Sink) (st : Nat) (id name : CStr) :
    (find_or_create site k st id name).2.sets = k.sets := by
  cases hf : (rrddim_find site k st id).1 with
  | none => rw [find_or_create_none hf]; rfl
  | some q => rw [find_or_create_some hf]; rfl

theorem aggregate_line_sets (dpc cpus : Int) (st l : Nat) (irr : interrupt) (k : Sink) :
    (aggregate_line dpc cpus st l irr k).2.sets = k.sets := by
  have hres : (aggregate_resolve dpc cpus st l irr k).2.sets = k.sets := by
    unfold aggregate_resolve
    split_ifs <;> exact find_or_create_sets _ _ _ _ _
  unfold aggregate_line
  split_ifs
  · rfl
  · cases hrd : irr.rd with
    | none => simpa using hres
    | some rd =>
      simp only
      split_ifs
      · exact hres
      · rfl

theorem percore_line_sets (c st l : Nat) (irr : interrupt) (k : Sink) :
    (percore_line c st l irr k).2.sets = k.sets := by
  unfold percore_line
  split_ifs
  · rfl
  · cases hrd : (irr.cpu.getD c default).rd with
    | none =>
      simp only [percore_resolve]
      exact find_or_create_sets _ _ _ _ _
    | some rd => rfl

theorem for_lines_sets (body : Nat → interrupt → Sink → interrupt × Sink)
    (h : ∀ l irr k, (body l irr k).2.sets = k.sets) (ls : List Nat) (irrs : List interrupt)
    (k : Sink) : (for_lines body ls irrs k).2.sets = k.sets := by
  apply for_lines_inv (fun _ k' => k'.sets = k.sets) body ls ?_ irrs k rfl
  intro l _ irrs' k' hk
  rw [h, hk]

theorem percore_cpu_sets (u : Int) (lines : Nat) (x : List interrupt × Sink) (c : Nat) :
    SetsExt x.2 (percore_cpu u lines x c).2 := by
  have hemit : ∀ st (k : Sink), (percore_emit lines c st (x.1, k)).2.sets = k.sets := by
    intro st k
    simp only [percore_emit, rrdset_done]
    exact for_lines_sets _ (percore_line_sets c st) _ _ _
  cases hfi : (rrdset_find_bytype x.2 "cpu".toList (cpu_chart_id c)).1 with
  | none =>
    by_cases hz : core_sum x.1 lines c = 0
    · have : percore_cpu u lines x c =
          (x.1, (rrdset_find_bytype x.2 "cpu".toList (cpu_chart_id c)).2) := by
        simp only [percore_cpu, hfi, hz, if_true]
      rw [this]
      exact SetsExt.of_sets_eq rfl
    · have : percore_cpu u lines x c = percore_emit lines c
          (rrdset_create (rrdset_find_bytype x.2 "cpu".toList (cpu_chart_id c)).2 "cpu".toList
            (cpu_chart_id c) (cpu_chart_title c) (3000 + c) u).1
          (x.1, (rrdset_create (rrdset_find_bytype x.2 "cpu".toList (cpu_chart_id c)).2
            "cpu".toList (cpu_chart_id c) (cpu_chart_title c) (3000 + c) u).2) := by
        simp only [percore_cpu, hfi, hz, if_false]
      rw [this]
      exact ⟨[{ type := "cpu".toList, id := cpu_chart_id c }], by rw [hemit]; rfl⟩
  | some st =>
    have : percore_cpu u lines x c = percore_emit lines c st
        (x.1, rrdset_next (rrdset_find_bytype x.2 "cpu".toList (cpu_chart_id c)).2 st) := by
      simp only [percore_cpu, hfi]
    rw [this]
    exact SetsExt.of_sets_eq (by rw [hemit]; rfl)

theorem percore_fold_sets (u : Int) (lines : Nat) (cs : List Nat) (x : List interrupt × Sink) :
    SetsExt x.2 (cs.foldl (percore_cpu u lines) x).2 := by
  induction cs generalizing x with
  | nil => exact SetsExt.sets_refl _
  | cons c cs ih =>
    rw [List.foldl_cons]
    exact (percore_cpu_sets u lines x c).sets_trans (ih _)

theorem emit_aggregate_sets (u : Int) (s : State) (lines : Nat) (k : Sink) :
    SetsExt k (emit_aggregate u s lines k).2 := by
  have h0 : SetsExt k (aggregate_chart u k).2 := by
    cases h : (rrdset_find_bytype k "system".toList "softirqs".toList).1 with
    | none =>
      simp only [aggregate_chart, h]
      exact ⟨[{ type := "system".toList, id := "softirqs".toList }], rfl⟩
    | some st =>
      simp only [aggregate_chart, h]
      exact SetsExt.of_sets_eq rfl
  refine h0.sets_trans (SetsExt.of_sets_eq ?_)
  simp only [emit_aggregate, rrdset_done]
  exact for_lines_sets _ (aggregate_line_sets _ _ _) _ _ _

theorem collect_sets (u : Int) (raw : Nat → interrupt) (f : List (List CStr)) (s : State)
    (k : Sink) : SetsExt k (collect u raw f s k).sink := by
  simp only [collect]
  refine (emit_aggregate_sets u (parse_table raw f s) f.length k).sets_trans ?_
  unfold emit_percore
  split_ifs
  · exact percore_fold_sets u f.length _ _
  · exact SetsExt.sets_refl _

/-- Every call leaves the charts of the sink in their places. -/
theorem do_proc_softirqs_sets (u : Int) (env : Env) (s : State) (k : Sink) :
    SetsExt k (do_proc_softirqs u env s k).sink := by
  by_cases hs : ∃ f, Successful env s f
  · obtain ⟨f, hf⟩ := hs
    rw [do_proc_softirqs_successful u env s k f hf]
    exact collect_sets u env.raw f _ k
  · rw [(do_proc_softirqs_fault u env s k hs).1]
    exact SetsExt.sets_refl _

/-! ## The passes of the columns, seen from one column and one row -/

theorem range_split (n c0 : Nat) (h : c0 < n) :
    List.range n = List.range c0 ++ c0 :: List.range' (c0 + 1) (n - c0 - 1) := by
  rw [List.range_eq_range', List.range_eq_range']
  have h1 : n = ((n - c0 - 1) + 1) + c0 := by omega
  conv_lhs => rw [h1]
  rw [← List.range'_append_1, List.range'_succ]
  simp

/-- The passes of the columns below `n`, seen from the column `c0` and the row `l0`: the passes before `c0` record nothing for the column and keep, in the record of the row, what the parsing decided and the handle of the column; the passes after `c0` record nothing for the column. -/
theorem percore_fold_at (u : Int) (lines n c0 l0 : Nat) (hc0 : c0 < n)
    (x : List interrupt × Sink) (y : interrupt) (hy : x.1[l0]? = some y) :
    ∃ xm ym Tpre Tc Tpost,
      xm.1[l0]? = some ym ∧ ym.slot_at c0 = y.slot_at c0 ∧ SetsExt x.2 xm.2 ∧
      (percore_cpu u lines xm c0).2.calls = xm.2.calls ++ Tc ∧
      ((List.range n).foldl (percore_cpu u lines) x).2.calls =
        x.2.calls ++ Tpre ++ Tc ++ Tpost ∧
      (∀ e ∈ Tpre, ∀ l, e.1 ≠ Site.percore c0 l) ∧
      (∀ e ∈ Tpost, ∀ l, e.1 ≠ Site.percore c0 l) := by
  have hloop : ∀ c, c ≠ c0 → ∀ st irrs k,
      irrs.map (interrupt.slot_at c0) = x.1.map (interrupt.slot_at c0) →
      Ext (fun e => ∀ l, e.1 ≠ Site.percore c0 l) k
        (for_lines (percore_line c st) (List.range lines) irrs k).2 ∧
      (for_lines (percore_line c st) (List.range lines) irrs k).1.map (interrupt.slot_at c0) =
        x.1.map (interrupt.slot_at c0) := by
    intro c hc st irrs k hJ
    refine ⟨for_lines_ext _ _ (fun l irr k' => (percore_line_ext c st l irr k').mono ?_) _ _ _,
      ?_⟩
    · intro e he l h
      rw [he] at h
      simp only [Site.percore.injEq] at h
      exact hc h.1
    · rw [for_lines_map (interrupt.slot_at c0) _
        (fun l irr k' => percore_line_keeps_other c c0 st l irr k' hc), hJ]
  have hchart : ∀ call, (fun e : Site × SinkCall => ∀ l, e.1 ≠ Site.percore c0 l)
      (Site.chart, call) := by
    intro call l h
    cases h
  obtain ⟨⟨Tpre, p1, p2⟩, p3⟩ := percore_fold_ext (fun e => ∀ l, e.1 ≠ Site.percore c0 l)
    (fun irrs => irrs.map (interrupt.slot_at c0) = x.1.map (interrupt.slot_at c0))
    u lines hchart (List.range c0)
    (fun c hc => hloop c (by have := List.mem_range.mp hc; omega)) x rfl
  obtain ⟨Tc, hTc, _⟩ := (percore_cpu_ext (fun _ => True) (fun _ => True) u lines c0
    (fun _ => trivial)
    (fun st irrs k _ => ⟨for_lines_ext _ _
      (fun l irr k' => (percore_line_ext c0 st l irr k').mono (fun _ _ => trivial)) _ _ _,
      trivial⟩)
    ((List.range c0).foldl (percore_cpu u lines) x) trivial).1
  obtain ⟨⟨Tpost, q1, q2⟩, _⟩ := percore_fold_ext (fun e => ∀ l, e.1 ≠ Site.percore c0 l)
    (fun _ => True) u lines hchart (List.range' (c0 + 1) (n - c0 - 1))
    (fun c hc st irrs k _ =>
      ⟨for_lines_ext _ _ (fun l irr k' => (percore_line_ext c st l irr k').mono (by
        intro e he l' h'
        rw [he] at h'
        simp only [Site.percore.injEq] at h'
        have := List.mem_range'_1.mp hc
        omega)) _ _ _, trivial⟩)
    (percore_cpu u lines ((List.range c0).foldl (percore_cpu u lines) x) c0) trivial
  have hym := congrArg (fun z => z[l0]?) p3
  simp only [List.getElem?_map, hy, Option.map_some'] at hym
  cases hxm : ((List.range c0).foldl (percore_cpu u lines) x).1[l0]? with
  | none => rw [hxm] at hym; simp at hym
  | some ym =>
    rw [hxm] at hym
    simp only [Option.map_some', Option.some.injEq] at hym
    refine ⟨(List.range c0).foldl (percore_cpu u lines) x, ym, Tpre, Tc, Tpost, hxm, hym,
      percore_fold_sets u lines _ x, hTc, ?_, p2, q2⟩
    rw [range_split n c0 hc0, List.foldl_append, List.foldl_cons, q1, hTc, p1]

/-! ## One row of one cycle, in the aggregate loop and in the loop of one column -/

theorem reset_cpu_rds_rd (cpus : Int) (cpu : List cpu_interrupt) (c : Nat)
    (hc : c < cpus.toNat) : ((reset_cpu_rds cpus cpu).getD c default).rd = none := by
  unfold reset_cpu_rds
  have key : ∀ n, (((List.range n).foldl
      (fun cpu c => cpu.modify (fun x => { x with rd := none }) c) cpu).getD c default).rd =
      if c < n then none else (cpu.getD c default).rd := by
    intro n
    induction n with
    | zero => simp
    | succ n ih =>
      rw [List.range_succ, List.foldl_append]
      simp only [List.foldl_cons, List.foldl_nil, List.getD_eq_getElem?_getD,
        List.getElem?_modify] at ih ⊢
      by_cases h : n = c
      · subst h
        cases (List.foldl (fun cpu c => List.modify (fun x => { value := x.value, rd := none })
          c cpu) cpu (List.range n))[n]? with
        | none => simp; rfl
        | some a => simp
      · have h1 : (c < n + 1) ↔ (c < n) := by omega
        simp only [h1]
        rw [← ih]
        cases (List.foldl (fun cpu c => List.modify (fun x => { value := x.value, rd := none })
          c cpu) cpu (List.range n))[c]? <;> simp [h]
  rw [key, if_pos hc]

/-- The three ways through the body of the aggregate loop: the record is unused and nothing happens; the handle is resolved again, which clears the handles of the columns when per-core emission is enabled; or the handle is reused and only the total is appended. -/
theorem aggregate_line_cases (dpc cpus : Int) (st l : Nat) (irr : interrupt) (k : Sink) :
    (irr.used = 0 ∧ aggregate_line dpc cpus st l irr k = (irr, k)) ∨
    (irr.used ≠ 0 ∧
      (∃ rd x, (aggregate_line dpc cpus st l irr k).2.calls = k.calls ++
        [(Site.aggregate l, SinkCall.rrddim_find st irr.id), (Site.aggregate l, x),
         (Site.aggregate l, SinkCall.rrddim_set_by_pointer st rd irr.total)] ∧
        (x = SinkCall.rrddim_add st irr.id irr.name ∨
          x = SinkCall.rrddim_set_name st rd irr.name)) ∧
      (dpc ≠ 0 → ∀ c, c < cpus.toNat →
        ((aggregate_line dpc cpus st l irr k).1.cpu.getD c default).rd = none)) ∨
    (irr.used ≠ 0 ∧ ∃ p, irr.rd = some p ∧ aggregate_line dpc cpus st l irr k =
      (irr, rrddim_set_by_pointer (Site.aggregate l) k st p irr.total)) := by
  have hres : (∃ rd x, (aggregate_resolve dpc cpus st l irr k).2.calls = k.calls ++
        [(Site.aggregate l, SinkCall.rrddim_find st irr.id), (Site.aggregate l, x),
         (Site.aggregate l, SinkCall.rrddim_set_by_pointer st rd irr.total)] ∧
        (x = SinkCall.rrddim_add st irr.id irr.name ∨
          x = SinkCall.rrddim_set_name st rd irr.name)) ∧
      (dpc ≠ 0 → ∀ c, c < cpus.toNat →
        ((aggregate_resolve dpc cpus st l irr k).1.cpu.getD c default).rd = none) := by
    refine ⟨aggregate_resolve_calls dpc cpus st l irr k, ?_⟩
    intro hd c hc
    simp only [aggregate_resolve, if_pos hd]
    exact reset_cpu_rds_rd cpus irr.cpu c hc
  by_cases hu : irr.used = 0
  · exact Or.inl ⟨hu, by simp only [aggregate_line, if_pos hu]⟩
  · cases hrd : irr.rd with
    | none =>
      have : aggregate_line dpc cpus st l irr k = aggregate_resolve dpc cpus st l irr k := by
        simp only [aggregate_line, if_neg hu, hrd]
      rw [this]
      exact Or.inr (Or.inl ⟨hu, hres⟩)
    | some p =>
      by_cases hn : strncmp irr.name (k.dim_name p) MAX_INTERRUPT_NAME ≠ 0
      · have : aggregate_line dpc cpus st l irr k = aggregate_resolve dpc cpus st l irr k := by
          simp only [aggregate_line, if_neg hu, hrd, if_pos hn]
        rw [this]
        exact Or.inr (Or.inl ⟨hu, hres⟩)
      · exact Or.inr (Or.inr ⟨hu, p, rfl, by simp only [aggregate_line, if_neg hu, hrd, if_neg hn]⟩)

/-- One cycle seen from the row `l0` and the column `c0`: the new calls `T` of the cycle, restricted to the aggregate loop at the row, are the calls of one round of `aggregate_line` on the parsed record `x`; restricted to the loop of the column, they are calls of the pass `percore_cpu` of the column, which starts from a record `ym` of the row that still has the data of the round and the handle of the column it left. -/
theorem collect_at (u : Int) (raw : Nat → interrupt) (f : List (List CStr)) (s : State)
    (k : Sink) (c0 l0 : Nat) (hpc : (parse_table raw f s).do_per_core ≠ 0)
    (hc0 : c0 < (parse_table raw f s).cpus.toNat) (hl0 : l0 < f.length) (x : interrupt)
    (hx : (parse_table raw f s).irrs[l0]? = some x) :
    ∃ T kmA xm ym Tc,
      (collect u raw f s k).sink.calls = k.calls ++ T ∧
      (aggregate_line (parse_table raw f s).do_per_core (parse_table raw f s).cpus
          (aggregate_chart u k).1 l0 x kmA).2.calls =
        kmA.calls ++ T.filter (fun e => e.1 = Site.aggregate l0) ∧
      xm.1[l0]? = some ym ∧
      ym.slot_at c0 = (aggregate_line (parse_table raw f s).do_per_core
          (parse_table raw f s).cpus (aggregate_chart u k).1 l0 x kmA).1.slot_at c0 ∧
      SetsExt k xm.2 ∧
      (percore_cpu u f.length xm c0).2.calls = xm.2.calls ++ Tc ∧
      ∀ l, T.filter (fun e => e.1 = Site.percore c0 l) =
        Tc.filter (fun e => e.1 = Site.percore c0 l) := by
  obtain ⟨x0, hx0⟩ := aggregate_chart_calls u k
  obtain ⟨kmA, TA, hA1, hA2, hA3⟩ := for_lines_at Site.aggregate
    (fun a b h => by simpa using h)
    (aggregate_line (parse_table raw f s).do_per_core (parse_table raw f s).cpus
      (aggregate_chart u k).1)
    (fun l irr k' => aggregate_line_ext _ _ _ l irr k') f.length l0 hl0
    (parse_table raw f s).irrs (aggregate_chart u k).2 x hx
  obtain ⟨TA', hA4, hA5⟩ := for_lines_ext (fun e => ∃ l, e.1 = Site.aggregate l)
    (aggregate_line (parse_table raw f s).do_per_core (parse_table raw f s).cpus
      (aggregate_chart u k).1)
    (fun l irr k' => (aggregate_line_ext _ _ _ l irr k').mono (fun e he => ⟨l, he⟩))
    (List.range f.length) (parse_table raw f s).irrs (aggregate_chart u k).2
  have hTA : TA' = TA := List.append_cancel_left (hA4.symm.trans hA1)
  subst hTA
  obtain ⟨xm, ym, Tpre, Tc, Tpost, p1, p2, p3, p4, p5, p6, p7⟩ :=
    percore_fold_at u f.length (parse_table raw f s).cpus.toNat c0 l0 hc0
      (emit_aggregate u (parse_table raw f s) f.length k) _ hA3
  refine ⟨[(Site.chart, SinkCall.rrdset_find_bytype "system".toList "softirqs".toList),
      (Site.chart, x0)] ++ TA' ++ [(Site.chart, SinkCall.rrdset_done (aggregate_chart u k).1)] ++
      Tpre ++ Tc ++ Tpost, kmA, xm, ym, Tc, ?_, ?_, p1, p2,
    (emit_aggregate_sets u (parse_table raw f s) f.length k).sets_trans p3, p4, ?_⟩
  · have hc : (collect u raw f s k).sink = ((List.range (parse_table raw f s).cpus.toNat).foldl
        (percore_cpu u f.length) (emit_aggregate u (parse_table raw f s) f.length k)).2 := by
      simp only [collect, emit_percore, if_pos hpc]
    rw [hc, p5]
    simp only [emit_aggregate, rrdset_done, hA1, hx0, List.append_assoc]
  · rw [hA2]
    congr 1
    obtain ⟨⟨Tall, q1, q2⟩, _⟩ := percore_fold_ext (fun e => ∀ l, e.1 ≠ Site.aggregate l)
      (fun _ => True) u f.length (fun call l h => by cases h)
      (List.range (parse_table raw f s).cpus.toNat)
      (fun c _ st irrs k' _ => ⟨for_lines_ext _ _ (fun l irr k'' =>
        (percore_line_ext c st l irr k'').mono (by
          intro e he l' h'
          rw [he] at h'
          cases h')) _ _ _, trivial⟩)
      (emit_aggregate u (parse_table raw f s) f.length k) trivial
    have hall : Tall = Tpre ++ Tc ++ Tpost := by
      have h : (emit_aggregate u (parse_table raw f s) f.length k).2.calls ++ Tall =
          (emit_aggregate u (parse_table raw f s) f.length k).2.calls ++
            (Tpre ++ Tc ++ Tpost) := by
        rw [← q1, p5]
        simp only [List.append_assoc]
      exact List.append_cancel_left h
    have e3 : (Tpre ++ Tc ++ Tpost).filter (fun e => e.1 = Site.aggregate l0) = [] := by
      rw [← hall]
      exact filter_site_of_none (fun e he => q2 e he l0)
    have e4 : TA'.filter (fun e => e.1 = Site.aggregate l0) =
        ([(Site.chart, SinkCall.rrdset_find_bytype "system".toList "softirqs".toList),
          (Site.chart, x0)] ++ TA' ++
          [(Site.chart, SinkCall.rrdset_done (aggregate_chart u k).1)]).filter
            (fun e => e.1 = Site.aggregate l0) := by
      simp [List.filter_append]
    have e5 : ∀ a b c d : List (Site × SinkCall), a ++ b ++ c ++ d = a ++ (b ++ c ++ d) := by
      intro a b c d
      simp only [List.append_assoc]
    rw [e5, List.filter_append, e3, List.append_nil, e4]
  · intro l
    have e1 : ([(Site.chart, SinkCall.rrdset_find_bytype "system".toList "softirqs".toList),
        (Site.chart, x0)] ++ TA' ++
        [(Site.chart, SinkCall.rrdset_done (aggregate_chart u k).1)]).filter
          (fun e => e.1 = Site.percore c0 l) = [] := by
      apply filter_site_of_none
      intro e he
      simp only [List.mem_append, List.mem_cons, List.mem_singleton, List.not_mem_nil,
        or_false] at he
      rcases he with (((rfl | rfl) | he) | rfl)
      · simp
      · simp
      · obtain ⟨l', hl'⟩ := hA5 e he
        rw [hl']
        simp
      · simp
    simp only [List.filter_append] at e1 ⊢
    rw [filter_site_of_none (fun e he => p6 e he l), filter_site_of_none (fun e he => p7 e he l)]
    simp only [List.append_assoc] at e1 ⊢
    simp only [List.append_eq_nil] at e1
    rw [e1.1, e1.2.1, e1.2.2]
    simp

/-- A successful cycle with per-core emission, seen from the row `l` and the column `c`: the record `irr` the cycle leaves for the row has the data of the parsed record `x`, and the new calls `T` decompose as in `collect_at`. -/
theorem cycle_at (u : Int) (env : Env) (s : State) (k : Sink) (f : List (List CStr))
    (hinv : Inv s k) (hs : Successful env s f) (hpc : (entered env s f).do_per_core ≠ 0)
    (c l : Nat) (hc : c < (columns s f).toNat) (irr : interrupt)
    (hi : (do_proc_softirqs u env s k).st.irrs[l]? = some irr) :
    ∃ x T kmA xm ym Tc,
      (parse_table env.raw f (entered env s f)).irrs[l]? = some x ∧ irr.data = x.data ∧
      l < f.length ∧
      (do_proc_softirqs u env s k).sink.calls = k.calls ++ T ∧
      (aggregate_line (entered env s f).do_per_core (columns s f)
          (aggregate_chart u k).1 l x kmA).2.calls =
        kmA.calls ++ T.filter (fun e => e.1 = Site.aggregate l) ∧
      xm.1[l]? = some ym ∧
      ym.slot_at c = (aggregate_line (entered env s f).do_per_core (columns s f)
          (aggregate_chart u k).1 l x kmA).1.slot_at c ∧
      SetsExt k xm.2 ∧
      (percore_cpu u f.length xm c).2.calls = xm.2.calls ++ Tc ∧
      ∀ l', T.filter (fun e => e.1 = Site.percore c l') =
        Tc.filter (fun e => e.1 = Site.percore c l') := by
  have hl := (cycle_slot u env s k f hinv hs l irr hi).1
  obtain ⟨e1, e2, e3⟩ := entered_inv env _ _ f hinv
  have hd := collect_data u env.raw f (entered env s f) k e1 e2 e3
  rw [do_proc_softirqs_successful u env s k f hs] at hi ⊢
  have hdl := congrArg (fun z => z[l]?) hd
  simp only [List.getElem?_map, hi, Option.map_some'] at hdl
  obtain ⟨q1, q2, _⟩ := parse_table_statics env.raw f (entered env s f)
  cases hx : (parse_table env.raw f (entered env s f)).irrs[l]? with
  | none => rw [hx] at hdl; simp at hdl
  | some x =>
    rw [hx] at hdl
    simp only [Option.map_some', Option.some.injEq] at hdl
    obtain ⟨T, kmA, xm, ym, Tc, r1, r2, r3, r4, r5, r6, r7⟩ :=
      collect_at u env.raw f (entered env s f) k c l (by rw [q2]; exact hpc)
        (by rw [q1]; exact hc) hl x hx
    rw [q1, q2] at r2 r4
    exact ⟨x, T, kmA, xm, ym, Tc, rfl, hdl, hl, r1, r2, r3, r4, r5, r6, r7⟩

/-- The handles of a record after the parsing pass: all cleared when the store was sized again, and those the record had before the call otherwise. -/
theorem parse_table_handles (raw : Nat → interrupt) (f : List (List CStr)) (s : State)
    (l : Nat) (x : interrupt) (hx : (parse_table raw f s).irrs[l]? = some x) :
    (f.length ≠ s.allocated → x.rd = none) ∧
    (f.length = s.allocated → ∃ a, s.irrs[l]? = some a ∧ x.rd = a.rd ∧
      ∀ c, (x.cpu.getD c default).rd = (a.cpu.getD c default).rd) := by
  rw [parse_table_getElem?] at hx
  have hslot : ∀ b : interrupt, (parse_slot s.cpus f l b).rd = b.rd ∧
      ∀ c, ((parse_slot s.cpus f l b).cpu.getD c default).rd = (b.cpu.getD c default).rd := by
    intro b
    refine ⟨(parse_slot_spec s.cpus f l b).1, ?_⟩
    have hm : (parse_slot s.cpus f l b).cpu.map (fun x => x.rd) = b.cpu.map (fun x => x.rd) := by
      unfold parse_slot
      split_ifs
      · rfl
      · exact (parse_line_handles s.cpus (f.getD l []) b).2.2
      · rfl
    intro c
    have h5 := congrArg (fun x => x[c]?) hm
    simp only [List.getElem?_map] at h5
    simp only [List.getD_eq_getElem?_getD]
    cases ha : (parse_slot s.cpus f l b).cpu[c]? <;> cases hb : b.cpu[c]? <;> simp_all
  constructor
  · intro hne
    rw [get_interrupts_array_ne s.cpus raw hne] at hx
    simp only [List.getElem?_map, Option.map_eq_some'] at hx
    obtain ⟨b, ⟨i, _, hb⟩, hx⟩ := hx
    rw [← hx, (hslot b).1, ← hb]
    rfl
  · intro heq
    rw [get_interrupts_array_eq s.cpus raw heq] at hx
    simp only [Option.map_eq_some'] at hx
    obtain ⟨a, ha, hx⟩ := hx
    exact ⟨a, ha, by rw [← hx]; exact (hslot a).1, fun c => by rw [← hx]; exact (hslot a).2 c⟩

/-! ## The claims -/

/-- The first call of a process on `table_two_rows` is a successful cycle. -/
theorem successful_two_rows : Successful (env_of table_two_rows) State.init table_two_rows :=
  ⟨Or.inr rfl, rfl, by decide, by decide⟩

/-- C1. After a successful cycle every record that is marked used holds, as its values, the values parsed in that cycle from the words of its line (one for each column), and its total is the sum of these values in unsigned 64-bit arithmetic: the sum modulo `2^64`, hence the sum itself when it is below `2^64`.  Nothing of an earlier cycle enters the total. -/
theorem total_is_sum_of_values (u : Int) (env : Env) (s : State) (k : Sink)
    (f : List (List CStr)) (hr : Reachable s k) (hs : Successful env s f) (l : Nat)
    (irr : interrupt) (hi : (do_proc_softirqs u env s k).st.irrs[l]? = some irr)
    (hu : irr.used ≠ 0) :
    irr.cpu.map (fun x => x.value) =
      (List.range (columns s f).toNat).map (column_value (f.getD l [])) ∧
    irr.total = (irr.cpu.map (fun x => x.value)).sum % 2 ^ 64 ∧
    ((irr.cpu.map (fun x => x.value)).sum < 2 ^ 64 →
      irr.total = (irr.cpu.map (fun x => x.value)).sum) := by
  obtain ⟨hl, b, hb1, hb2⟩ := cycle_slot u env s k f (reachable_inv hr) hs l irr hi
  unfold interrupt.data at hb2
  simp only [Prod.mk.injEq] at hb2
  obtain ⟨d1, _, _, d4, d5⟩ := hb2
  obtain ⟨_, t, rest, hws, ht, hp⟩ :=
    parse_slot_used (columns s f) f l b hl (by rw [← d1]; exact hu)
  obtain ⟨_, _, _, q4, q5⟩ := parse_line_used (columns s f) t rest b ht hb1
  rw [hp] at d4 d5
  have h1 : irr.cpu.map (fun x => x.value) =
      (List.range (columns s f).toNat).map (column_value (f.getD l [])) := by
    rw [d5, q4, hws]
  have h2 : irr.total = (irr.cpu.map (fun x => x.value)).sum % 2 ^ 64 := by
    rw [d4, q5, d5, q4, U64_eq]
  exact ⟨h1, h2, fun hlt => by rw [h2, Nat.mod_eq_of_lt hlt]⟩

/-- C1 at the row `NET_RX: 10 20` of the first cycle on `table_two_rows`: the total 30 is the sum of 10 and 20. -/
theorem total_is_sum_of_values_witness :
    rec_net_rx.cpu.map (fun x => x.value) =
      (List.range (columns State.init table_two_rows).toNat).map
        (column_value (table_two_rows.getD 1 [])) ∧
    rec_net_rx.total = (rec_net_rx.cpu.map (fun x => x.value)).sum % 2 ^ 64 ∧
    ((rec_net_rx.cpu.map (fun x => x.value)).sum < 2 ^ 64 →
      rec_net_rx.total = (rec_net_rx.cpu.map (fun x => x.value)).sum) :=
  total_is_sum_of_values 1 (env_of table_two_rows) State.init Sink.empty table_two_rows
    (Reachable.init _) successful_two_rows 1 rec_net_rx (by decide) (by decide)

/-- C2. Two successful cycles in a row on tables with the same number of lines, and a row `i` that is used in both with the same id: in the second cycle the record keeps the aggregate handle it had after the first, and the only call recorded for row `i` in the aggregate loop is the append of its total through this handle; no `rrddim_find`, `rrddim_add` or `rrddim_set_name` is made for it. -/
theorem unchanged_row_reuses_handle (u1 u2 : Int) (env1 env2 : Env) (s0 : State) (k0 : Sink)
    (f1 f2 : List (List CStr)) (hr : Reachable s0 k0) (hs1 : Successful env1 s0 f1)
    (hs2 : Successful env2 (do_proc_softirqs u1 env1 s0 k0).st f2)
    (hlen : f1.length = f2.length) (i : Nat) (a b : interrupt)
    (ha : (do_proc_softirqs u1 env1 s0 k0).st.irrs[i]? = some a)
    (hb : (do_proc_softirqs u2 env2 (do_proc_softirqs u1 env1 s0 k0).st
      (do_proc_softirqs u1 env1 s0 k0).sink).st.irrs[i]? = some b)
    (hua : a.used ≠ 0) (hub : b.used ≠ 0) (hid : a.id = b.id) :
    ∃ st rd t, a.rd = some rd ∧ b.rd = some rd ∧
      (do_proc_softirqs u2 env2 (do_proc_softirqs u1 env1 s0 k0).st
        (do_proc_softirqs u1 env1 s0 k0).sink).sink.calls =
        (do_proc_softirqs u1 env1 s0 k0).sink.calls ++ t ∧
      (Site.aggregate i, SinkCall.rrddim_set_by_pointer st rd b.total) ∈ t ∧
      ∀ e ∈ t, e.1 = Site.aggregate i → e.2 = SinkCall.rrddim_set_by_pointer st rd b.total := by
  have hinv0 := reachable_inv hr
  have hinv1 := do_proc_softirqs_inv u1 env1 s0 k0 hinv0
  obtain ⟨_, hal1, _, _⟩ := cycle_length u1 env1 s0 k0 f1 hinv0 hs1
  generalize do_proc_softirqs u1 env1 s0 k0 = r1 at *
  have ham : a ∈ r1.st.irrs := List.mem_iff_getElem?.mpr ⟨i, ha⟩
  obtain ⟨p, hp1, hp2⟩ := hinv1.res a ham hua
  have hpv : p < r1.sink.dims.length := ((hinv1.recs a ham).2 p hp1).1
  obtain ⟨hil, _⟩ := cycle_slot u2 env2 r1.st r1.sink f2 hinv1 hs2 i b hb
  rw [do_proc_softirqs_successful u2 env2 r1.st r1.sink f2 hs2] at hb ⊢
  obtain ⟨e1, e2, e3⟩ := entered_inv env2 _ _ f2 hinv1
  obtain ⟨_, _, _, p4⟩ := parse_table_spec env2.raw f2 (entered env2 r1.st f2) r1.sink e1 e2 e3
  have hgia : get_interrupts_array (entered env2 r1.st f2) f2.length (entered env2 r1.st f2).cpus
      env2.raw = entered env2 r1.st f2 :=
    get_interrupts_array_eq _ _ (by rw [← hlen, ← hal1]; rfl)
  have hpa : (parse_table env2.raw f2 (entered env2 r1.st f2)).irrs[i]? =
      some (parse_slot (entered env2 r1.st f2).cpus f2 i a) := by
    rw [parse_table_getElem?, hgia]
    have : (entered env2 r1.st f2).irrs[i]? = some a := ha
    rw [this]; rfl
  generalize hpadef : parse_slot (entered env2 r1.st f2).cpus f2 i a = pa at hpa
  have hpard : pa.rd = some p := by
    rw [← hpadef, (parse_slot_spec _ _ _ _).1]; exact hp1
  have hd := collect_data u2 env2.raw f2 (entered env2 r1.st f2) r1.sink e1 e2 e3
  have hd' := congrArg (fun x => x[i]?) hd
  simp only [List.getElem?_map, hb, hpa, Option.map_some', Option.some.injEq] at hd'
  unfold interrupt.data at hd'
  simp only [Prod.mk.injEq] at hd'
  obtain ⟨d1, d2, _, d4, _⟩ := hd'
  obtain ⟨x0, tpost, c1, c2, c3, c4⟩ :=
    collect_calls u2 env2.raw f2 (entered env2 r1.st f2) r1.sink e1 e2 e3
  have hg0 : Grow r1.sink (aggregate_chart u2 r1.sink).2 :=
    Grow.of_dims_eq (aggregate_chart_dims u2 r1.sink)
  obtain ⟨l1, t, l2, l3, l4⟩ := aggregate_loop_reuse
    (parse_table env2.raw f2 (entered env2 r1.st f2)).do_per_core
    (parse_table env2.raw f2 (entered env2 r1.st f2)).cpus (aggregate_chart u2 r1.sink).1
    f2.length i p pa (parse_table env2.raw f2 (entered env2 r1.st f2)).irrs
    (aggregate_chart u2 r1.sink).2
    (fun irr hi => ⟨(p4 irr hi).1, (p4 irr hi).2.handle_grow hg0⟩) hpa hil
    (by rw [← d1]; exact hub) hpard
    (by rw [hg0.id_eq p hpv, hp2, hid, d2])
  have hc4 := congrArg (fun x => x[i]?) (map_rd_of_map_kept c4)
  simp only [List.getElem?_map, hb, l1, Option.map_some', Option.some.injEq] at hc4
  refine ⟨(aggregate_chart u2 r1.sink).1, p,
    [(Site.chart, SinkCall.rrdset_find_bytype "system".toList "softirqs".toList),
      (Site.chart, x0)] ++ t ++ tpost, hp1, by rw [hc4, hpard], ?_, ?_, ?_⟩
  · rw [c2, l2, c1]; simp
  · rw [d4]
    exact List.mem_append_left _ (List.mem_append_right _ l3)
  · intro e he hs
    rw [d4]
    rcases List.mem_append.mp he with h | h
    · rcases List.mem_append.mp h with h | h
      · simp only [List.mem_cons, List.mem_singleton, List.not_mem_nil, or_false] at h
        rcases h with h | h <;> rw [h] at hs <;> simp at hs
      · exact l4 e h hs
    · exact absurd hs (c3 e h i)

/-- C2 at the row `NET_RX` of two cycles in a row on `table_two_rows`. -/
theorem unchanged_row_reuses_handle_witness :
    ∃ st rd t, rec_net_rx.rd = some rd ∧ rec_net_rx.rd = some rd ∧
      (do_proc_softirqs 1 (env_of table_two_rows) cycle_one.st cycle_one.sink).sink.calls =
        cycle_one.sink.calls ++ t ∧
      (Site.aggregate 1, SinkCall.rrddim_set_by_pointer st rd rec_net_rx.total) ∈ t ∧
      ∀ e ∈ t, e.1 = Site.aggregate 1 →
        e.2 = SinkCall.rrddim_set_by_pointer st rd rec_net_rx.total :=
  unchanged_row_reuses_handle 1 1 (env_of table_two_rows) (env_of table_two_rows) State.init
    Sink.empty table_two_rows table_two_rows (Reachable.init _) successful_two_rows
    ⟨Or.inr rfl, rfl, by decide, by decide⟩ rfl 1 rec_net_rx rec_net_rx (by decide) (by decide)
    (by decide) (by decide) rfl

/-- C3. Two successful cycles in a row on tables with different numbers of lines: every row that is used in the second cycle has its aggregate handle resolved again in that cycle.  The calls of the second cycle hold, recorded for this row in the aggregate loop, the `rrddim_find` by the id of the row, then the `rrddim_add` or the `rrddim_set_name` with its name, then the append of its total, whatever the id and the name were in the first cycle. -/
theorem row_count_change_resolves_again (u1 u2 : Int) (env1 env2 : Env) (s0 : State) (k0 : Sink)
    (f1 f2 : List (List CStr)) (hr : Reachable s0 k0) (hs1 : Successful env1 s0 f1)
    (hs2 : Successful env2 (do_proc_softirqs u1 env1 s0 k0).st f2)
    (hne : f1.length ≠ f2.length) (i : Nat) (b : interrupt)
    (hb : (do_proc_softirqs u2 env2 (do_proc_softirqs u1 env1 s0 k0).st
      (do_proc_softirqs u1 env1 s0 k0).sink).st.irrs[i]? = some b)
    (hub : b.used ≠ 0) :
    ∃ pre post st rd x,
      (do_proc_softirqs u2 env2 (do_proc_softirqs u1 env1 s0 k0).st
        (do_proc_softirqs u1 env1 s0 k0).sink).sink.calls =
        (do_proc_softirqs u1 env1 s0 k0).sink.calls ++ pre ++
          [(Site.aggregate i, SinkCall.rrddim_find st b.id), (Site.aggregate i, x),
           (Site.aggregate i, SinkCall.rrddim_set_by_pointer st rd b.total)] ++ post ∧
      (x = SinkCall.rrddim_add st b.id b.name ∨ x = SinkCall.rrddim_set_name st rd b.name) := by
  have hinv0 := reachable_inv hr
  have hinv1 := do_proc_softirqs_inv u1 env1 s0 k0 hinv0
  obtain ⟨_, hal1, _, _⟩ := cycle_length u1 env1 s0 k0 f1 hinv0 hs1
  generalize do_proc_softirqs u1 env1 s0 k0 = r1 at *
  obtain ⟨hil, _⟩ := cycle_slot u2 env2 r1.st r1.sink f2 hinv1 hs2 i b hb
  rw [do_proc_softirqs_successful u2 env2 r1.st r1.sink f2 hs2] at hb ⊢
  obtain ⟨e1, e2, e3⟩ := entered_inv env2 _ _ f2 hinv1
  have hgia : get_interrupts_array (entered env2 r1.st f2) f2.length (entered env2 r1.st f2).cpus
      env2.raw = { entered env2 r1.st f2 with
        irrs := (List.range f2.length).map
          (fun l => reset_record (entered env2 r1.st f2).cpus (env2.raw l))
        allocated := f2.length } :=
    get_interrupts_array_ne _ _ (by
      intro h
      apply hne
      rw [h, ← hal1]; rfl)
  have hpa : (parse_table env2.raw f2 (entered env2 r1.st f2)).irrs[i]? =
      some (parse_slot (entered env2 r1.st f2).cpus f2 i
        (reset_record (entered env2 r1.st f2).cpus (env2.raw i))) := by
    rw [parse_table_getElem?, hgia]
    simp [List.getElem?_range hil]
  generalize hpadef : parse_slot (entered env2 r1.st f2).cpus f2 i
    (reset_record (entered env2 r1.st f2).cpus (env2.raw i)) = pa at hpa
  have hpard : pa.rd = none := by
    rw [← hpadef, (parse_slot_spec _ _ _ _).1]; rfl
  have hd := collect_data u2 env2.raw f2 (entered env2 r1.st f2) r1.sink e1 e2 e3
  have hd' := congrArg (fun x => x[i]?) hd
  simp only [List.getElem?_map, hb, hpa, Option.map_some', Option.some.injEq] at hd'
  unfold interrupt.data at hd'
  simp only [Prod.mk.injEq] at hd'
  obtain ⟨d1, d2, d3, d4, _⟩ := hd'
  obtain ⟨x0, tpost, c1, c2, _, _⟩ :=
    collect_calls u2 env2.raw f2 (entered env2 r1.st f2) r1.sink e1 e2 e3
  obtain ⟨pre, post, rd, x, l1, l2⟩ := aggregate_loop_resolve
    (parse_table env2.raw f2 (entered env2 r1.st f2)).do_per_core
    (parse_table env2.raw f2 (entered env2 r1.st f2)).cpus (aggregate_chart u2 r1.sink).1
    f2.length i pa (parse_table env2.raw f2 (entered env2 r1.st f2)).irrs
    (aggregate_chart u2 r1.sink).2 hpa hil (by rw [← d1]; exact hub) hpard
  refine ⟨[(Site.chart, SinkCall.rrdset_find_bytype "system".toList "softirqs".toList),
      (Site.chart, x0)] ++ pre, post ++ tpost, (aggregate_chart u2 r1.sink).1, rd, x, ?_, ?_⟩
  · rw [c2, l1, c1, d2, d4]; simp
  · rw [d2, d3]; exact l2

/-- C3 at the row `NET_RX`, with `table_two_rows` in the first cycle and `table_one_row` in the second: the row count goes from 3 to 2. -/
theorem row_count_change_resolves_again_witness :
    ∃ pre post st rd x,
      (do_proc_softirqs 1 (env_of table_one_row) cycle_one.st cycle_one.sink).sink.calls =
        cycle_one.sink.calls ++ pre ++
          [(Site.aggregate 1, SinkCall.rrddim_find st rec_net_rx.id), (Site.aggregate 1, x),
           (Site.aggregate 1, SinkCall.rrddim_set_by_pointer st rd rec_net_rx.total)] ++ post ∧
      (x = SinkCall.rrddim_add st rec_net_rx.id rec_net_rx.name ∨
        x = SinkCall.rrddim_set_name st rd rec_net_rx.name) :=
  row_count_change_resolves_again 1 1 (env_of table_two_rows) (env_of table_one_row) State.init
    Sink.empty table_two_rows table_one_row (Reachable.init _) successful_two_rows
    ⟨Or.inr rfl, rfl, by decide, by decide⟩ (by decide) 1 rec_net_rx (by decide) (by decide)

/-- C4 fails on the code at this input.  With per-core emission enabled, on the initial statics and the empty sink, the table `table_wrapping` has two used rows whose values in column 0 are both `2^63`, not zero; their sum in `unsigned long long` is zero, and the call creates no chart for column 0 and appends nothing for it: the only chart of the sink is the aggregate one and no call is recorded in a per-core loop. -/
theorem all_zero_check_wraps :
    (do_proc_softirqs 1 (env_of table_wrapping) State.init Sink.empty).ret = 0 ∧
    (do_proc_softirqs 1 (env_of table_wrapping) State.init Sink.empty).st.irrs.map
      (fun irr => (irr.used, irr.cpu.map (fun x => x.value))) =
      [(0, [0]), (1, [9223372036854775808]), (1, [9223372036854775808])] ∧
    (Sink.empty.sets.findIdx? (fun s => s.type = "cpu".toList ∧ s.id = cpu_chart_id 0)) = none ∧
    (do_proc_softirqs 1 (env_of table_wrapping) State.init Sink.empty).sink.sets =
      [{ type := "system".toList, id := "softirqs".toList }] ∧
    ∀ e ∈ (do_proc_softirqs 1 (env_of table_wrapping) State.init Sink.empty).sink.calls,
      e.1 = Site.chart ∨ ∃ l, e.1 = Site.aggregate l := by
  refine ⟨by decide, by decide, by decide, by decide, ?_⟩
  have h : ((do_proc_softirqs 1 (env_of table_wrapping) State.init Sink.empty).sink.calls.map
      (fun e => e.1.row.isNone || decide (e.1 = Site.aggregate (e.1.row.getD 0)))).all id = true := by
    decide
  intro e he
  rw [List.all_eq_true] at h
  have := h _ (List.mem_map_of_mem _ he)
  simp only [id, Bool.or_eq_true, decide_eq_true_eq] at this
  rcases this with h1 | h1
  · left
    cases hs : e.1 with
    | chart => rfl
    | aggregate l => rw [hs] at h1; simp [Site.row] at h1
    | percore c l => rw [hs] at h1; simp [Site.row] at h1
  · right
    exact ⟨_, h1⟩

/-- C5 as stated fails at this input.  After the first cycle on `table_two_rows` the store is sized for 3 rows and 2 columns; the call `get_interrupts_array(3, 3)`, with the same row count and another column count, returns the store as it is: the records of rows 1 and 2 keep their aggregate handles, their names and their per-core handles. -/
theorem column_change_alone_resets_nothing :
    cycle_one.st.allocated = 3 ∧ cycle_one.st.cpus = 2 ∧
    (get_interrupts_array cycle_one.st 3 3 (fun _ => default)).irrs.map (fun irr => irr.rd) =
      [none, some 0, some 1] ∧
    (get_interrupts_array cycle_one.st 3 3 (fun _ => default)).irrs.map (fun irr => irr.name) =
      [[], "NET_RX".toList, "TIMER".toList] ∧
    (get_interrupts_array cycle_one.st 3 3 (fun _ => default)).irrs.map
      (fun irr => irr.cpu.map (fun x => x.rd)) =
      [[none, none], [some 2, some 4], [some 3, some 5]] := by
  decide

/-- C5, amended.  `get_interrupts_array(lines, cpus)` compares the row count only.  When `lines` is the row count the store was last sized with, the store is returned as it is, whatever `cpus` is.  When it is not, the store holds `lines` records afterwards and every record has an empty aggregate handle, an empty name, one slot for each of the `cpus` columns and an empty handle in each slot. -/
theorem get_interrupts_array_resets_on_row_count (s : State) (lines : Nat) (cpus : Int)
    (raw : Nat → interrupt) :
    (lines = s.allocated ∧ get_interrupts_array s lines cpus raw = s) ∨
    (lines ≠ s.allocated ∧
      (get_interrupts_array s lines cpus raw).allocated = lines ∧
      (get_interrupts_array s lines cpus raw).irrs.length = lines ∧
      ∀ irr ∈ (get_interrupts_array s lines cpus raw).irrs,
        irr.rd = none ∧ irr.name = [] ∧ irr.cpu.length = cpus.toNat ∧
        ∀ x ∈ irr.cpu, x.rd = none) := by
  by_cases h : lines = s.allocated
  · exact Or.inl ⟨h, get_interrupts_array_eq cpus raw h⟩
  · right
    rw [get_interrupts_array_ne cpus raw h]
    refine ⟨h, rfl, by simp, ?_⟩
    intro irr hi
    simp only [List.mem_map] at hi
    obtain ⟨l, _, hl⟩ := hi
    rw [← hl]
    exact reset_record_spec cpus (raw l)

/-- C6. In a successful cycle, the record of a line past the header whose first word `t` is not empty is used and its id, the key of its series in the sink, is `t` without its last character when that is a colon, and `t` itself otherwise: "NET_RX:" gives "NET_RX", "NET_RX" stays, and "A::" gives "A:". -/
theorem identifier_strips_one_colon (u : Int) (env : Env) (s : State) (k : Sink)
    (f : List (List CStr)) (hr : Reachable s k) (hs : Successful env s f) (l : Nat)
    (t : CStr) (rest : List CStr) (hl1 : 1 ≤ l) (hl : l < f.length)
    (hws : f.getD l [] = t :: rest) (ht : t ≠ []) :
    (∃ irr, (do_proc_softirqs u env s k).st.irrs[l]? = some irr ∧ irr.used = 1 ∧
      irr.id = if t.getLast? = some ':' then t.dropLast else t) ∧
    strip_colon "NET_RX:".toList = "NET_RX".toList ∧
    strip_colon "NET_RX".toList = "NET_RX".toList ∧
    strip_colon "A::".toList = "A:".toList := by
  refine ⟨?_, by decide, by decide, by decide⟩
  obtain ⟨irr, b, h1, h2, h3⟩ :=
    cycle_used_slot u env s k f (reachable_inv hr) hs l t rest hl1 hl hws
  obtain ⟨q1, q2, _⟩ := parse_line_used (columns s f) t rest b ht h2
  unfold interrupt.data at h3
  simp only [Prod.mk.injEq] at h3
  exact ⟨irr, h1, by rw [h3.1, q1], by rw [h3.2.1, q2, strip_colon_eq]⟩

/-- C6 at the row `NET_RX: 10 20` of the first cycle on `table_two_rows`. -/
theorem identifier_strips_one_colon_witness :
    (∃ irr, (do_proc_softirqs 1 (env_of table_two_rows) State.init Sink.empty).st.irrs[1]? =
        some irr ∧ irr.used = 1 ∧
      irr.id = if "NET_RX:".toList.getLast? = some ':' then "NET_RX:".toList.dropLast
        else "NET_RX:".toList) ∧
    strip_colon "NET_RX:".toList = "NET_RX".toList ∧
    strip_colon "NET_RX".toList = "NET_RX".toList ∧
    strip_colon "A::".toList = "A:".toList :=
  identifier_strips_one_colon 1 (env_of table_two_rows) State.init Sink.empty table_two_rows
    (Reachable.init _) successful_two_rows 1 "NET_RX:".toList ["10".toList, "20".toList]
    (by decide) (by decide) (by decide) (by decide)

/-- C7. In a successful cycle, the record of a line past the header whose first word is not empty is marked used whatever the number of its words, the call returns 0, and for every column `c` below the column count the value of the record is the number `strtoull` reads from word `c + 1` when the line has such a word, and 0 when it has not. -/
theorem missing_columns_are_zero (u : Int) (env : Env) (s : State) (k : Sink)
    (f : List (List CStr)) (hr : Reachable s k) (hs : Successful env s f) (l : Nat)
    (t : CStr) (rest : List CStr) (hl1 : 1 ≤ l) (hl : l < f.length)
    (hws : f.getD l [] = t :: rest) (ht : t ≠ []) :
    (do_proc_softirqs u env s k).ret = 0 ∧
    ∃ irr, (do_proc_softirqs u env s k).st.irrs[l]? = some irr ∧ irr.used = 1 ∧
      irr.cpu.length = (columns s f).toNat ∧
      ∀ c, c < (columns s f).toNat →
        (irr.cpu.getD c default).value =
          if c + 1 < (t :: rest).length then strtoull ((t :: rest).getD (c + 1) []) else 0 := by
  obtain ⟨_, _, _, hret⟩ := cycle_length u env s k f (reachable_inv hr) hs
  obtain ⟨irr, b, h1, h2, h3⟩ :=
    cycle_used_slot u env s k f (reachable_inv hr) hs l t rest hl1 hl hws
  obtain ⟨q1, _, _, q4, _⟩ := parse_line_used (columns s f) t rest b ht h2
  unfold interrupt.data at h3
  simp only [Prod.mk.injEq] at h3
  obtain ⟨d1, _, _, _, d5⟩ := h3
  rw [q4] at d5
  have hlen : irr.cpu.length = (columns s f).toNat := by
    have := congrArg List.length d5
    simpa using this
  refine ⟨hret, irr, h1, by rw [d1, q1], hlen, ?_⟩
  intro c hc
  have h5 := congrArg (fun x => x[c]?) d5
  have hc' : c < irr.cpu.length := by rw [hlen]; exact hc
  simp only [List.getElem?_map, List.getElem?_eq_getElem hc', Option.map_some',
    List.getElem?_range hc, Option.some.injEq] at h5
  simp only [List.getD_eq_getElem?_getD, List.getElem?_eq_getElem hc', Option.getD_some]
  rw [h5]
  simp [column_value]

/-- C7 at the row `TIMER: 7` of a table with two columns: the row has one value word only. -/
theorem missing_columns_are_zero_witness :
    (do_proc_softirqs 1 (env_of [["CPU0".toList, "CPU1".toList], ["TIMER:".toList, "7".toList]])
      State.init Sink.empty).ret = 0 ∧
    ∃ irr, (do_proc_softirqs 1
        (env_of [["CPU0".toList, "CPU1".toList], ["TIMER:".toList, "7".toList]])
        State.init Sink.empty).st.irrs[1]? = some irr ∧ irr.used = 1 ∧
      irr.cpu.length =
        (columns State.init [["CPU0".toList, "CPU1".toList], ["TIMER:".toList, "7".toList]]).toNat ∧
      ∀ c, c < (columns State.init
          [["CPU0".toList, "CPU1".toList], ["TIMER:".toList, "7".toList]]).toNat →
        (irr.cpu.getD c default).value =
          if c + 1 < ("TIMER:".toList :: ["7".toList]).length
          then strtoull (("TIMER:".toList :: ["7".toList]).getD (c + 1) []) else 0 :=
  missing_columns_are_zero 1
    (env_of [["CPU0".toList, "CPU1".toList], ["TIMER:".toList, "7".toList]])
    State.init Sink.empty [["CPU0".toList, "CPU1".toList], ["TIMER:".toList, "7".toList]]
    (Reachable.init _) ⟨Or.inr rfl, rfl, by decide, by decide⟩ 1 "TIMER:".toList ["7".toList]
    (by decide) (by decide) (by decide) (by decide)

/-- C8. The end-to-end scenario: on the initial statics and the empty sink, with per-core emission enabled, one call on the table with header `CPU0 CPU1` and rows `NET_RX: 10 20` and `TIMER: 5 0` returns 0 and leaves the sink `scenario_sink`: the aggregate chart with `NET_RX = 30` and `TIMER = 5`, the chart created for column 0 with `NET_RX = 10` and `TIMER = 5`, the chart created for column 1 with `NET_RX = 20` and `TIMER = 0`; no call is recorded for row 0, the header. -/
theorem scenario_two_rows :
    (do_proc_softirqs 1 (env_of table_two_rows) State.init Sink.empty).ret = 0 ∧
    (do_proc_softirqs 1 (env_of table_two_rows) State.init Sink.empty).sink = scenario_sink ∧
    ∀ e ∈ (do_proc_softirqs 1 (env_of table_two_rows) State.init Sink.empty).sink.calls,
      e.1.row ≠ some 0 := by
  decide

/-- C9. A faulting cycle is a no-op on the record store and on the sink: when the table reader fails, or the table has zero rows, or the column count is zero, the call makes no sink call (the sink, with its record of calls, is the one it was given), and leaves the records and the allocated row count of the store as they were; with zero rows or zero columns it returns 1. -/
theorem faulting_cycle_is_noop (u : Int) (env : Env) (s : State) (k : Sink)
    (h : env.file = none ∨ env.file = some [] ∨ ∃ f, env.file = some f ∧ columns s f = 0) :
    (do_proc_softirqs u env s k).sink = k ∧
    (do_proc_softirqs u env s k).st.irrs = s.irrs ∧
    (do_proc_softirqs u env s k).st.allocated = s.allocated ∧
    (env.file ≠ none → (do_proc_softirqs u env s k).ret = 1) := by
  unfold do_proc_softirqs
  rcases h with h | h | ⟨f, h, hc⟩
  · simp only [h]
    split_ifs <;> simp
  · simp only [h]
    split_ifs <;> simp_all
  · simp only [h]
    unfold columns at hc
    by_cases h1 : s.cpus = -1
    · simp only [h1] at hc ⊢
      split_ifs <;> simp_all
    · simp only [h1] at hc ⊢
      split_ifs <;> simp_all

/-- C9 at a first call that reads a table without lines. -/
theorem faulting_cycle_is_noop_witness :
    (do_proc_softirqs 1 { per_core := 1, open_ok := true, file := some [], raw := fun _ => default }
      State.init Sink.empty).sink = Sink.empty ∧
    (do_proc_softirqs 1 { per_core := 1, open_ok := true, file := some [], raw := fun _ => default }
      State.init Sink.empty).st.irrs = State.init.irrs ∧
    (do_proc_softirqs 1 { per_core := 1, open_ok := true, file := some [], raw := fun _ => default }
      State.init Sink.empty).st.allocated = State.init.allocated ∧
    ((some [] : Option (List (List CStr))) ≠ none →
      (do_proc_softirqs 1
        { per_core := 1, open_ok := true, file := some [], raw := fun _ => default }
        State.init Sink.empty).ret = 1) :=
  faulting_cycle_is_noop 1
    { per_core := 1, open_ok := true, file := some [], raw := fun _ => default }
    State.init Sink.empty (Or.inr (Or.inl rfl))

/-- C10 as stated fails at this input.  The first call reads `table_no_cpu`, whose header has no word starting with "CPU", and faults with 1.  The second call reads `table_two_rows`, whose header has two such words; it does not count them: it returns 1 again, the column count is still 0 and the sink has received no call. -/
theorem zero_column_count_is_kept :
    (do_proc_softirqs 1 (env_of table_no_cpu) State.init Sink.empty).ret = 1 ∧
    count_cpus (table_two_rows.getD 0 []) = 2 ∧
    (do_proc_softirqs 1 (env_of table_two_rows)
      (do_proc_softirqs 1 (env_of table_no_cpu) State.init Sink.empty).st
      (do_proc_softirqs 1 (env_of table_no_cpu) State.init Sink.empty).sink).ret = 1 ∧
    (do_proc_softirqs 1 (env_of table_two_rows)
      (do_proc_softirqs 1 (env_of table_no_cpu) State.init Sink.empty).st
      (do_proc_softirqs 1 (env_of table_no_cpu) State.init Sink.empty).sink).st.cpus = 0 ∧
    (do_proc_softirqs 1 (env_of table_two_rows)
      (do_proc_softirqs 1 (env_of table_no_cpu) State.init Sink.empty).st
      (do_proc_softirqs 1 (env_of table_no_cpu) State.init Sink.empty).sink).sink = Sink.empty := by
  decide

/-- C10, amended.  The column count is settled by the first call that reads a table with at least one line: it becomes the number of words of the header that start with "CPU".  When this number is not zero the call returns 0, sizes the store for the lines of the table and goes on to emission, starting with the lookup of the aggregate chart.  When it is zero the call returns 1 without any sink call and the count is 0; and from a count of 0 every call leaves the sink as it is, keeps the count at 0 and returns 1 whenever it reads a table, whatever the header of that table. -/
theorem column_count_settled_by_first_table (u : Int) (env : Env) (s : State) (k : Sink)
    (f : List (List CStr)) (hr : Reachable s k) (hc : s.cpus = -1)
    (hopen : s.ff = true ∨ env.open_ok = true) (hf : env.file = some f) (hne : f ≠ []) :
    (do_proc_softirqs u env s k).st.cpus =
      ((f.getD 0 []).countP (fun w => w.take 3 = "CPU".toList) : Nat) ∧
    ((do_proc_softirqs u env s k).st.cpus ≠ 0 →
      (do_proc_softirqs u env s k).ret = 0 ∧
      (do_proc_softirqs u env s k).st.allocated = f.length ∧
      ∃ t, (do_proc_softirqs u env s k).sink.calls = k.calls ++
        (Site.chart, SinkCall.rrdset_find_bytype "system".toList "softirqs".toList) :: t) ∧
    ((do_proc_softirqs u env s k).st.cpus = 0 →
      (do_proc_softirqs u env s k).ret = 1 ∧ (do_proc_softirqs u env s k).sink = k) ∧
    ∀ (u' : Int) (env' : Env) (s' : State) (k' : Sink), s'.cpus = 0 →
      (do_proc_softirqs u' env' s' k').sink = k' ∧
      (do_proc_softirqs u' env' s' k').st.cpus = 0 ∧
      ∀ f', env'.file = some f' → (do_proc_softirqs u' env' s' k').ret = 1 := by
  have hcol : columns s f = count_cpus (f.getD 0 []) := by simp [columns, hc]
  have hinv := reachable_inv hr
  have hcpus : (do_proc_softirqs u env s k).st.cpus = count_cpus (f.getD 0 []) := by
    by_cases hz : count_cpus (f.getD 0 []) = 0
    · have hl : f.length ≠ 0 := by simpa using hne
      unfold do_proc_softirqs
      simp only [hf]
      split_ifs <;> simp_all
    · have hs : Successful env s f := ⟨hopen, hf, hne, by rw [hcol]; exact hz⟩
      rw [(cycle_length u env s k f hinv hs).2.2.1, hcol]
  refine ⟨by rw [hcpus, count_cpus_eq_countP], ?_, ?_, ?_⟩
  · intro hnz
    rw [hcpus] at hnz
    have hs : Successful env s f := ⟨hopen, hf, hne, by rw [hcol]; exact hnz⟩
    obtain ⟨_, h2, _, h4⟩ := cycle_length u env s k f hinv hs
    refine ⟨h4, h2, ?_⟩
    rw [do_proc_softirqs_successful u env s k f hs]
    obtain ⟨e1, e2, e3⟩ := entered_inv env _ _ f hinv
    obtain ⟨x0, tpost, c1, c2, _, _⟩ := collect_calls u env.raw f (entered env s f) k e1 e2 e3
    obtain ⟨t, ht, _⟩ := for_lines_ext (fun _ => True)
      (aggregate_line (parse_table env.raw f (entered env s f)).do_per_core
        (parse_table env.raw f (entered env s f)).cpus (aggregate_chart u k).1)
      (fun l irr k' => (aggregate_line_ext _ _ _ l irr k').mono (fun _ _ => trivial))
      (List.range f.length) (parse_table env.raw f (entered env s f)).irrs (aggregate_chart u k).2
    exact ⟨(Site.chart, x0) :: t ++ tpost, by rw [c2, ht, c1]; simp⟩
  · intro hz
    rw [hcpus] at hz
    have hns : ¬ ∃ f', Successful env s f' := by
      rintro ⟨f', _, h2, _, h4⟩
      rw [hf] at h2
      cases h2
      exact h4 (by rw [hcol]; exact hz)
    refine ⟨?_, (do_proc_softirqs_fault u env s k hns).1⟩
    have hl : f.length ≠ 0 := by simpa using hne
    unfold do_proc_softirqs
    simp only [hf]
    split_ifs <;> simp_all
  · intro u' env' s' k' hs'
    obtain ⟨h1, h2, _, h4⟩ := zero_columns_stick u' env' s' k' hs'
    exact ⟨h1, h2, h4⟩

/-- C10, amended, at a first call that reads `table_no_cpu`. -/
theorem column_count_settled_by_first_table_witness :
    (do_proc_softirqs 1 (env_of table_no_cpu) State.init Sink.empty).st.cpus =
      ((table_no_cpu.getD 0 []).countP (fun w => w.take 3 = "CPU".toList) : Nat) ∧
    ((do_proc_softirqs 1 (env_of table_no_cpu) State.init Sink.empty).st.cpus ≠ 0 →
      (do_proc_softirqs 1 (env_of table_no_cpu) State.init Sink.empty).ret = 0 ∧
      (do_proc_softirqs 1 (env_of table_no_cpu) State.init Sink.empty).st.allocated =
        table_no_cpu.length ∧
      ∃ t, (do_proc_softirqs 1 (env_of table_no_cpu) State.init Sink.empty).sink.calls =
        Sink.empty.calls ++
        (Site.chart, SinkCall.rrdset_find_bytype "system".toList "softirqs".toList) :: t) ∧
    ((do_proc_softirqs 1 (env_of table_no_cpu) State.init Sink.empty).st.cpus = 0 →
      (do_proc_softirqs 1 (env_of table_no_cpu) State.init Sink.empty).ret = 1 ∧
      (do_proc_softirqs 1 (env_of table_no_cpu) State.init Sink.empty).sink = Sink.empty) ∧
    ∀ (u' : Int) (env' : Env) (s' : State) (k' : Sink), s'.cpus = 0 →
      (do_proc_softirqs u' env' s' k').sink = k' ∧
      (do_proc_softirqs u' env' s' k').st.cpus = 0 ∧
      ∀ f', env'.file = some f' → (do_proc_softirqs u' env' s' k').ret = 1 :=
  column_count_settled_by_first_table 1 (env_of table_no_cpu) State.init Sink.empty table_no_cpu
    (Reachable.init _) rfl (Or.inr rfl) rfl (by decide)

/-- C14. After a successful cycle the record of row `l` is marked used if and only if `l` is at least 1 and line `l` of the table just read has a first word that is not empty; and every call the cycle records for a row is for a row of this kind, whatever used flags the store or the reallocated memory held before. -/
theorem used_iff_line_has_identifier (u : Int) (env : Env) (s : State) (k : Sink)
    (f : List (List CStr)) (hr : Reachable s k) (hs : Successful env s f) (l : Nat)
    (irr : interrupt) (hi : (do_proc_softirqs u env s k).st.irrs[l]? = some irr) :
    (irr.used ≠ 0 ↔ (1 ≤ l ∧ ∃ t rest, f.getD l [] = t :: rest ∧ t ≠ [])) ∧
    ∃ T, (do_proc_softirqs u env s k).sink.calls = k.calls ++ T ∧
      ∀ e ∈ T, ∀ l', e.1.row = some l' →
        1 ≤ l' ∧ ∃ t rest, f.getD l' [] = t :: rest ∧ t ≠ [] := by
  refine ⟨cycle_used_iff u env s k f (reachable_inv hr) hs l irr hi, ?_⟩
  obtain ⟨T, hT, hP⟩ := call_row_calls u env s k
  refine ⟨T, hT, ?_⟩
  intro e he l' hl'
  obtain ⟨h1, _⟩ := hP e he l' hl'
  cases hx : (do_proc_softirqs u env s k).st.irrs[l']? with
  | none =>
    simp only [List.getD_eq_getElem?_getD, hx, Option.getD_none] at h1
    exact absurd rfl h1
  | some x =>
    simp only [List.getD_eq_getElem?_getD, hx, Option.getD_some] at h1
    exact (cycle_used_iff u env s k f (reachable_inv hr) hs l' x hx).mp h1

/-- C14 at row 1 of the first cycle on `table_two_rows`. -/
theorem used_iff_line_has_identifier_witness :
    (rec_net_rx.used ≠ 0 ↔
      (1 ≤ 1 ∧ ∃ t rest, table_two_rows.getD 1 [] = t :: rest ∧ t ≠ [])) ∧
    ∃ T, (do_proc_softirqs 1 (env_of table_two_rows) State.init Sink.empty).sink.calls =
        Sink.empty.calls ++ T ∧
      ∀ e ∈ T, ∀ l', e.1.row = some l' →
        1 ≤ l' ∧ ∃ t rest, table_two_rows.getD l' [] = t :: rest ∧ t ≠ [] :=
  used_iff_line_has_identifier 1 (env_of table_two_rows) State.init Sink.empty table_two_rows
    (Reachable.init _) successful_two_rows 1 rec_net_rx (by decide)

/-- C12. The header row is never emitted.  Whatever the call, from any reachable state and with any contents of the table, of the store and of reallocated memory, no call is recorded for row 0, in the aggregate loop or in a per-core loop; after a successful cycle record 0 is marked unused, as it is from line 94 on; and over records whose record 0 is unused, the sum of the all-zero check of a column runs over the rows from 1 on only. -/
theorem header_row_never_emitted (u : Int) (env : Env) (s : State) (k : Sink)
    (hr : Reachable s k) :
    (∃ T, (do_proc_softirqs u env s k).sink.calls = k.calls ++ T ∧
      ∀ e ∈ T, e.1.row ≠ some 0) ∧
    (∀ f, Successful env s f →
      ∀ irr, (do_proc_softirqs u env s k).st.irrs[0]? = some irr → irr.used = 0) ∧
    ∀ (irrs : List interrupt) (lines c : Nat), (irrs.getD 0 default).used = 0 →
      core_sum irrs lines c =
        (List.range' 1 (lines - 1)).foldl
          (fun sum l =>
            if (irrs.getD l default).used = 0 then sum
            else (sum + ((irrs.getD l default).cpu.getD c default).value) % U64)
          0 := by
  have h2 : ∀ f, Successful env s f →
      ∀ irr, (do_proc_softirqs u env s k).st.irrs[0]? = some irr → irr.used = 0 := by
    intro f hs irr hi
    by_contra hu
    have := (cycle_used_iff u env s k f (reachable_inv hr) hs 0 irr hi).mp hu
    omega
  refine ⟨?_, h2, core_sum_skips_unused_header⟩
  by_cases hs : ∃ f, Successful env s f
  · obtain ⟨f, hf⟩ := hs
    obtain ⟨T, hT, hP⟩ := call_row_calls u env s k
    refine ⟨T, hT, ?_⟩
    intro e he h0
    obtain ⟨h1, _⟩ := hP e he 0 h0
    cases hx : (do_proc_softirqs u env s k).st.irrs[0]? with
    | none =>
      simp only [List.getD_eq_getElem?_getD, hx, Option.getD_none] at h1
      exact absurd rfl h1
    | some x =>
      simp only [List.getD_eq_getElem?_getD, hx, Option.getD_some] at h1
      exact h1 (h2 f hf x hx)
  · exact ⟨[], by rw [(do_proc_softirqs_fault u env s k hs).1]; simp, by simp⟩

/-- C12 at the second cycle on `table_two_rows`. -/
theorem header_row_never_emitted_witness :
    (∃ T, (do_proc_softirqs 1 (env_of table_two_rows) cycle_one.st cycle_one.sink).sink.calls =
        cycle_one.sink.calls ++ T ∧
      ∀ e ∈ T, e.1.row ≠ some 0) ∧
    (∀ f, Successful (env_of table_two_rows) cycle_one.st f →
      ∀ irr, (do_proc_softirqs 1 (env_of table_two_rows) cycle_one.st cycle_one.sink).st.irrs[0]? =
        some irr → irr.used = 0) ∧
    ∀ (irrs : List interrupt) (lines c : Nat), (irrs.getD 0 default).used = 0 →
      core_sum irrs lines c =
        (List.range' 1 (lines - 1)).foldl
          (fun sum l =>
            if (irrs.getD l default).used = 0 then sum
            else (sum + ((irrs.getD l default).cpu.getD c default).value) % U64)
          0 :=
  header_row_never_emitted 1 (env_of table_two_rows) cycle_one.st cycle_one.sink
    (Reachable.step 1 (env_of table_two_rows) State.init Sink.empty (Reachable.init _))

/-- C11 fails on the code at this input.  The first cycle reads one row with the 51 characters `long_id '1'` as id and creates its series; the second reads, in the same slot and with the same row count, a row with the id `long_id '2'` and the value 7.  The names of the two rows are the same 50 characters, so the handle is not found stale: the only call of the aggregate loop is the append of 7 through the handle of the first row, whose key is `long_id '1'`, and the sink has no series with the key `long_id '2'`. -/
theorem long_identifier_change_is_missed :
    cycle_long.ret = 0 ∧
    (do_proc_softirqs 1 (env_of (table_long '2' "7".toList)) cycle_long.st cycle_long.sink).ret
      = 0 ∧
    (do_proc_softirqs 1 (env_of (table_long '2' "7".toList)) cycle_long.st
      cycle_long.sink).st.irrs.map (fun irr => (irr.used, irr.id, irr.rd, irr.total)) =
      [(0, [], none, 0), (1, long_id '2', some 0, 7)] ∧
    ((do_proc_softirqs 1 (env_of (table_long '2' "7".toList)) cycle_long.st
      cycle_long.sink).sink.calls.drop cycle_long.sink.calls.length).filter
        (fun e => e.1 = Site.aggregate 1) =
      [(Site.aggregate 1, SinkCall.rrddim_set_by_pointer 0 0 7)] ∧
    (do_proc_softirqs 1 (env_of (table_long '2' "7".toList)) cycle_long.st
      cycle_long.sink).sink.dim_id 0 = long_id '1' ∧
    (do_proc_softirqs 1 (env_of (table_long '2' "7".toList)) cycle_long.st
      cycle_long.sink).sink.dims.map (fun d => (d.st, d.id, d.collected)) =
      [(0, long_id '1', [5, 7]), (1, long_id '1', [5, 7])] := by
  decide

/-- C16 fails on the code at this input.  The row `: 5` has a first word that is not empty, so it is marked used; the colon is stripped after the test, which leaves the empty id, and the empty string is the key passed to `rrddim_find` and `rrddim_add`. -/
theorem colon_alone_gives_empty_identifier :
    (do_proc_softirqs 1 (env_of table_colon) State.init Sink.empty).ret = 0 ∧
    (do_proc_softirqs 1 (env_of table_colon) State.init Sink.empty).st.irrs.map
      (fun irr => (irr.used, irr.id)) = [(0, []), (1, [])] ∧
    (do_proc_softirqs 1 (env_of table_colon) State.init Sink.empty).sink.calls.filter
      (fun e => e.1 = Site.aggregate 1) =
      [(Site.aggregate 1, SinkCall.rrddim_find 0 []),
       (Site.aggregate 1, SinkCall.rrddim_add 0 [] []),
       (Site.aggregate 1, SinkCall.rrddim_set_by_pointer 0 0 5)] := by
  decide

/-- C19 as stated fails at this input.  The row with the 51 characters `long_id '1'` as id is used, and its name, the label passed to `rrddim_add`, is the first 50 characters only. -/
theorem long_identifier_name_is_cut :
    cycle_long.st.irrs.map (fun irr => (irr.used, irr.id, irr.name)) =
      [(0, [], []), (1, long_id '1', List.replicate 50 'a')] ∧
    List.replicate 50 'a' ≠ long_id '1' ∧
    (Site.aggregate 1, SinkCall.rrddim_add 0 (long_id '1') (List.replicate 50 'a')) ∈
      cycle_long.sink.calls := by
  decide

/-- C19, amended.  After every call, from any reachable state, the name of a used record is its id cut to the first 50 characters (`MAX_INTERRUPT_NAME`), hence the id itself when the id has at most 50 characters; and this name is the label of every `rrddim_add` and `rrddim_set_name` the call records for the row, whose `rrddim_add` carries the id as key. -/
theorem name_is_identifier_cut_to_50 (u : Int) (env : Env) (s : State) (k : Sink)
    (hr : Reachable s k) (l : Nat) (irr : interrupt) (hi : (do_proc_softirqs u env s k).st.irrs[l]? = some irr)
    (hu : irr.used ≠ 0) :
    irr.name = irr.id.take 50 ∧
    (irr.id.length ≤ 50 → irr.name = irr.id) ∧
    ∃ T, (do_proc_softirqs u env s k).sink.calls = k.calls ++ T ∧
      ∀ e ∈ T, e.1.row = some l →
        (∀ st id name, e.2 = SinkCall.rrddim_add st id name → id = irr.id ∧ name = irr.name) ∧
        (∀ st rd name, e.2 = SinkCall.rrddim_set_name st rd name → name = irr.name) := by
  have hinv := do_proc_softirqs_inv u env s k (reachable_inv hr)
  have hname : irr.name = irr.id.take 50 :=
    (hinv.recs irr (List.mem_iff_getElem?.mpr ⟨l, hi⟩)).1 hu
  refine ⟨hname, fun hlen => by rw [hname, List.take_of_length_le hlen], ?_⟩
  obtain ⟨T, hT, hP⟩ := call_row_calls u env s k
  refine ⟨T, hT, ?_⟩
  intro e he hl
  obtain ⟨_, h2⟩ := hP e he l hl
  simp only [List.getD_eq_getElem?_getD, hi, Option.getD_some] at h2
  obtain ⟨site, call⟩ := e
  constructor
  · intro st id name hc
    simp only at hc
    subst hc
    cases site <;> simp_all [row_call, call_for, Site.row]
  · intro st rd name hc
    simp only at hc
    subst hc
    cases site <;> simp_all [row_call, call_for, Site.row]

/-- C19, amended, at the row `NET_RX` of the first cycle on `table_two_rows`. -/
theorem name_is_identifier_cut_to_50_witness :
    rec_net_rx.name = rec_net_rx.id.take 50 ∧
    (rec_net_rx.id.length ≤ 50 → rec_net_rx.name = rec_net_rx.id) ∧
    ∃ T, (do_proc_softirqs 1 (env_of table_two_rows) State.init Sink.empty).sink.calls =
        Sink.empty.calls ++ T ∧
      ∀ e ∈ T, e.1.row = some 1 →
        (∀ st id name, e.2 = SinkCall.rrddim_add st id name →
          id = rec_net_rx.id ∧ name = rec_net_rx.name) ∧
        (∀ st rd name, e.2 = SinkCall.rrddim_set_name st rd name → name = rec_net_rx.name) :=
  name_is_identifier_cut_to_50 1 (env_of table_two_rows) State.init Sink.empty
    (Reachable.init _) 1 rec_net_rx (by decide) (by decide)

/-- C17. In a successful cycle without reallocation (the table has as many lines as the store has records), the record of a row past the header whose line has no word or an empty first word is left as it was but for its used flag, which is cleared: its aggregate handle, its name and its per-core slots, handles and values, are those it had before the call, and no call is recorded for the row. -/
theorem unused_row_keeps_slot (u : Int) (env : Env) (s : State) (k : Sink)
    (f : List (List CStr)) (hs : Successful env s f) (hsame : f.length = s.allocated)
    (l : Nat) (hl1 : 1 ≤ l) (hl : l < f.length)
    (hws : f.getD l [] = [] ∨ (f.getD l []).head? = some []) (a : interrupt)
    (ha : s.irrs[l]? = some a) :
    (∃ irr, (do_proc_softirqs u env s k).st.irrs[l]? = some irr ∧ irr.used = 0 ∧
      irr.rd = a.rd ∧ irr.name = a.name ∧ irr.cpu = a.cpu) ∧
    ∃ T, (do_proc_softirqs u env s k).sink.calls = k.calls ++ T ∧
      ∀ e ∈ T, e.1.row ≠ some l := by
  obtain ⟨p1, p2, p3, p4⟩ := parse_line_unused_keeps (columns s f) (f.getD l []) a hws
  have hgia : get_interrupts_array (entered env s f) f.length (entered env s f).cpus env.raw =
      entered env s f := get_interrupts_array_eq _ _ hsame
  have hpa : (parse_table env.raw f (entered env s f)).irrs[l]? =
      some (parse_line (columns s f) (f.getD l []) a) := by
    rw [parse_table_getElem?, hgia]
    have : (entered env s f).irrs[l]? = some a := ha
    rw [this]
    have h0 : l ≠ 0 := by omega
    simp [parse_slot, h0, hl, entered]
  have hfin : (do_proc_softirqs u env s k).st.irrs[l]? =
      some (parse_line (columns s f) (f.getD l []) a) := by
    rw [do_proc_softirqs_successful u env s k f hs]
    exact collect_keeps_unused u env.raw f (entered env s f) k l _ p1 hpa
  refine ⟨⟨_, hfin, p1, p2, p3, p4⟩, ?_⟩
  obtain ⟨T, hT, hP⟩ := call_row_calls u env s k
  refine ⟨T, hT, ?_⟩
  intro e he hrow
  obtain ⟨h1, _⟩ := hP e he l hrow
  have h1' : ((do_proc_softirqs u env s k).st.irrs.getD l default).used ≠ 0 := h1
  rw [getD_of_getElem? hfin] at h1'
  exact h1' p1

/-- C17 at the row `TIMER` of `table_two_rows`, whose line is empty in the second cycle. -/
theorem unused_row_keeps_slot_witness :
    (∃ irr, (do_proc_softirqs 1 (env_of table_timer_gone) cycle_one.st
        cycle_one.sink).st.irrs[2]? = some irr ∧ irr.used = 0 ∧
      irr.rd = rec_timer.rd ∧ irr.name = rec_timer.name ∧ irr.cpu = rec_timer.cpu) ∧
    ∃ T, (do_proc_softirqs 1 (env_of table_timer_gone) cycle_one.st cycle_one.sink).sink.calls =
        cycle_one.sink.calls ++ T ∧
      ∀ e ∈ T, e.1.row ≠ some 2 :=
  unused_row_keeps_slot 1 (env_of table_timer_gone) cycle_one.st cycle_one.sink table_timer_gone
    ⟨Or.inr rfl, rfl, by decide, by decide⟩ (by decide) 2 (by decide) (by decide)
    (Or.inl (by decide)) rec_timer (by decide)

/-- C18. The column count is fixed once discovered.  A successful cycle that starts with the count not settled sets it to the number of words of its header whose first three characters are "CPU", which is at least 1.  From a count `k` that is at least 1, every call keeps the count `k`, and every successful cycle works with `k` columns whatever its header holds: every record has `k` slots, the values of a used record are those of the first `k` value words of its line, its total is their sum modulo `2^64`, and the calls recorded in per-core loops are for columns below `k`. -/
theorem column_count_is_fixed (u : Int) (env : Env) (s : State) (k : Sink)
    (hr : Reachable s k) :
    (∀ f, s.cpus = -1 → Successful env s f →
      (do_proc_softirqs u env s k).st.cpus =
        ((f.getD 0 []).countP (fun w => w.take 3 = "CPU".toList) : Nat) ∧
      1 ≤ (do_proc_softirqs u env s k).st.cpus) ∧
    (1 ≤ s.cpus →
      (do_proc_softirqs u env s k).st.cpus = s.cpus ∧
      ∀ f, Successful env s f →
        (∀ irr ∈ (do_proc_softirqs u env s k).st.irrs, irr.cpu.length = s.cpus.toNat) ∧
        (∀ l irr, (do_proc_softirqs u env s k).st.irrs[l]? = some irr → irr.used ≠ 0 →
          irr.cpu.map (fun x => x.value) =
            (List.range s.cpus.toNat).map (column_value (f.getD l [])) ∧
          irr.total = (irr.cpu.map (fun x => x.value)).sum % 2 ^ 64) ∧
        ∃ T, (do_proc_softirqs u env s k).sink.calls = k.calls ++ T ∧
          ∀ e ∈ T, ∀ c l, e.1 = Site.percore c l → c < s.cpus.toNat) := by
  have hinv := reachable_inv hr
  constructor
  · intro f hc hs
    have hcol : columns s f = count_cpus (f.getD 0 []) := by simp [columns, hc]
    have h1 := (cycle_length u env s k f hinv hs).2.2.1
    have h2 : columns s f ≠ 0 := hs.2.2.2
    have h3 := count_cpus_nonneg (f.getD 0 [])
    rw [h1, hcol]
    rw [hcol] at h2
    exact ⟨count_cpus_eq_countP _, by omega⟩
  · intro hk
    have hne : s.cpus ≠ -1 := by omega
    have hcol : ∀ f, columns s f = s.cpus := by intro f; simp [columns, hne]
    constructor
    · by_cases hs : ∃ f, Successful env s f
      · obtain ⟨f, hf⟩ := hs
        rw [(cycle_length u env s k f hinv hf).2.2.1, hcol]
      · rcases (do_proc_softirqs_fault u env s k hs).2.2.2 with h | ⟨h, _⟩
        · exact h
        · exact absurd h hne
    · intro f hs
      have hinv' := do_proc_softirqs_inv u env s k hinv
      have hc' := (cycle_length u env s k f hinv hs).2.2.1
      refine ⟨?_, ?_, ?_⟩
      · intro irr hi
        rw [hinv'.cols irr hi, hc', hcol]
      · intro l irr hi hu
        have := cycle_values u env s k f hinv hs l irr hi hu
        rw [hcol] at this
        exact this
      · rw [do_proc_softirqs_successful u env s k f hs]
        obtain ⟨T, hT, hP⟩ := collect_percore_columns u env.raw f (entered env s f) k
        refine ⟨T, hT, ?_⟩
        intro e he c l hsite
        have := hP e he c l hsite
        simpa [entered, hcol] using this

/-- C18 at the second cycle of a process, which reads a header of three columns after a first cycle on a header of two. -/
theorem column_count_is_fixed_witness :
    (∀ f, cycle_one.st.cpus = -1 → Successful (env_of table_three_cpus) cycle_one.st f →
      (do_proc_softirqs 1 (env_of table_three_cpus) cycle_one.st cycle_one.sink).st.cpus =
        ((f.getD 0 []).countP (fun w => w.take 3 = "CPU".toList) : Nat) ∧
      1 ≤ (do_proc_softirqs 1 (env_of table_three_cpus) cycle_one.st cycle_one.sink).st.cpus) ∧
    (1 ≤ cycle_one.st.cpus →
      (do_proc_softirqs 1 (env_of table_three_cpus) cycle_one.st cycle_one.sink).st.cpus =
        cycle_one.st.cpus ∧
      ∀ f, Successful (env_of table_three_cpus) cycle_one.st f →
        (∀ irr ∈ (do_proc_softirqs 1 (env_of table_three_cpus) cycle_one.st
            cycle_one.sink).st.irrs, irr.cpu.length = cycle_one.st.cpus.toNat) ∧
        (∀ l irr, (do_proc_softirqs 1 (env_of table_three_cpus) cycle_one.st
            cycle_one.sink).st.irrs[l]? = some irr → irr.used ≠ 0 →
          irr.cpu.map (fun x => x.value) =
            (List.range cycle_one.st.cpus.toNat).map (column_value (f.getD l [])) ∧
          irr.total = (irr.cpu.map (fun x => x.value)).sum % 2 ^ 64) ∧
        ∃ T, (do_proc_softirqs 1 (env_of table_three_cpus) cycle_one.st
            cycle_one.sink).sink.calls = cycle_one.sink.calls ++ T ∧
          ∀ e ∈ T, ∀ c l, e.1 = Site.percore c l → c < cycle_one.st.cpus.toNat) :=
  column_count_is_fixed 1 (env_of table_three_cpus) cycle_one.st cycle_one.sink
    (Reachable.step 1 (env_of table_two_rows) State.init Sink.empty (Reachable.init _))

/-- C13: with per-core emission enabled, when the chart of column `c` exists in the sink before a successful cycle, the cycle appends to it the value of column `c` of every used row, whatever the values are (nothing is assumed about them, so also when they are all zero): the last call made for the row in the loop of the column is `rrddim_set_by_pointer` on that chart with `cpu[c].value`; and the chart is still in the sink, at the same place, after the call, so the same holds for every later successful cycle. -/
theorem existing_column_series_gets_every_used_row (u : Int) (env : Env) (s : State)
    (k : Sink) (f : List (List CStr)) (c st l : Nat) (irr : interrupt)
    (hr : Reachable s k) (hs : Successful env s f)
    (hpc : (entered env s f).do_per_core ≠ 0) (hc : c < (columns s f).toNat)
    (hst : k.sets.findIdx? (is_cpu_chart c) = some st)
    (hi : (do_proc_softirqs u env s k).st.irrs[l]? = some irr) (hu : irr.used ≠ 0) :
    (do_proc_softirqs u env s k).sink.sets.findIdx? (is_cpu_chart c) = some st ∧
    ∃ T pre rd, (do_proc_softirqs u env s k).sink.calls = k.calls ++ T ∧
      T.filter (fun e => e.1 = Site.percore c l) = pre ++
        [(Site.percore c l,
          SinkCall.rrddim_set_by_pointer st rd (irr.cpu.getD c default).value)] := by
  refine ⟨(do_proc_softirqs_sets u env s k).find_some _ st hst, ?_⟩
  obtain ⟨x, T, kmA, xm, ym, Tc, h1, h2, h3, h4, _, h6, h7, h8, h9, h10⟩ :=
    cycle_at u env s k f (reachable_inv hr) hs hpc c l hc irr hi
  obtain ⟨T', t1, _, t3⟩ := percore_cpu_at u f.length c l h3 xm ym h6
  have hT : T' = Tc := List.append_cancel_left (t1.symm.trans h9)
  subst hT
  obtain ⟨km, hkm⟩ := t3 st (h8.find_some _ st hst)
  rw [← h10 l] at hkm
  have hdata : ym.data = irr.data := by
    have := congrArg Prod.fst h7
    simp only [interrupt.slot_at] at this
    rw [this, (aggregate_line_keep _ _ _ l x kmA).1, h2]
  have hym : ym.used ≠ 0 := by rw [used_of_data hdata]; exact hu
  have hv := value_of_data hdata c
  obtain ⟨_, c2, c3⟩ := percore_line_calls c st l ym km
  cases hrd : (ym.cpu.getD c default).rd with
  | none =>
    obtain ⟨rd, y, e, _⟩ := c2 hym hrd
    rw [hkm] at e
    have e' := List.append_cancel_left e
    refine ⟨T, [(Site.percore c l, SinkCall.rrddim_find st ym.id), (Site.percore c l, y)], rd,
      h4, ?_⟩
    rw [e', hv]
    rfl
  | some q =>
    have e := congrArg (fun z => z.2.calls) (c3 q hym hrd)
    simp only [rrddim_set_by_pointer] at e
    rw [hkm] at e
    have e' := List.append_cancel_left e
    exact ⟨T, [], q, h4, by rw [e', hv]; rfl⟩

/-- C13 at the row `NET_RX` and the column 0 of a cycle on `table_all_zero` that follows the first cycle on `table_two_rows`: the chart of column 0 exists, every value of the table is zero, and the zero of the row is appended. -/
theorem existing_column_series_gets_every_used_row_witness :
    (do_proc_softirqs 1 (env_of table_all_zero) cycle_one.st cycle_one.sink).sink.sets.findIdx?
      (is_cpu_chart 0) = some 1 ∧
    ∃ T pre rd, (do_proc_softirqs 1 (env_of table_all_zero) cycle_one.st
        cycle_one.sink).sink.calls = cycle_one.sink.calls ++ T ∧
      T.filter (fun e => e.1 = Site.percore 0 1) = pre ++
        [(Site.percore 0 1,
          SinkCall.rrddim_set_by_pointer 1 rd (rec_net_rx_zero.cpu.getD 0 default).value)] :=
  existing_column_series_gets_every_used_row 1 (env_of table_all_zero) cycle_one.st
    cycle_one.sink table_all_zero 0 1 1 rec_net_rx_zero
    (Reachable.step 1 (env_of table_two_rows) State.init Sink.empty (Reachable.init _))
    ⟨Or.inr rfl, rfl, by decide, by decide⟩ (by decide) (by decide) (by decide) (by decide)
    (by decide)

/-- C15. A successful cycle with per-core emission enabled, a used row `l`, and a column `c` whose series is active in the cycle (the loop of the column over the rows runs: some call is recorded in it).  If the aggregate handle of the row is resolved again in the cycle (a `rrddim_find` is recorded for the row in the aggregate loop), then the calls recorded for the row in the loop of the column are the `rrddim_find` by the id of the row on the chart of the column, then the `rrddim_add` or the `rrddim_set_name` with its name, then the append of `cpu[c].value` through the handle so resolved.  If the aggregate handle is reused (no `rrddim_find` is recorded for the row in the aggregate loop) and the record had a handle `q` for the column before the call, then the only call recorded for the row in the loop of the column is the append of `cpu[c].value` through `q`. -/
theorem percore_handles_follow_aggregate_handle (u : Int) (env : Env) (s : State) (k : Sink)
    (f : List (List CStr)) (c l : Nat) (irr : interrupt) (T : List (Site × SinkCall))
    (hr : Reachable s k) (hs : Successful env s f)
    (hpc : (entered env s f).do_per_core ≠ 0) (hc : c < (columns s f).toNat)
    (hi : (do_proc_softirqs u env s k).st.irrs[l]? = some irr) (hu : irr.used ≠ 0)
    (hT : (do_proc_softirqs u env s k).sink.calls = k.calls ++ T)
    (hact : ∃ e ∈ T, ∃ l', e.1 = Site.percore c l') :
    ((∃ st id, (Site.aggregate l, SinkCall.rrddim_find st id) ∈ T) →
      ∃ st rd x, T.filter (fun e => e.1 = Site.percore c l) =
          [(Site.percore c l, SinkCall.rrddim_find st irr.id), (Site.percore c l, x),
           (Site.percore c l,
            SinkCall.rrddim_set_by_pointer st rd (irr.cpu.getD c default).value)] ∧
        (x = SinkCall.rrddim_add st irr.id irr.name ∨
          x = SinkCall.rrddim_set_name st rd irr.name)) ∧
    ((¬ ∃ st id, (Site.aggregate l, SinkCall.rrddim_find st id) ∈ T) →
      ∀ a q, s.irrs[l]? = some a → (a.cpu.getD c default).rd = some q →
        ∃ st, T.filter (fun e => e.1 = Site.percore c l) =
          [(Site.percore c l,
            SinkCall.rrddim_set_by_pointer st q (irr.cpu.getD c default).value)]) := by
  obtain ⟨x, T', kmA, xm, ym, Tc, h1, h2, h3, h4, h5, h6, h7, _, h9, h10⟩ :=
    cycle_at u env s k f (reachable_inv hr) hs hpc c l hc irr hi
  have hTT : T' = T := List.append_cancel_left (h4.symm.trans hT)
  subst hTT
  obtain ⟨T'', t1, t2, _⟩ := percore_cpu_at u f.length c l h3 xm ym h6
  have hTc : T'' = Tc := List.append_cancel_left (t1.symm.trans h9)
  subst hTc
  have hrun : ∃ st km, (percore_line c st l ym km).2.calls =
      km.calls ++ T'.filter (fun e => e.1 = Site.percore c l) := by
    rcases t2 with hchart | hrun
    · obtain ⟨e, he, l', hl'⟩ := hact
      have he' : e ∈ T'.filter (fun e => e.1 = Site.percore c l') := by
        simp only [List.mem_filter, decide_eq_true_eq]
        exact ⟨he, hl'⟩
      rw [h10 l'] at he'
      have := hchart e (List.mem_filter.mp he').1
      rw [hl'] at this
      cases this
    · rw [h10 l]
      exact hrun
  obtain ⟨st, km, hkm⟩ := hrun
  have hslot := congrArg Prod.snd h7
  have hdata : ym.data = irr.data := by
    have := congrArg Prod.fst h7
    simp only [interrupt.slot_at] at this
    rw [this, (aggregate_line_keep _ _ _ l x kmA).1, h2]
  simp only [interrupt.slot_at] at hslot
  have hym : ym.used ≠ 0 := by rw [used_of_data hdata]; exact hu
  have hxu : x.used ≠ 0 := by rw [← used_of_data h2]; exact hu
  have hv := value_of_data hdata c
  have hid : ym.id = irr.id ∧ ym.name = irr.name := by
    unfold interrupt.data at hdata
    simp only [Prod.mk.injEq] at hdata
    exact ⟨hdata.2.1, hdata.2.2.1⟩
  obtain ⟨_, c2, c3⟩ := percore_line_calls c st l ym km
  rcases aggregate_line_cases (entered env s f).do_per_core (columns s f)
      (aggregate_chart u k).1 l x kmA with ⟨h0, _⟩ | ⟨_, ⟨rd, y, hcalls, _⟩, hclear⟩ |
      ⟨_, p, hp, hline⟩
  · exact absurd h0 hxu
  · rw [h5] at hcalls
    have hfilt := List.append_cancel_left hcalls
    constructor
    · intro _
      have hnone : (ym.cpu.getD c default).rd = none := by
        rw [hslot]
        exact hclear hpc c hc
      obtain ⟨rd', y', e, hy'⟩ := c2 hym hnone
      rw [hkm] at e
      have e' := List.append_cancel_left e
      rw [hid.1, hv] at e'
      rw [hid.1, hid.2] at hy'
      exact ⟨st, rd', y', e', hy'⟩
    · intro hno
      exfalso
      apply hno
      refine ⟨(aggregate_chart u k).1, x.id, ?_⟩
      have : (Site.aggregate l, SinkCall.rrddim_find (aggregate_chart u k).1 x.id) ∈
          T'.filter (fun e => e.1 = Site.aggregate l) := by
        rw [hfilt]
        simp
      exact (List.mem_filter.mp this).1
  · have hcalls := congrArg (fun z => z.2.calls) hline
    simp only [rrddim_set_by_pointer] at hcalls
    rw [h5] at hcalls
    have hfilt := List.append_cancel_left hcalls
    constructor
    · rintro ⟨st', id, hmem⟩
      exfalso
      have : (Site.aggregate l, SinkCall.rrddim_find st' id) ∈
          T'.filter (fun e => e.1 = Site.aggregate l) := by
        simp only [List.mem_filter, decide_eq_true_eq]
        exact ⟨hmem, trivial⟩
      rw [hfilt] at this
      simp at this
    · intro _ a q ha hq
      obtain ⟨r1, r2⟩ := parse_table_handles env.raw f (entered env s f) l x h1
      have hsame : f.length = (entered env s f).allocated := by
        by_contra hne
        rw [r1 hne] at hp
        cases hp
      obtain ⟨a', ha', _, hcpu⟩ := r2 hsame
      have haa : a' = a := by
        have : (entered env s f).irrs[l]? = s.irrs[l]? := rfl
        rw [this, ha] at ha'
        exact (Option.some.inj ha').symm
      subst haa
      have hsome : (ym.cpu.getD c default).rd = some q := by
        rw [hslot, hline, hcpu c, hq]
      have e := congrArg (fun z => z.2.calls) (c3 q hym hsome)
      simp only [rrddim_set_by_pointer] at e
      rw [hkm] at e
      have e' := List.append_cancel_left e
      exact ⟨st, by rw [e', hv]⟩

/-- C15 at the row `NET_RX` and the column 0, in the first cycle on `table_two_rows`, where the aggregate handle is resolved, and in a second cycle on the same table, where it is reused and the handle 2 of the column with it. -/
theorem percore_handles_follow_aggregate_handle_witness :
    (∃ st rd x, scenario_sink.calls.filter (fun e => e.1 = Site.percore 0 1) =
        [(Site.percore 0 1, SinkCall.rrddim_find st rec_net_rx.id), (Site.percore 0 1, x),
         (Site.percore 0 1,
          SinkCall.rrddim_set_by_pointer st rd (rec_net_rx.cpu.getD 0 default).value)] ∧
      (x = SinkCall.rrddim_add st rec_net_rx.id rec_net_rx.name ∨
        x = SinkCall.rrddim_set_name st rd rec_net_rx.name)) ∧
    ∃ st, cycle_two_calls.filter (fun e => e.1 = Site.percore 0 1) =
      [(Site.percore 0 1,
        SinkCall.rrddim_set_by_pointer st 2 (rec_net_rx.cpu.getD 0 default).value)] :=
  ⟨(percore_handles_follow_aggregate_handle 1 (env_of table_two_rows) State.init Sink.empty
      table_two_rows 0 1 rec_net_rx scenario_sink.calls (Reachable.init _)
      ⟨Or.inr rfl, rfl, by decide, by decide⟩ (by decide) (by decide) (by decide) (by decide)
      (by decide)
      ⟨(Site.percore 0 1, SinkCall.rrddim_set_by_pointer 1 2 10), by decide, 1, rfl⟩).1
      ⟨0, "NET_RX".toList, by decide⟩,
   (percore_handles_follow_aggregate_handle 1 (env_of table_two_rows) cycle_one.st
      cycle_one.sink table_two_rows 0 1 rec_net_rx cycle_two_calls
      (Reachable.step 1 (env_of table_two_rows) State.init Sink.empty (Reachable.init _))
      ⟨Or.inr rfl, rfl, by decide, by decide⟩ (by decide) (by decide) (by decide) (by decide)
      (by decide)
      ⟨(Site.percore 0 1, SinkCall.rrddim_set_by_pointer 1 2 10), by decide, 1, rfl⟩).2
      (by
        rintro ⟨st, id, h⟩
        simp [cycle_two_calls] at h)
      rec_net_rx 2 (by decide) (by decide)⟩

end Softirqs
